import Mathlib

/-!
# Numerical integration (`Foam::numericalIntegration`)

A verification development for `src/numericalIntegration/numericalIntegration.H`:
the two quadrature rules `Midpnt` and `Trapzd` and the drivers `qtrap`,
`qtrapfixed` and `qmid`.

Modelling conventions.

* `double` is idealised as an arbitrary linearly ordered field `K` (exact
  arithmetic); every definition is computable and can be run on `ℚ`.
* `int` is a 32-bit two's-complement integer: an `Int` that is brought back into
  range by `wrap32` after every arithmetic operation that can leave the range.
* A call of the bound function is recorded in the ghost field `evals` (the list of
  the arguments, in call order) and a call of `next()` is counted in the ghost
  field `calls`; neither has any influence on the computed values.
* The `throw` of a driver is the `Except.error` result.
* Division is the division of the field, for which `x / 0 = 0`.  The only division by zero
  that the code can reach is the one by `tnm = 0` in `Trapzd::next` from call 34 on (`it`
  is `0` after 32 shifts); no statement on the calls `1 .. 33` of `Trapzd`, on `Midpnt` or
  on `qtrap` and `qmid` meets it.  The estimates `trapEstimateStrict` and
  `midEstimateStrict` make the division partial: they are `none` as soon as a call divides
  by zero, where the source computes `0/0`.
* Statements that are not limited to exact arithmetic are decided on the rules with
  rounding (`Midpnt.nextFl`, `Trapzd.nextFl`, `qtrapfixedLoopFl`): every `double` operation
  of the source is followed by a rounding `fl`, which is `roundDouble` (IEEE 754 binary64,
  round to nearest, ties to even, each operation rounded once, exponent range not limited)
  for the `double` program and the identity for exact arithmetic.
-/

namespace Foam

/-- Value of a 32-bit two's-complement `int` holding the mathematical integer `z`. -/
def wrap32 (z : Int) : Int := (z + 2147483648) % 4294967296 - 2147483648

/-- The constant `JMAX` of `qtrap` and `qmid`. -/
def JMAX : Nat := 20

/-- The message thrown by `qtrap`. -/
def qtrapError : String := "Too many steps in routine qtrap"

/-- The message thrown by `qmid`. -/
def qmidError : String := "Too many steps in routine qmid"

/-- The loop `for(it=1,j=1;j<n-1;j++) it *= 3;` of `Midpnt::next`, as a function of the
number of iterations left and the current value of `it`. -/
def tripleLoop : Nat → Int → Int
  | 0, it => it
  | c + 1, it => tripleLoop c (wrap32 (it * 3))

/-- The loop `for (it=1,j=1;j<n-1;j++) it <<= 1;` of `Trapzd::next`, as a function of the
number of iterations left and the current value of `it`. -/
def shiftLoop : Nat → Int → Int
  | 0, it => it
  | c + 1, it => shiftLoop c (wrap32 (it * 2))

/-- Number of iterations of a loop `for (j=1; j<n-1; j++)` over `int`s. -/
def loopCount (n : Int) : Nat := (wrap32 (n - 1) - 1).toNat

/-- State of a `Midpnt<T>` object: the `int n` of `Quadrature`, the members `a`, `b`, `s`
and the bound function `funk`, with the ghost fields `calls` and `evals`. -/
structure Midpnt (K : Type) where
  n : Int
  a : K
  b : K
  s : K
  funk : K → K
  calls : Nat
  evals : List K

/-- State of a `Trapzd<T>` object: the `int n` of `Quadrature`, the members `a`, `b`, `s`
and the bound function `func`, with the ghost fields `calls` and `evals`. -/
structure Trapzd (K : Type) where
  n : Int
  a : K
  b : K
  s : K
  func : K → K
  calls : Nat
  evals : List K

section Rules

variable {K : Type} [LinearOrderedField K]

/-- Constructor `Midpnt(funcc, aa, bb)`: binds the function and the interval and sets
`n=0`.  The member `s` is left uninitialised by the source; it is written by the first
`next()` before it is ever read, and is `0` here. -/
def Midpnt.new (funcc : K → K) (aa bb : K) : Midpnt K :=
  { n := 0, a := aa, b := bb, s := 0, funk := funcc, calls := 0, evals := [] }

/-- Member `Midpnt::func`: forwards to the bound function. -/
def Midpnt.func (t : Midpnt K) (x : K) : K := t.funk x

/-- The summation loop of `Midpnt::next`,
`for (j=0;j<it;j++) { sum += func(x); x += ddel; sum += func(x); x += del; }`,
as a function of the number of iterations left, `x`, `sum` and the evaluation log. -/
def Midpnt.sumLoop (t : Midpnt K) (del ddel : K) : Nat → K → K → List K → K × List K
  | 0, _, sum, log => (sum, log)
  | c + 1, x, sum, log =>
    Midpnt.sumLoop t del ddel c (x + ddel + del) (sum + t.func x + t.func (x + ddel))
      (log ++ [x, x + ddel])

/-- Member `Midpnt::next`: the returned value and the state after the call. -/
def Midpnt.next (t : Midpnt K) : K × Midpnt K :=
  let n := wrap32 (t.n + 1)
  if n = 1 then
    let x := (1 / 2) * (t.a + t.b)
    let s := (t.b - t.a) * t.func x
    (s, { t with n := n, s := s, calls := t.calls + 1, evals := t.evals ++ [x] })
  else
    let it := tripleLoop (loopCount n) 1
    let tnm : K := (it : K)
    let del := (t.b - t.a) / (3 * tnm)
    let ddel := del + del
    let x := t.a + (1 / 2) * del
    let r := Midpnt.sumLoop t del ddel it.toNat x 0 t.evals
    let s := (t.s + (t.b - t.a) * r.1 / tnm) / 3
    (s, { t with n := n, s := s, calls := t.calls + 1, evals := r.2 })

/-- Constructor `Trapzd(funcc, aa, bb)`: binds the function and the interval and sets
`n=0`.  The member `s` is left uninitialised by the source; it is written by the first
`next()` before it is ever read, and is `0` here. -/
def Trapzd.new (funcc : K → K) (aa bb : K) : Trapzd K :=
  { n := 0, a := aa, b := bb, s := 0, func := funcc, calls := 0, evals := [] }

/-- The summation loop of `Trapzd::next`,
`for (sum=0.0,j=0;j<it;j++,x+=del) sum += func(x);`,
as a function of the number of iterations left, `x`, `sum` and the evaluation log. -/
def Trapzd.sumLoop (t : Trapzd K) (del : K) : Nat → K → K → List K → K × List K
  | 0, _, sum, log => (sum, log)
  | c + 1, x, sum, log => Trapzd.sumLoop t del c (x + del) (sum + t.func x) (log ++ [x])

/-- Member `Trapzd::next`: the returned value and the state after the call. -/
def Trapzd.next (t : Trapzd K) : K × Trapzd K :=
  let n := wrap32 (t.n + 1)
  if n = 1 then
    let s := (1 / 2) * (t.b - t.a) * (t.func t.a + t.func t.b)
    (s, { t with n := n, s := s, calls := t.calls + 1, evals := t.evals ++ [t.a, t.b] })
  else
    let it := shiftLoop (loopCount n) 1
    let tnm : K := (it : K)
    let del := (t.b - t.a) / tnm
    let x := t.a + (1 / 2) * del
    let r := Trapzd.sumLoop t del it.toNat x 0 t.evals
    let s := (1 / 2) * (t.s + (t.b - t.a) * r.1 / tnm)
    (s, { t with n := n, s := s, calls := t.calls + 1, evals := r.2 })

/-- State of a `Midpnt` object after `k` further calls of `next()`. -/
def Midpnt.after : Nat → Midpnt K → Midpnt K
  | 0, t => t
  | k + 1, t => Midpnt.after k t.next.2

/-- State of a `Trapzd` object after `k` further calls of `next()`. -/
def Trapzd.after : Nat → Trapzd K → Trapzd K
  | 0, t => t
  | k + 1, t => Trapzd.after k t.next.2

/-- Value returned by the `k`-th call (`k = 1, 2, ...`) of `next()` on a freshly
constructed `Midpnt(f, a, b)`. -/
def midEstimate (f : K → K) (a b : K) (k : Nat) : K :=
  (Midpnt.after (k - 1) (Midpnt.new f a b)).next.1

/-- Value returned by the `k`-th call (`k = 1, 2, ...`) of `next()` on a freshly
constructed `Trapzd(f, a, b)`. -/
def trapEstimate (f : K → K) (a b : K) (k : Nat) : K :=
  (Trapzd.after (k - 1) (Trapzd.new f a b)).next.1

/-- The loop of `qtrap`, `for (int j=0;j<JMAX;j++) { s=t.next(); if (j > 5) if (...) return s;
olds=s; }` followed by the `throw`, as a function of the number `JMAX - j` of
iterations left, `j`, `olds` and the rule; the result comes with the final state of the
rule. -/
def qtrapLoop (eps : K) : Nat → Int → K → Trapzd K → Except String K × Trapzd K
  | 0, _, _, t => (Except.error qtrapError, t)
  | r + 1, j, olds, t =>
    let s := t.next.1
    if j > 5 ∧ (|s - olds| < eps * |olds| ∨ (s = 0 ∧ olds = 0)) then
      (Except.ok s, t.next.2)
    else
      qtrapLoop eps r (j + 1) s t.next.2

/-- Driver `qtrap` together with the final state of its rule. -/
def qtrapRun (func : K → K) (a b eps : K) : Except String K × Trapzd K :=
  qtrapLoop eps JMAX 0 0 (Trapzd.new func a b)

/-- Driver `qtrap(func, a, b, eps)`. -/
def qtrap (func : K → K) (a b eps : K) : Except String K :=
  (qtrapRun func a b eps).1

/-- The loop of `qmid`, with the same structure as that of `qtrap`, over a `Midpnt`. -/
def qmidLoop (eps : K) : Nat → Int → K → Midpnt K → Except String K × Midpnt K
  | 0, _, _, t => (Except.error qmidError, t)
  | r + 1, j, olds, t =>
    let s := t.next.1
    if j > 5 ∧ (|s - olds| < eps * |olds| ∨ (s = 0 ∧ olds = 0)) then
      (Except.ok s, t.next.2)
    else
      qmidLoop eps r (j + 1) s t.next.2

/-- Driver `qmid` together with the final state of its rule. -/
def qmidRun (func : K → K) (a b eps : K) : Except String K × Midpnt K :=
  qmidLoop eps JMAX 0 0 (Midpnt.new func a b)

/-- Driver `qmid(func, a, b, eps)`. -/
def qmid (func : K → K) (a b eps : K) : Except String K :=
  (qmidRun func a b eps).1

/-- The loop `for(int j=1;j<=m+1;j++) s=t.next();` of `qtrapfixed`.  The counter `j` is an
`int` that is compared with the `double` value `m+1`; the loop need not terminate, so the
function takes a bound `fuel` on the number of loop tests and is `none` when the bound is
reached.  The result is the final `s` with the final state of the rule. -/
def qtrapfixedLoop (m : K) : Nat → Int → K → Trapzd K → Option (K × Trapzd K)
  | 0, _, _, _ => none
  | fuel + 1, j, s, t =>
    if (j : K) ≤ m + 1 then qtrapfixedLoop m fuel (wrap32 (j + 1)) t.next.1 t.next.2
    else some (s, t)

/-- Driver `qtrapfixed` together with the final state of its rule. -/
def qtrapfixedRun (fuel : Nat) (func : K → K) (a b m : K) : Option (K × Trapzd K) :=
  qtrapfixedLoop m fuel 1 0 (Trapzd.new func a b)

/-- Driver `qtrapfixed(func, a, b, m)`. -/
def qtrapfixed (fuel : Nat) (func : K → K) (a b m : K) : Option K :=
  (qtrapfixedRun fuel func a b m).map Prod.fst

end Rules

/-! ### Reference formulas (from the specification) -/

section Formulas

variable {K : Type} [LinearOrderedField K]

/-- Composite trapezoidal sum with `N` equal panels:
`((b-a)/N) * ((f(a)+f(b))/2 + sum_{i=1}^{N-1} f(a + i*(b-a)/N))`. -/
def trapFormula (f : K → K) (a b : K) (N : Nat) : K :=
  ((b - a) / N) * ((f a + f b) / 2 + ∑ i in Finset.Ico 1 N, f (a + i * (b - a) / N))

/-- Composite midpoint sum with `N` equal panels:
`((b-a)/N) * sum_{i=0}^{N-1} f(a + (i + 1/2)*(b-a)/N)`. -/
def midFormula (f : K → K) (a b : K) (N : Nat) : K :=
  ((b - a) / N) * ∑ i in Finset.range N, f (a + (i + 1 / 2) * (b - a) / N)

/-- The midpoints of `N` equal panels of `[a, b]`, from left to right:
`a + (i + 1/2)*(b-a)/N` for `i = 0 .. N-1`. -/
def panelMidpoints (a b : K) (N : Nat) : List K :=
  (List.range N).map (fun i : Nat => a + ((i : K) + 1 / 2) * (b - a) / N)

end Formulas

/-! ### Auxiliary definitions of the proofs -/

/-- State of a rule after `k` calls of `next`. -/
def iterNext {K σ : Type} (next : σ → K × σ) : Nat → σ → σ
  | 0, t => t
  | k + 1, t => iterNext next k (next t).2

/-- Value returned by call `k` (`k = 1, 2, ...`) of `next` from the state `t`. -/
def estimateOf {K σ : Type} (next : σ → K × σ) (t : σ) (k : Nat) : K :=
  (next (iterNext next (k - 1) t)).1

section Auxiliary

variable {K : Type} [LinearOrderedField K]

/-- The sum of the function values taken by call `k + 1` of `Trapzd::next`. -/
def Trapzd.newSum (t : Trapzd K) (k : Nat) : K :=
  ∑ i in Finset.range (2 ^ (k - 1)),
    t.func (t.a + (1 / 2) * ((t.b - t.a) / 2 ^ (k - 1)) + i * ((t.b - t.a) / 2 ^ (k - 1)))

/-- The points at which call `k + 1` of `Trapzd::next` evaluates the function. -/
def Trapzd.newPoints (t : Trapzd K) (k : Nat) : List K :=
  (List.range (2 ^ (k - 1))).map
    (fun i : Nat => t.a + (1 / 2) * ((t.b - t.a) / 2 ^ (k - 1)) + i * ((t.b - t.a) / 2 ^ (k - 1)))

/-- The step `del` of call `k + 1` of `Midpnt::next`. -/
def Midpnt.step (t : Midpnt K) (k : Nat) : K := (t.b - t.a) / (3 * 3 ^ (k - 1))

/-- The sum of the function values taken by call `k + 1` of `Midpnt::next`. -/
def Midpnt.newSum (t : Midpnt K) (k : Nat) : K :=
  ∑ i in Finset.range (3 ^ (k - 1)),
    (t.funk (t.a + (1 / 2) * t.step k + i * (t.step k + t.step k + t.step k)) +
      t.funk (t.a + (1 / 2) * t.step k + i * (t.step k + t.step k + t.step k) +
        (t.step k + t.step k)))

/-- The points at which call `k + 1` of `Midpnt::next` evaluates the function. -/
def Midpnt.newPoints (t : Midpnt K) (k : Nat) : List K :=
  (List.range (3 ^ (k - 1))).flatMap
    (fun i : Nat => [t.a + (1 / 2) * t.step k + i * (t.step k + t.step k + t.step k),
      t.a + (1 / 2) * t.step k + i * (t.step k + t.step k + t.step k) + (t.step k + t.step k)])

/-- The stopping test of `qtrap` and `qmid` on the new estimate `s` and the previous one
`olds`: `std::abs(s-olds) < eps*std::abs(olds) || (s == 0.0 && olds == 0.0)`. -/
def converged (eps s olds : K) : Prop := |s - olds| < eps * |olds| ∨ (s = 0 ∧ olds = 0)

instance (eps s olds : K) : Decidable (converged eps s olds) := by
  unfold converged
  infer_instance

/-- The common shape of the loops of `qtrap` and `qmid`, over any rule with state `σ`. -/
def driverLoop {σ : Type} (next : σ → K × σ) (err : String) (eps : K) :
    Nat → Int → K → σ → Except String K × σ
  | 0, _, _, t => (Except.error err, t)
  | r + 1, j, olds, t =>
    if j > 5 ∧ converged eps (next t).1 olds then (Except.ok (next t).1, (next t).2)
    else driverLoop next err eps r (j + 1) (next t).1 (next t).2

/-- Two `Trapzd` states that went through the same calls on the same function, with the
endpoints swapped: equal counters and opposite running estimates. -/
def Trapzd.Mirrored (t u : Trapzd K) : Prop :=
  u.n = t.n ∧ u.a = t.b ∧ u.b = t.a ∧ u.func = t.func ∧ u.s = -t.s

/-- Two `Midpnt` states that went through the same calls on the same function, with the
endpoints swapped: equal counters and opposite running estimates. -/
def Midpnt.Mirrored (t u : Midpnt K) : Prop :=
  u.n = t.n ∧ u.a = t.b ∧ u.b = t.a ∧ u.funk = t.funk ∧ u.s = -t.s

/-- Three `Trapzd` states that went through the same calls on the same interval, the third
one bound to the combination `alpha * f + beta * g` of the functions of the first two. -/
def Trapzd.Combined (alpha beta : K) (t1 t2 t : Trapzd K) : Prop :=
  t1.n = t.n ∧ t2.n = t.n ∧ t1.a = t.a ∧ t2.a = t.a ∧ t1.b = t.b ∧ t2.b = t.b ∧
    t.func = (fun x => alpha * t1.func x + beta * t2.func x) ∧ t.s = alpha * t1.s + beta * t2.s

/-- Three `Midpnt` states that went through the same calls on the same interval, the third
one bound to the combination `alpha * f + beta * g` of the functions of the first two. -/
def Midpnt.Combined (alpha beta : K) (t1 t2 t : Midpnt K) : Prop :=
  t1.n = t.n ∧ t2.n = t.n ∧ t1.a = t.a ∧ t2.a = t.a ∧ t1.b = t.b ∧ t2.b = t.b ∧
    t.funk = (fun x => alpha * t1.funk x + beta * t2.funk x) ∧ t.s = alpha * t1.s + beta * t2.s

end Auxiliary

/-! ### Rounded arithmetic

The rules once more, with every `double` operation followed by a rounding `fl : K → K`.
With `fl = id` these are the definitions above; with `fl = roundDouble` on `ℚ` they follow
the `double` arithmetic of the source as long as no result leaves the range of the normal
numbers.  They serve to decide the claims that are not limited to exact arithmetic. -/

/-- Rounding of a rational to the nearest integer, a tie going to the even neighbour. -/
def roundHalfEven (r : ℚ) : ℤ :=
  if r - ⌊r⌋ < 1 / 2 then ⌊r⌋
  else if 1 / 2 < r - ⌊r⌋ then ⌊r⌋ + 1
  else if ⌊r⌋ % 2 = 0 then ⌊r⌋ else ⌊r⌋ + 1

/-- Rounding of a rational to the nearest `double`: 53 significant bits, a tie going to the
even significand; the exponent range is not limited. -/
def roundDouble (q : ℚ) : ℚ :=
  if q = 0 then 0
  else (roundHalfEven (q / 2 ^ (Int.log 2 |q| - 52)) : ℚ) * 2 ^ (Int.log 2 |q| - 52)

section Rounded

variable {K : Type} [LinearOrderedField K]

/-- The summation loop of `Midpnt::next` with rounding `fl`:
`sum += func(x); x += ddel; sum += func(x); x += del;`. -/
def Midpnt.sumLoopFl (fl : K → K) (t : Midpnt K) (del ddel : K) :
    Nat → K → K → List K → K × List K
  | 0, _, sum, log => (sum, log)
  | c + 1, x, sum, log =>
    Midpnt.sumLoopFl fl t del ddel c (fl (fl (x + ddel) + del))
      (fl (fl (sum + t.func x) + t.func (fl (x + ddel)))) (log ++ [x, fl (x + ddel)])

/-- Member `Midpnt::next` with rounding `fl`; the conversion `tnm=it` is exact. -/
def Midpnt.nextFl (fl : K → K) (t : Midpnt K) : K × Midpnt K :=
  let n := wrap32 (t.n + 1)
  if n = 1 then
    let x := fl ((1 / 2) * fl (t.a + t.b))
    let s := fl (fl (t.b - t.a) * t.func x)
    (s, { t with n := n, s := s, calls := t.calls + 1, evals := t.evals ++ [x] })
  else
    let it := tripleLoop (loopCount n) 1
    let tnm : K := (it : K)
    let del := fl (fl (t.b - t.a) / fl (3 * tnm))
    let ddel := fl (del + del)
    let x := fl (t.a + fl ((1 / 2) * del))
    let r := Midpnt.sumLoopFl fl t del ddel it.toNat x 0 t.evals
    let s := fl (fl (t.s + fl (fl (fl (t.b - t.a) * r.1) / tnm)) / 3)
    (s, { t with n := n, s := s, calls := t.calls + 1, evals := r.2 })

/-- The summation loop of `Trapzd::next` with rounding `fl`:
`for (sum=0.0,j=0;j<it;j++,x+=del) sum += func(x);`. -/
def Trapzd.sumLoopFl (fl : K → K) (t : Trapzd K) (del : K) :
    Nat → K → K → List K → K × List K
  | 0, _, sum, log => (sum, log)
  | c + 1, x, sum, log =>
    Trapzd.sumLoopFl fl t del c (fl (x + del)) (fl (sum + t.func x)) (log ++ [x])

/-- Member `Trapzd::next` with rounding `fl`; the conversion `tnm=it` is exact. -/
def Trapzd.nextFl (fl : K → K) (t : Trapzd K) : K × Trapzd K :=
  let n := wrap32 (t.n + 1)
  if n = 1 then
    let s := fl (fl ((1 / 2) * fl (t.b - t.a)) * fl (t.func t.a + t.func t.b))
    (s, { t with n := n, s := s, calls := t.calls + 1, evals := t.evals ++ [t.a, t.b] })
  else
    let it := shiftLoop (loopCount n) 1
    let tnm : K := (it : K)
    let del := fl (fl (t.b - t.a) / tnm)
    let x := fl (t.a + fl ((1 / 2) * del))
    let r := Trapzd.sumLoopFl fl t del it.toNat x 0 t.evals
    let s := fl ((1 / 2) * fl (t.s + fl (fl (fl (t.b - t.a) * r.1) / tnm)))
    (s, { t with n := n, s := s, calls := t.calls + 1, evals := r.2 })

/-- State of a `Midpnt` object after `k` further calls of `next()` with rounding `fl`. -/
def Midpnt.afterFl (fl : K → K) : Nat → Midpnt K → Midpnt K
  | 0, t => t
  | k + 1, t => Midpnt.afterFl fl k (t.nextFl fl).2

/-- State of a `Trapzd` object after `k` further calls of `next()` with rounding `fl`. -/
def Trapzd.afterFl (fl : K → K) : Nat → Trapzd K → Trapzd K
  | 0, t => t
  | k + 1, t => Trapzd.afterFl fl k (t.nextFl fl).2

/-- The loop `for(int j=1;j<=m+1;j++) s=t.next();` of `qtrapfixed` with rounding `fl`: the
sum `m+1` is rounded before it is compared with `j`. -/
def qtrapfixedLoopFl (fl : K → K) (m : K) : Nat → Int → K → Trapzd K → Option (K × Trapzd K)
  | 0, _, _, _ => none
  | fuel + 1, j, s, t =>
    if (j : K) ≤ fl (m + 1) then
      qtrapfixedLoopFl fl m fuel (wrap32 (j + 1)) (t.nextFl fl).1 (t.nextFl fl).2
    else some (s, t)

/-- Driver `qtrapfixed` with rounding `fl`, together with the final state of its rule. -/
def qtrapfixedRunFl (fl : K → K) (fuel : Nat) (func : K → K) (a b m : K) :
    Option (K × Trapzd K) :=
  qtrapfixedLoopFl fl m fuel 1 0 (Trapzd.new func a b)

/-! ### Division as a partial operation

In exact arithmetic a call of `next()` has a value only if it does not divide by zero. -/

/-- The call of `Trapzd::next` in state `t` divides by `tnm = 0`: it is not a first call
and the shift loop leaves `it = 0`. -/
def Trapzd.dividesByZero (t : Trapzd K) : Prop :=
  wrap32 (t.n + 1) ≠ 1 ∧ shiftLoop (loopCount (wrap32 (t.n + 1))) 1 = 0

instance (t : Trapzd K) : Decidable t.dividesByZero := by
  unfold Trapzd.dividesByZero
  infer_instance

/-- The call of `Midpnt::next` in state `t` divides by `3.0*tnm = 0`: it is not a first call
and the loop `it *= 3` leaves `it = 0`. -/
def Midpnt.dividesByZero (t : Midpnt K) : Prop :=
  wrap32 (t.n + 1) ≠ 1 ∧ tripleLoop (loopCount (wrap32 (t.n + 1))) 1 = 0

instance (t : Midpnt K) : Decidable t.dividesByZero := by
  unfold Midpnt.dividesByZero
  infer_instance

/-- State of a `Trapzd` object after `k` further calls of `next()`, none of which divides
by zero; `none` if one of them does. -/
def Trapzd.afterStrict : Nat → Trapzd K → Option (Trapzd K)
  | 0, t => some t
  | k + 1, t => if t.dividesByZero then none else Trapzd.afterStrict k t.next.2

/-- State of a `Midpnt` object after `k` further calls of `next()`, none of which divides
by zero; `none` if one of them does. -/
def Midpnt.afterStrict : Nat → Midpnt K → Option (Midpnt K)
  | 0, t => some t
  | k + 1, t => if t.dividesByZero then none else Midpnt.afterStrict k t.next.2

/-- The `k`-th estimate (`k = 1, 2, ...`) of a fresh `Trapzd(f, a, b)` in exact arithmetic
with division as a partial operation: `none` if one of the first `k` calls divides by zero. -/
def trapEstimateStrict (f : K → K) (a b : K) (k : Nat) : Option K :=
  (Trapzd.afterStrict k (Trapzd.new f a b)).map (fun t => t.s)

/-- The `k`-th estimate (`k = 1, 2, ...`) of a fresh `Midpnt(f, a, b)` in exact arithmetic
with division as a partial operation: `none` if one of the first `k` calls divides by zero. -/
def midEstimateStrict (f : K → K) (a b : K) (k : Nat) : Option K :=
  (Midpnt.afterStrict k (Midpnt.new f a b)).map (fun t => t.s)

end Rounded

/-! ### Machine integers -/

theorem wrap32_eq {z : Int} (h1 : -2147483648 ≤ z) (h2 : z < 2147483648) : wrap32 z = z := by
  unfold wrap32
  rw [Int.emod_eq_of_lt (by omega) (by omega)]
  omega

theorem wrap32_natCast {k : Nat} (h : k < 2147483648) : wrap32 (k : Int) = k :=
  wrap32_eq (by omega) (by omega)

theorem shiftLoop_eq (c : Nat) (it : Int) (h0 : 0 ≤ it) (h : it * 2 ^ c < 2147483648) :
    shiftLoop c it = it * 2 ^ c := by
  induction c generalizing it with
  | zero => simp [shiftLoop]
  | succ c ih =>
    have hp : (0 : Int) < 2 ^ c := by positivity
    have e : it * 2 ^ (c + 1) = it * 2 * 2 ^ c := by ring
    rw [e] at h
    have hle : it * 2 ≤ it * 2 * 2 ^ c := le_mul_of_one_le_right (by omega) (by omega)
    rw [shiftLoop, wrap32_eq (by omega) (by omega), ih (it * 2) (by omega) h, e]

theorem tripleLoop_eq (c : Nat) (it : Int) (h0 : 0 ≤ it) (h : it * 3 ^ c < 2147483648) :
    tripleLoop c it = it * 3 ^ c := by
  induction c generalizing it with
  | zero => simp [tripleLoop]
  | succ c ih =>
    have hp : (0 : Int) < 3 ^ c := by positivity
    have e : it * 3 ^ (c + 1) = it * 3 * 3 ^ c := by ring
    rw [e] at h
    have hle : it * 3 ≤ it * 3 * 3 ^ c := le_mul_of_one_le_right (by omega) (by omega)
    rw [tripleLoop, wrap32_eq (by omega) (by omega), ih (it * 3) (by omega) h, e]

theorem shiftLoop_one {c : Nat} (h : c ≤ 30) : shiftLoop c 1 = 2 ^ c := by
  have h2 : (2 : Int) ^ c ≤ 2 ^ 30 := pow_le_pow_right₀ (by norm_num) h
  rw [shiftLoop_eq c 1 (by norm_num) (by norm_num at h2 ⊢; omega), one_mul]

theorem tripleLoop_one {c : Nat} (h : c ≤ 19) : tripleLoop c 1 = 3 ^ c := by
  have h2 : (3 : Int) ^ c ≤ 3 ^ 19 := pow_le_pow_right₀ (by norm_num) h
  rw [tripleLoop_eq c 1 (by norm_num) (by norm_num at h2 ⊢; omega), one_mul]

theorem loopCount_succ {k : Nat} (h : k < 2147483648) : loopCount ((k : Int) + 1) = k - 1 := by
  unfold loopCount
  rw [add_sub_cancel_right, wrap32_natCast h]
  omega

/-! ### The trapezoidal rule -/

section TrapzdFacts

variable {K : Type} [LinearOrderedField K]

theorem Trapzd_sumLoop_eq (t : Trapzd K) (del : K) (c : Nat) (x sum : K) (log : List K) :
    Trapzd.sumLoop t del c x sum log =
      (sum + ∑ i in Finset.range c, t.func (x + i * del),
        log ++ (List.range c).map (fun i : Nat => x + i * del)) := by
  induction c generalizing x sum log with
  | zero => simp [Trapzd.sumLoop]
  | succ c ih =>
    rw [Trapzd.sumLoop, ih, Finset.sum_range_succ', List.range_succ_eq_map]
    refine Prod.ext ?_ ?_
    · simp only [Nat.cast_add, Nat.cast_one, Nat.cast_zero, zero_mul, add_zero]
      rw [add_assoc, add_comm (t.func x)]
      congr 2
      refine Finset.sum_congr rfl (fun i _ => ?_)
      congr 1
      ring
    · simp only [List.map_cons, List.map_map, Nat.cast_zero, zero_mul, add_zero,
        List.append_assoc, List.singleton_append]
      congr 2
      refine List.map_congr_left (fun i _ => ?_)
      simp only [Function.comp, Nat.cast_succ]
      ring

/-- The first call of `next()`. -/
theorem Trapzd_next_first (t : Trapzd K) (h : t.n = 0) :
    t.next = ((1 / 2) * (t.b - t.a) * (t.func t.a + t.func t.b),
      { t with n := 1, s := (1 / 2) * (t.b - t.a) * (t.func t.a + t.func t.b),
               calls := t.calls + 1, evals := t.evals ++ [t.a, t.b] }) := by
  have e : wrap32 (t.n + 1) = 1 := by rw [h]; decide
  simp [Trapzd.next, e]

/-- Call `k + 1` of `next()` for `1 ≤ k ≤ 31`. -/
theorem Trapzd_next_later (t : Trapzd K) (k : Nat) (h : t.n = k) (h1 : 1 ≤ k) (h31 : k ≤ 31) :
    t.next = ((1 / 2) * (t.s + (t.b - t.a) * t.newSum k / 2 ^ (k - 1)),
      { t with n := (k : Int) + 1, s := (1 / 2) * (t.s + (t.b - t.a) * t.newSum k / 2 ^ (k - 1)),
               calls := t.calls + 1, evals := t.evals ++ t.newPoints k }) := by
  have e : wrap32 (t.n + 1) = (k : Int) + 1 := by
    rw [h]; exact wrap32_eq (by omega) (by omega)
  have ne : ¬ ((k : Int) + 1 = 1) := by omega
  have hs : shiftLoop (k - 1) 1 = 2 ^ (k - 1) := shiftLoop_one (by omega)
  have hn : ((2 : Int) ^ (k - 1)).toNat = 2 ^ (k - 1) := by
    have : ((2 : Int) ^ (k - 1)) = ((2 ^ (k - 1) : Nat) : Int) := by push_cast; rfl
    rw [this, Int.toNat_natCast]
  simp only [Trapzd.next, e, ne, if_false, loopCount_succ (show k < 2147483648 by omega), hs, hn,
    Trapzd_sumLoop_eq, zero_add, Int.cast_pow, Int.cast_ofNat, Trapzd.newSum, Trapzd.newPoints]

end TrapzdFacts

section TrapzdFormula

variable {K : Type} [LinearOrderedField K]

/-- Splitting a sum over `1 ≤ i < 2 N` into its even and odd indices. -/
theorem sum_Ico_one_double (g : Nat → K) (N : Nat) (hN : 1 ≤ N) :
    ∑ i in Finset.Ico 1 (2 * N), g i =
      ∑ i in Finset.Ico 1 N, g (2 * i) + ∑ i in Finset.range N, g (2 * i + 1) := by
  induction N, hN using Nat.le_induction with
  | base => simp
  | succ N hN ih =>
    rw [show 2 * (N + 1) = 2 * N + 1 + 1 by ring,
      Finset.sum_Ico_succ_top (by omega), Finset.sum_Ico_succ_top (by omega), ih,
      Finset.sum_Ico_succ_top hN, Finset.sum_range_succ]
    ring

/-- Refinement step of the composite trapezoidal sum: halving the panels adds the
midpoints of the old panels. -/
theorem trapFormula_double (f : K → K) (a b : K) (N : Nat) (hN : 1 ≤ N) :
    trapFormula f a b (2 * N) =
      (1 / 2) * (trapFormula f a b N + (b - a) *
        (∑ i in Finset.range N, f (a + (1 / 2) * ((b - a) / N) + i * ((b - a) / N))) / N) := by
  have hN0 : (N : K) ≠ 0 := Nat.cast_ne_zero.mpr (by omega)
  unfold trapFormula
  rw [sum_Ico_one_double _ N hN]
  have e1 : ∀ i : Nat, f (a + ((2 * i : Nat) : K) * (b - a) / ((2 * N : Nat) : K)) =
      f (a + i * (b - a) / N) := by
    intro i
    congr 1
    push_cast
    field_simp
    ring
  have e2 : ∀ i : Nat, f (a + ((2 * i + 1 : Nat) : K) * (b - a) / ((2 * N : Nat) : K)) =
      f (a + (1 / 2) * ((b - a) / N) + i * ((b - a) / N)) := by
    intro i
    congr 1
    push_cast
    field_simp
    ring
  simp only [e1, e2]
  push_cast
  field_simp
  ring

theorem Trapzd_after_succ (k : Nat) (t : Trapzd K) :
    Trapzd.after (k + 1) t = (Trapzd.after k t).next.2 := by
  induction k generalizing t with
  | zero => rfl
  | succ k ih => rw [Trapzd.after, ih, ← Trapzd.after]

/-- State of a fresh `Trapzd(f, a, b)` after `k` calls of `next()`, `1 ≤ k ≤ 32`: the
counter is `k` and `s` is the composite trapezoidal sum with `2^(k-1)` panels. -/
theorem Trapzd_after_new (f : K → K) (a b : K) (k : Nat) (h1 : 1 ≤ k) (h32 : k ≤ 32) :
    (Trapzd.after k (Trapzd.new f a b)).n = k ∧
    (Trapzd.after k (Trapzd.new f a b)).a = a ∧
    (Trapzd.after k (Trapzd.new f a b)).b = b ∧
    (Trapzd.after k (Trapzd.new f a b)).func = f ∧
    (Trapzd.after k (Trapzd.new f a b)).calls = k ∧
    (Trapzd.after k (Trapzd.new f a b)).s = trapFormula f a b (2 ^ (k - 1)) := by
  induction k, h1 using Nat.le_induction with
  | base =>
    simp only [Trapzd.after, Trapzd_next_first (Trapzd.new f a b) rfl]
    simp [Trapzd.new, trapFormula]
    ring
  | succ k h1 ih =>
    obtain ⟨hn, ha, hb, hf, hc, hs⟩ := ih (by omega)
    rw [Trapzd_after_succ, Trapzd_next_later _ k hn h1 (by omega)]
    refine ⟨by simp, ha, hb, hf, by simp [hc], ?_⟩
    simp only [Trapzd.newSum, ha, hb, hf, hs]
    have e : 2 ^ (k + 1 - 1) = 2 * 2 ^ (k - 1) := by
      rw [Nat.add_sub_cancel, ← pow_succ', Nat.sub_add_cancel h1]
    rw [e, trapFormula_double f a b (2 ^ (k - 1)) Nat.one_le_two_pow]
    push_cast
    rfl

end TrapzdFormula

section TrapzdEstimates

variable {K : Type} [LinearOrderedField K]

theorem Trapzd_next_fst (t : Trapzd K) : t.next.1 = t.next.2.s := by
  simp only [Trapzd.next]
  split_ifs <;> rfl

theorem trapEstimate_eq_s (f : K → K) (a b : K) (k : Nat) (h1 : 1 ≤ k) :
    trapEstimate f a b k = (Trapzd.after k (Trapzd.new f a b)).s := by
  obtain ⟨j, rfl⟩ : ∃ j, k = j + 1 := ⟨k - 1, by omega⟩
  rw [trapEstimate, Nat.add_sub_cancel, Trapzd_after_succ, Trapzd_next_fst]

theorem trapEstimate_eq_formula (f : K → K) (a b : K) (k : Nat) (h1 : 1 ≤ k) (h32 : k ≤ 32) :
    trapEstimate f a b k = trapFormula f a b (2 ^ (k - 1)) := by
  rw [trapEstimate_eq_s f a b k h1]
  exact (Trapzd_after_new f a b k h1 h32).2.2.2.2.2

/-- Call 33 of `next()`: the shift loop leaves `it = -2^31`, no function value is taken
and the estimate is halved. -/
theorem Trapzd_next_overflow (t : Trapzd K) (h : t.n = 32) : t.next.1 = (1 / 2) * t.s := by
  have e : wrap32 (t.n + 1) = 33 := by rw [h]; decide
  have hs : shiftLoop (loopCount 33) 1 = -2147483648 := by
    have h30 : shiftLoop 31 1 = shiftLoop 1 (wrap32 (2 ^ 30)) := by
      simp only [shiftLoop, one_mul]
      norm_num [wrap32]
    have hc : loopCount 33 = 31 := by decide
    rw [hc, h30]
    decide
  simp [Trapzd.next, e, hs, Trapzd.sumLoop]

theorem trapEstimate_33 (f : K → K) (a b : K) :
    trapEstimate f a b 33 = (1 / 2) * trapFormula f a b (2 ^ 31) := by
  obtain ⟨hn, -, -, -, -, hs⟩ := Trapzd_after_new f a b 32 (by norm_num) (by norm_num)
  rw [trapEstimate, Trapzd_next_overflow _ (by simpa using hn), hs]

/-- Sum of an affine function over the interior grid points. -/
theorem sum_Ico_affine (c d a h : K) (N : Nat) (hN : 1 ≤ N) :
    ∑ i in Finset.Ico 1 N, (c * (a + i * h) + d) =
      (N - 1) * (c * a + d) + c * h * (N * (N - 1) / 2) := by
  induction N, hN using Nat.le_induction with
  | base => simp
  | succ N hN ih =>
    rw [Finset.sum_Ico_succ_top hN, ih]
    push_cast
    ring

/-- The composite trapezoidal sum is exact for affine integrands. -/
theorem trapFormula_affine (c d a b : K) (N : Nat) (hN : 1 ≤ N) :
    trapFormula (fun x => c * x + d) a b N = (b - a) * ((c * a + d) + (c * b + d)) / 2 := by
  have hN0 : (N : K) ≠ 0 := Nat.cast_ne_zero.mpr (by omega)
  unfold trapFormula
  have e : ∀ i : Nat, c * (a + (i : K) * (b - a) / N) + d = c * (a + i * ((b - a) / N)) + d := by
    intro i
    rw [mul_div_assoc]
  simp only [e]
  rw [sum_Ico_affine c d a ((b - a) / N) N hN]
  field_simp
  ring

end TrapzdEstimates

/-! ### C1 -/

/-- C1 (amended): for every function `f`, all `a`, `b` and every `k` with `1 ≤ k ≤ 32`, the
value returned by the `k`-th call of `next()` on a freshly constructed `Trapzd(f, a, b)`
equals the composite trapezoidal sum with `N = 2^(k-1)` equal panels. -/
theorem C1_trapzd_level_formula {K : Type} [LinearOrderedField K] (f : K → K) (a b : K)
    (k : Nat) (h1 : 1 ≤ k) (h32 : k ≤ 32) :
    trapEstimate f a b k = trapFormula f a b (2 ^ (k - 1)) :=
  trapEstimate_eq_formula f a b k h1 h32

/-- Witness of C1 (amended): the third estimate of `x ↦ x²` on `[0, 1]`. -/
theorem C1_trapzd_level_formula_witness :
    (1 ≤ 3 ∧ 3 ≤ 32) ∧
    trapEstimate (fun x : ℚ => x * x) 0 1 3 = trapFormula (fun x : ℚ => x * x) 0 1 (2 ^ (3 - 1)) :=
  ⟨by decide, C1_trapzd_level_formula (fun x : ℚ => x * x) 0 1 3 (by decide) (by decide)⟩

/-- C1 as stated fails at `k = 33`: the 33rd estimate of the constant `1` on `[0, 1]` is
`1/2`, the composite trapezoidal sum with `2^32` panels is `1`. -/
theorem C1_counterexample :
    trapEstimate (fun _ : ℚ => 1) 0 1 33 = 1 / 2 ∧
    trapFormula (fun _ : ℚ => 1) 0 1 (2 ^ (33 - 1)) = 1 ∧
    trapEstimate (fun _ : ℚ => 1) 0 1 33 ≠ trapFormula (fun _ : ℚ => 1) 0 1 (2 ^ (33 - 1)) := by
  have h := trapFormula_affine (0 : ℚ) 1 0 1
  simp only [zero_mul, zero_add] at h
  have e1 : trapEstimate (fun _ : ℚ => 1) 0 1 33 = 1 / 2 := by
    rw [trapEstimate_33, h _ Nat.one_le_two_pow]
    norm_num
  have e2 : trapFormula (fun _ : ℚ => 1) 0 1 (2 ^ (33 - 1)) = 1 := by
    rw [h _ Nat.one_le_two_pow]
    norm_num
  refine ⟨e1, e2, ?_⟩
  rw [e1, e2]
  norm_num

/-! ### The midpoint rule -/

section MidpntFacts

variable {K : Type} [LinearOrderedField K]

theorem Midpnt_sumLoop_eq (t : Midpnt K) (del ddel : K) (c : Nat) (x sum : K) (log : List K) :
    Midpnt.sumLoop t del ddel c x sum log =
      (sum + ∑ i in Finset.range c,
          (t.funk (x + i * (ddel + del)) + t.funk (x + i * (ddel + del) + ddel)),
        log ++ (List.range c).flatMap
          (fun i : Nat => [x + i * (ddel + del), x + i * (ddel + del) + ddel])) := by
  induction c generalizing x sum log with
  | zero => simp [Midpnt.sumLoop]
  | succ c ih =>
    rw [Midpnt.sumLoop, ih, Finset.sum_range_succ', List.range_succ_eq_map]
    refine Prod.ext ?_ ?_
    · simp only [Nat.cast_add, Nat.cast_one, Nat.cast_zero, zero_mul, add_zero, Midpnt.func]
      rw [add_assoc sum, add_assoc sum, add_comm (t.funk x + t.funk (x + ddel))]
      congr 2
      refine Finset.sum_congr rfl (fun i _ => ?_)
      congr 2 <;> ring
    · simp only [List.flatMap_cons, List.flatMap_map, Nat.cast_zero, zero_mul, add_zero,
        List.append_assoc]
      congr 2
      refine List.flatMap_congr (fun i _ => ?_)
      have e : x + ddel + del + (i : K) * (ddel + del) = x + ((i : K) + 1) * (ddel + del) := by
        ring
      simp only [Nat.cast_succ, e]

end MidpntFacts

section MidpntFormula

variable {K : Type} [LinearOrderedField K]

/-- The first call of `next()`. -/
theorem Midpnt_next_first (t : Midpnt K) (h : t.n = 0) :
    t.next = ((t.b - t.a) * t.funk ((1 / 2) * (t.a + t.b)),
      { t with n := 1, s := (t.b - t.a) * t.funk ((1 / 2) * (t.a + t.b)),
               calls := t.calls + 1, evals := t.evals ++ [(1 / 2) * (t.a + t.b)] }) := by
  have e : wrap32 (t.n + 1) = 1 := by rw [h]; decide
  simp [Midpnt.next, e, Midpnt.func]

/-- Call `k + 1` of `next()` for `1 ≤ k ≤ 20`. -/
theorem Midpnt_next_later (t : Midpnt K) (k : Nat) (h : t.n = k) (h1 : 1 ≤ k) (h20 : k ≤ 20) :
    t.next = ((t.s + (t.b - t.a) * t.newSum k / 3 ^ (k - 1)) / 3,
      { t with n := (k : Int) + 1, s := (t.s + (t.b - t.a) * t.newSum k / 3 ^ (k - 1)) / 3,
               calls := t.calls + 1, evals := t.evals ++ t.newPoints k }) := by
  have e : wrap32 (t.n + 1) = (k : Int) + 1 := by
    rw [h]; exact wrap32_eq (by omega) (by omega)
  have ne : ¬ ((k : Int) + 1 = 1) := by omega
  have hs : tripleLoop (k - 1) 1 = 3 ^ (k - 1) := tripleLoop_one (by omega)
  have hn : ((3 : Int) ^ (k - 1)).toNat = 3 ^ (k - 1) := by
    have : ((3 : Int) ^ (k - 1)) = ((3 ^ (k - 1) : Nat) : Int) := by push_cast; rfl
    rw [this, Int.toNat_natCast]
  simp only [Midpnt.next, e, ne, if_false, loopCount_succ (show k < 2147483648 by omega), hs, hn,
    Midpnt_sumLoop_eq, zero_add, Int.cast_pow, Int.cast_ofNat, Midpnt.newSum, Midpnt.newPoints,
    Midpnt.step]

/-- Splitting a sum over `i < 3 N` by the residue of `i` modulo 3. -/
theorem sum_range_triple (g : Nat → K) (N : Nat) :
    ∑ i in Finset.range (3 * N), g i =
      ∑ i in Finset.range N, (g (3 * i) + g (3 * i + 1) + g (3 * i + 2)) := by
  induction N with
  | zero => simp
  | succ N ih =>
    rw [show 3 * (N + 1) = 3 * N + 1 + 1 + 1 by ring, Finset.sum_range_succ,
      Finset.sum_range_succ, Finset.sum_range_succ, ih, Finset.sum_range_succ]
    ring

/-- Refinement step of the composite midpoint sum: cutting every panel in three adds
two new midpoints per old panel. -/
theorem midFormula_triple (f : K → K) (a b : K) (N : Nat) (hN : 1 ≤ N) :
    midFormula f a b (3 * N) =
      (midFormula f a b N + (b - a) *
        (∑ i in Finset.range N,
          (f (a + (1 / 2) * ((b - a) / (3 * N)) +
              i * ((b - a) / (3 * N) + (b - a) / (3 * N) + (b - a) / (3 * N))) +
            f (a + (1 / 2) * ((b - a) / (3 * N)) +
              i * ((b - a) / (3 * N) + (b - a) / (3 * N) + (b - a) / (3 * N)) +
              ((b - a) / (3 * N) + (b - a) / (3 * N))))) / N) / 3 := by
  have hN0 : (N : K) ≠ 0 := Nat.cast_ne_zero.mpr (by omega)
  unfold midFormula
  rw [sum_range_triple]
  have e0 : ∀ i : Nat, f (a + (((3 * i : Nat) : K) + 1 / 2) * (b - a) / ((3 * N : Nat) : K)) =
      f (a + (1 / 2) * ((b - a) / (3 * N)) +
        i * ((b - a) / (3 * N) + (b - a) / (3 * N) + (b - a) / (3 * N))) := by
    intro i
    congr 1
    push_cast
    field_simp
    ring
  have e1 : ∀ i : Nat, f (a + (((3 * i + 1 : Nat) : K) + 1 / 2) * (b - a) / ((3 * N : Nat) : K)) =
      f (a + ((i : K) + 1 / 2) * (b - a) / N) := by
    intro i
    congr 1
    push_cast
    field_simp
    ring
  have e2 : ∀ i : Nat, f (a + (((3 * i + 2 : Nat) : K) + 1 / 2) * (b - a) / ((3 * N : Nat) : K)) =
      f (a + (1 / 2) * ((b - a) / (3 * N)) +
        i * ((b - a) / (3 * N) + (b - a) / (3 * N) + (b - a) / (3 * N)) +
        ((b - a) / (3 * N) + (b - a) / (3 * N))) := by
    intro i
    congr 1
    push_cast
    field_simp
    ring
  simp only [e0, e1, e2, Finset.sum_add_distrib]
  push_cast
  field_simp
  ring

theorem Midpnt_after_succ (k : Nat) (t : Midpnt K) :
    Midpnt.after (k + 1) t = (Midpnt.after k t).next.2 := by
  induction k generalizing t with
  | zero => rfl
  | succ k ih => rw [Midpnt.after, ih, ← Midpnt.after]

/-- State of a fresh `Midpnt(f, a, b)` after `k` calls of `next()`, `1 ≤ k ≤ 21`: the
counter is `k` and `s` is the composite midpoint sum with `3^(k-1)` panels. -/
theorem Midpnt_after_new (f : K → K) (a b : K) (k : Nat) (h1 : 1 ≤ k) (h21 : k ≤ 21) :
    (Midpnt.after k (Midpnt.new f a b)).n = k ∧
    (Midpnt.after k (Midpnt.new f a b)).a = a ∧
    (Midpnt.after k (Midpnt.new f a b)).b = b ∧
    (Midpnt.after k (Midpnt.new f a b)).funk = f ∧
    (Midpnt.after k (Midpnt.new f a b)).calls = k ∧
    (Midpnt.after k (Midpnt.new f a b)).s = midFormula f a b (3 ^ (k - 1)) := by
  induction k, h1 using Nat.le_induction with
  | base =>
    simp only [Midpnt.after, Midpnt_next_first (Midpnt.new f a b) rfl]
    simp [Midpnt.new, midFormula]
    left
    congr 1
    ring
  | succ k h1 ih =>
    obtain ⟨hn, ha, hb, hf, hc, hs⟩ := ih (by omega)
    rw [Midpnt_after_succ, Midpnt_next_later _ k hn h1 (by omega)]
    refine ⟨by simp, ha, hb, hf, by simp [hc], ?_⟩
    simp only [Midpnt.newSum, Midpnt.step, ha, hb, hf, hs]
    have e : 3 ^ (k + 1 - 1) = 3 * 3 ^ (k - 1) := by
      rw [Nat.add_sub_cancel, ← pow_succ', Nat.sub_add_cancel h1]
    rw [e, midFormula_triple f a b (3 ^ (k - 1)) (Nat.one_le_pow _ _ (by norm_num))]
    push_cast
    rfl

end MidpntFormula

section MidpntEstimates

variable {K : Type} [LinearOrderedField K]

theorem Midpnt_next_fst (t : Midpnt K) : t.next.1 = t.next.2.s := by
  simp only [Midpnt.next]
  split_ifs <;> rfl

theorem midEstimate_eq_s (f : K → K) (a b : K) (k : Nat) (h1 : 1 ≤ k) :
    midEstimate f a b k = (Midpnt.after k (Midpnt.new f a b)).s := by
  obtain ⟨j, rfl⟩ : ∃ j, k = j + 1 := ⟨k - 1, by omega⟩
  rw [midEstimate, Nat.add_sub_cancel, Midpnt_after_succ, Midpnt_next_fst]

theorem midEstimate_eq_formula (f : K → K) (a b : K) (k : Nat) (h1 : 1 ≤ k) (h21 : k ≤ 21) :
    midEstimate f a b k = midFormula f a b (3 ^ (k - 1)) := by
  rw [midEstimate_eq_s f a b k h1]
  exact (Midpnt_after_new f a b k h1 h21).2.2.2.2.2

/-- Call 22 of `next()`: the loop `it *= 3` leaves the range of `int` and ends with a
negative `it`, no function value is taken and the estimate is divided by three. -/
theorem Midpnt_next_overflow (t : Midpnt K) (h : t.n = 21) : t.next.1 = t.s / 3 := by
  have e : wrap32 (t.n + 1) = 22 := by rw [h]; decide
  have hs : tripleLoop (loopCount 22) 1 = -808182895 := by
    have h19 : tripleLoop 20 1 = tripleLoop 1 (wrap32 (3 ^ 19)) := by
      simp only [tripleLoop, one_mul]
      norm_num [wrap32]
    have hc : loopCount 22 = 20 := by decide
    rw [hc, h19]
    decide
  simp [Midpnt.next, e, hs, Midpnt.sumLoop]

theorem midEstimate_22 (f : K → K) (a b : K) :
    midEstimate f a b 22 = midFormula f a b (3 ^ 20) / 3 := by
  obtain ⟨hn, -, -, -, -, hs⟩ := Midpnt_after_new f a b 21 (by norm_num) (by norm_num)
  rw [midEstimate, Midpnt_next_overflow _ (by simpa using hn), hs]

/-- Sum of an affine function over the panel midpoints. -/
theorem sum_range_affine (c d a h : K) (N : Nat) :
    ∑ i in Finset.range N, (c * (a + ((i : K) + 1 / 2) * h) + d) =
      N * (c * a + d) + c * h * (N * N / 2) := by
  induction N with
  | zero => simp
  | succ N ih =>
    rw [Finset.sum_range_succ, ih]
    push_cast
    ring

/-- The composite midpoint sum is exact for affine integrands. -/
theorem midFormula_affine (c d a b : K) (N : Nat) (hN : 1 ≤ N) :
    midFormula (fun x => c * x + d) a b N = (b - a) * ((c * a + d) + (c * b + d)) / 2 := by
  have hN0 : (N : K) ≠ 0 := Nat.cast_ne_zero.mpr (by omega)
  unfold midFormula
  have e : ∀ i : Nat, c * (a + ((i : K) + 1 / 2) * (b - a) / N) + d =
      c * (a + ((i : K) + 1 / 2) * ((b - a) / N)) + d := by
    intro i
    rw [mul_div_assoc]
  simp only [e]
  rw [sum_range_affine c d a ((b - a) / N) N]
  field_simp
  ring

end MidpntEstimates

/-! ### C2 -/

/-- C2 (amended): for every function `f`, all `a`, `b` and every `k` with `1 ≤ k ≤ 21`, the
value returned by the `k`-th call of `next()` on a freshly constructed `Midpnt(f, a, b)`
equals the composite midpoint sum with `N = 3^(k-1)` equal panels. -/
theorem C2_midpnt_level_formula {K : Type} [LinearOrderedField K] (f : K → K) (a b : K)
    (k : Nat) (h1 : 1 ≤ k) (h21 : k ≤ 21) :
    midEstimate f a b k = midFormula f a b (3 ^ (k - 1)) :=
  midEstimate_eq_formula f a b k h1 h21

/-- Witness of C2 (amended): the third estimate of `x ↦ x²` on `[0, 1]`. -/
theorem C2_midpnt_level_formula_witness :
    (1 ≤ 3 ∧ 3 ≤ 21) ∧
    midEstimate (fun x : ℚ => x * x) 0 1 3 = midFormula (fun x : ℚ => x * x) 0 1 (3 ^ (3 - 1)) :=
  ⟨by decide, C2_midpnt_level_formula (fun x : ℚ => x * x) 0 1 3 (by decide) (by decide)⟩

/-- C2 as stated fails at `k = 22`: the 22nd estimate of the constant `1` on `[0, 1]` is
`1/3`, the composite midpoint sum with `3^21` panels is `1`. -/
theorem C2_counterexample :
    midEstimate (fun _ : ℚ => 1) 0 1 22 = 1 / 3 ∧
    midFormula (fun _ : ℚ => 1) 0 1 (3 ^ (22 - 1)) = 1 ∧
    midEstimate (fun _ : ℚ => 1) 0 1 22 ≠ midFormula (fun _ : ℚ => 1) 0 1 (3 ^ (22 - 1)) := by
  have h := midFormula_affine (0 : ℚ) 1 0 1
  simp only [zero_mul, zero_add] at h
  have e1 : midEstimate (fun _ : ℚ => 1) 0 1 22 = 1 / 3 := by
    rw [midEstimate_22, h _ (Nat.one_le_pow _ _ (by norm_num))]
    norm_num
  have e2 : midFormula (fun _ : ℚ => 1) 0 1 (3 ^ (22 - 1)) = 1 := by
    rw [h _ (Nat.one_le_pow _ _ (by norm_num))]
    norm_num
  refine ⟨e1, e2, ?_⟩
  rw [e1, e2]
  norm_num

/-! ### The convergence drivers -/

theorem iterNext_succ {K σ : Type} (next : σ → K × σ) (k : Nat) (t : σ) :
    iterNext next (k + 1) t = (next (iterNext next k t)).2 := by
  induction k generalizing t with
  | zero => rfl
  | succ k ih => rw [iterNext, ih, ← iterNext]

section Drivers

variable {K : Type} [LinearOrderedField K]

theorem qtrapLoop_eq (eps : K) (r : Nat) (j : Int) (olds : K) (t : Trapzd K) :
    qtrapLoop eps r j olds t = driverLoop Trapzd.next qtrapError eps r j olds t := by
  induction r generalizing j olds t with
  | zero => rfl
  | succ r ih => simp only [qtrapLoop, driverLoop, converged, ih]

theorem qmidLoop_eq (eps : K) (r : Nat) (j : Int) (olds : K) (t : Midpnt K) :
    qmidLoop eps r j olds t = driverLoop Midpnt.next qmidError eps r j olds t := by
  induction r generalizing j olds t with
  | zero => rfl
  | succ r ih => simp only [qmidLoop, driverLoop, converged, ih]

theorem Trapzd_after_eq_iterNext (k : Nat) (t : Trapzd K) :
    Trapzd.after k t = iterNext Trapzd.next k t := by
  induction k generalizing t with
  | zero => rfl
  | succ k ih => rw [Trapzd.after, iterNext, ih]

theorem Midpnt_after_eq_iterNext (k : Nat) (t : Midpnt K) :
    Midpnt.after k t = iterNext Midpnt.next k t := by
  induction k generalizing t with
  | zero => rfl
  | succ k ih => rw [Midpnt.after, iterNext, ih]

theorem trapEstimate_eq_estimateOf (f : K → K) (a b : K) (k : Nat) :
    trapEstimate f a b k = estimateOf Trapzd.next (Trapzd.new f a b) k := by
  rw [trapEstimate, estimateOf, Trapzd_after_eq_iterNext]

theorem midEstimate_eq_estimateOf (f : K → K) (a b : K) (k : Nat) :
    midEstimate f a b k = estimateOf Midpnt.next (Midpnt.new f a b) k := by
  rw [midEstimate, estimateOf, Midpnt_after_eq_iterNext]

/-- The loop started at index `j` with the rule having made `j` calls: if no test
succeeds at the indices `j ≤ i < jstar` and the test at `jstar` succeeds, the loop returns
estimate `jstar + 1`, having made `jstar + 1` calls. -/
theorem driverLoop_returns {σ : Type} (next : σ → K × σ) (err : String) (eps : K) (t0 : σ)
    (jstar : Nat) (h6 : 6 ≤ jstar) (r : Nat)
    (hc : converged eps (estimateOf next t0 (jstar + 1)) (estimateOf next t0 jstar))
    (hn : ∀ i, 6 ≤ i → i < jstar →
      ¬ converged eps (estimateOf next t0 (i + 1)) (estimateOf next t0 i))
    (d : Nat) (j : Nat) (hj : j + d = jstar) (olds : K)
    (ho : 6 ≤ j → olds = estimateOf next t0 j) :
    driverLoop next err eps (d + 1 + r) j olds (iterNext next j t0) =
      (Except.ok (estimateOf next t0 (jstar + 1)), iterNext next (jstar + 1) t0) := by
  induction d generalizing j olds with
  | zero =>
    have hjs : j = jstar := by omega
    subst hjs
    have e : (next (iterNext next j t0)).1 = estimateOf next t0 (j + 1) := by
      rw [estimateOf, Nat.add_sub_cancel]
    rw [show 0 + 1 + r = r + 1 by ring, driverLoop, e, iterNext_succ,
      if_pos ⟨by exact_mod_cast (show 5 < j by omega), by rw [ho h6]; exact hc⟩]
  | succ d ih =>
    have e : (next (iterNext next j t0)).1 = estimateOf next t0 (j + 1) := by
      rw [estimateOf, Nat.add_sub_cancel]
    have hno : ¬ ((j : Int) > 5 ∧ converged eps (next (iterNext next j t0)).1 olds) := by
      rintro ⟨h5, hcv⟩
      have h6j : 6 ≤ j := by omega
      rw [e, ho h6j] at hcv
      exact hn j h6j (by omega) hcv
    rw [show d + 1 + 1 + r = (d + 1 + r) + 1 by ring, driverLoop, if_neg hno, ← iterNext_succ, e]
    exact_mod_cast ih (j + 1) (by omega) _ (fun _ => rfl)

/-- The loop started at index `j` with the rule having made `j` calls and `r` iterations
left: if no test succeeds at the indices `j ≤ i < j + r`, the loop fails, having made
`j + r` calls. -/
theorem driverLoop_fails {σ : Type} (next : σ → K × σ) (err : String) (eps : K) (t0 : σ)
    (r : Nat) (j : Nat) (olds : K) (ho : 6 ≤ j → olds = estimateOf next t0 j)
    (hn : ∀ i, 6 ≤ i → j ≤ i → i < j + r →
      ¬ converged eps (estimateOf next t0 (i + 1)) (estimateOf next t0 i)) :
    driverLoop next err eps r j olds (iterNext next j t0) =
      (Except.error err, iterNext next (j + r) t0) := by
  induction r generalizing j olds with
  | zero => rfl
  | succ r ih =>
    have e : (next (iterNext next j t0)).1 = estimateOf next t0 (j + 1) := by
      rw [estimateOf, Nat.add_sub_cancel]
    have hno : ¬ ((j : Int) > 5 ∧ converged eps (next (iterNext next j t0)).1 olds) := by
      rintro ⟨h5, hcv⟩
      have h6j : 6 ≤ j := by omega
      rw [e, ho h6j] at hcv
      exact hn j h6j le_rfl (by omega) hcv
    rw [driverLoop, if_neg hno, ← iterNext_succ, e, show j + (r + 1) = (j + 1) + r by ring]
    exact_mod_cast ih (j + 1) _ (fun _ => rfl) (fun i h6 hji hlt => hn i h6 (by omega) (by omega))

end Drivers

section DriverCases

variable {K : Type} [LinearOrderedField K]

/-- The two ways in which the loop of a driver ends: either no test succeeds and it fails
after 20 calls, or it returns at the least index `jstar` in `6 .. 19` whose test succeeds,
after `jstar + 1` calls. -/
theorem driverLoop_cases {σ : Type} (next : σ → K × σ) (err : String) (eps : K) (t0 : σ) :
    ((∀ j, 6 ≤ j → j ≤ 19 →
        ¬ converged eps (estimateOf next t0 (j + 1)) (estimateOf next t0 j)) ∧
      driverLoop next err eps 20 0 0 t0 = (Except.error err, iterNext next 20 t0)) ∨
    (∃ jstar, 6 ≤ jstar ∧ jstar ≤ 19 ∧
      converged eps (estimateOf next t0 (jstar + 1)) (estimateOf next t0 jstar) ∧
      (∀ i, 6 ≤ i → i < jstar →
        ¬ converged eps (estimateOf next t0 (i + 1)) (estimateOf next t0 i)) ∧
      driverLoop next err eps 20 0 0 t0 =
        (Except.ok (estimateOf next t0 (jstar + 1)), iterNext next (jstar + 1) t0)) := by
  classical
  by_cases h : ∃ j, 6 ≤ j ∧ j ≤ 19 ∧
      converged eps (estimateOf next t0 (j + 1)) (estimateOf next t0 j)
  · right
    obtain ⟨h6, h19, hc⟩ := Nat.find_spec h
    have hmin : ∀ i, 6 ≤ i → i < Nat.find h →
        ¬ converged eps (estimateOf next t0 (i + 1)) (estimateOf next t0 i) :=
      fun i hi hlt hci => Nat.find_min h hlt ⟨hi, by omega, hci⟩
    refine ⟨Nat.find h, h6, h19, hc, hmin, ?_⟩
    have key := driverLoop_returns next err eps t0 (Nat.find h) h6 (19 - Nat.find h) hc hmin
      (Nat.find h) 0 (by omega) 0 (fun h0 => absurd h0 (by omega))
    rw [show Nat.find h + 1 + (19 - Nat.find h) = 20 by omega] at key
    exact key
  · left
    have hn : ∀ j, 6 ≤ j → j ≤ 19 →
        ¬ converged eps (estimateOf next t0 (j + 1)) (estimateOf next t0 j) :=
      fun j h6 h19 hc => h ⟨j, h6, h19, hc⟩
    refine ⟨hn, ?_⟩
    exact driverLoop_fails next err eps t0 20 0 0 (fun h0 => absurd h0 (by omega))
      (fun i h6 _ hlt => hn i h6 (by omega))

theorem Trapzd_next_calls (t : Trapzd K) : t.next.2.calls = t.calls + 1 := by
  simp only [Trapzd.next]
  split_ifs <;> rfl

theorem Midpnt_next_calls (t : Midpnt K) : t.next.2.calls = t.calls + 1 := by
  simp only [Midpnt.next]
  split_ifs <;> rfl

theorem Trapzd_after_calls (k : Nat) (t : Trapzd K) : (Trapzd.after k t).calls = t.calls + k := by
  induction k with
  | zero => rfl
  | succ k ih => rw [Trapzd_after_succ, Trapzd_next_calls, ih, add_assoc]

theorem Midpnt_after_calls (k : Nat) (t : Midpnt K) : (Midpnt.after k t).calls = t.calls + k := by
  induction k with
  | zero => rfl
  | succ k ih => rw [Midpnt_after_succ, Midpnt_next_calls, ih, add_assoc]

/-- The two outcomes of `qtrap`. -/
theorem qtrapRun_cases (f : K → K) (a b eps : K) :
    ((∀ j, 6 ≤ j → j ≤ 19 →
        ¬ converged eps (trapEstimate f a b (j + 1)) (trapEstimate f a b j)) ∧
      qtrapRun f a b eps = (Except.error qtrapError, Trapzd.after 20 (Trapzd.new f a b))) ∨
    (∃ jstar, 6 ≤ jstar ∧ jstar ≤ 19 ∧
      converged eps (trapEstimate f a b (jstar + 1)) (trapEstimate f a b jstar) ∧
      (∀ i, 6 ≤ i → i < jstar →
        ¬ converged eps (trapEstimate f a b (i + 1)) (trapEstimate f a b i)) ∧
      qtrapRun f a b eps =
        (Except.ok (trapEstimate f a b (jstar + 1)),
          Trapzd.after (jstar + 1) (Trapzd.new f a b))) := by
  simp only [trapEstimate_eq_estimateOf, Trapzd_after_eq_iterNext, qtrapRun, qtrapLoop_eq, JMAX]
  exact_mod_cast driverLoop_cases Trapzd.next qtrapError eps (Trapzd.new f a b)

/-- The two outcomes of `qmid`. -/
theorem qmidRun_cases (f : K → K) (a b eps : K) :
    ((∀ j, 6 ≤ j → j ≤ 19 →
        ¬ converged eps (midEstimate f a b (j + 1)) (midEstimate f a b j)) ∧
      qmidRun f a b eps = (Except.error qmidError, Midpnt.after 20 (Midpnt.new f a b))) ∨
    (∃ jstar, 6 ≤ jstar ∧ jstar ≤ 19 ∧
      converged eps (midEstimate f a b (jstar + 1)) (midEstimate f a b jstar) ∧
      (∀ i, 6 ≤ i → i < jstar →
        ¬ converged eps (midEstimate f a b (i + 1)) (midEstimate f a b i)) ∧
      qmidRun f a b eps =
        (Except.ok (midEstimate f a b (jstar + 1)),
          Midpnt.after (jstar + 1) (Midpnt.new f a b))) := by
  simp only [midEstimate_eq_estimateOf, Midpnt_after_eq_iterNext, qmidRun, qmidLoop_eq, JMAX]
  exact_mod_cast driverLoop_cases Midpnt.next qmidError eps (Midpnt.new f a b)

/-- `qtrap` returns at the least index whose test succeeds. -/
theorem qtrapRun_of_least (f : K → K) (a b eps : K) (jstar : Nat) (h6 : 6 ≤ jstar)
    (h19 : jstar ≤ 19)
    (hc : converged eps (trapEstimate f a b (jstar + 1)) (trapEstimate f a b jstar))
    (hn : ∀ j, 6 ≤ j → j < jstar →
      ¬ converged eps (trapEstimate f a b (j + 1)) (trapEstimate f a b j)) :
    qtrapRun f a b eps =
      (Except.ok (trapEstimate f a b (jstar + 1)), Trapzd.after (jstar + 1) (Trapzd.new f a b)) := by
  rcases qtrapRun_cases f a b eps with ⟨hno, -⟩ | ⟨i, hi6, hi19, hic, hin, hr⟩
  · exact absurd hc (hno jstar h6 h19)
  · have : i = jstar := by
      rcases Nat.lt_trichotomy i jstar with h | h | h
      · exact absurd hic (hn i hi6 h)
      · exact h
      · exact absurd hc (hin jstar h6 h)
    rw [hr, this]

/-- `qmid` returns at the least index whose test succeeds. -/
theorem qmidRun_of_least (f : K → K) (a b eps : K) (jstar : Nat) (h6 : 6 ≤ jstar)
    (h19 : jstar ≤ 19)
    (hc : converged eps (midEstimate f a b (jstar + 1)) (midEstimate f a b jstar))
    (hn : ∀ j, 6 ≤ j → j < jstar →
      ¬ converged eps (midEstimate f a b (j + 1)) (midEstimate f a b j)) :
    qmidRun f a b eps =
      (Except.ok (midEstimate f a b (jstar + 1)), Midpnt.after (jstar + 1) (Midpnt.new f a b)) := by
  rcases qmidRun_cases f a b eps with ⟨hno, -⟩ | ⟨i, hi6, hi19, hic, hin, hr⟩
  · exact absurd hc (hno jstar h6 h19)
  · have : i = jstar := by
      rcases Nat.lt_trichotomy i jstar with h | h | h
      · exact absurd hic (hn i hi6 h)
      · exact h
      · exact absurd hc (hin jstar h6 h)
    rw [hr, this]

end DriverCases

section AffineIntegrands

variable {K : Type} [LinearOrderedField K]

theorem trapEstimate_affine (c d a b : K) (k : Nat) (h1 : 1 ≤ k) (h32 : k ≤ 32) :
    trapEstimate (fun x => c * x + d) a b k = (b - a) * ((c * a + d) + (c * b + d)) / 2 := by
  rw [trapEstimate_eq_formula _ a b k h1 h32, trapFormula_affine c d a b _ Nat.one_le_two_pow]

theorem midEstimate_affine (c d a b : K) (k : Nat) (h1 : 1 ≤ k) (h21 : k ≤ 21) :
    midEstimate (fun x => c * x + d) a b k = (b - a) * ((c * a + d) + (c * b + d)) / 2 := by
  rw [midEstimate_eq_formula _ a b k h1 h21,
    midFormula_affine c d a b _ (Nat.one_le_pow _ _ (by norm_num))]

/-- With a positive tolerance the test succeeds on two equal estimates. -/
theorem converged_self (eps v : K) (h : 0 < eps) : converged eps v v := by
  by_cases hv : v = 0
  · exact Or.inr ⟨hv, hv⟩
  · left
    rw [sub_self, abs_zero]
    exact mul_pos h (abs_pos.mpr hv)

theorem qtrapRun_affine (c d a b eps : K) (h : 0 < eps) :
    qtrapRun (fun x => c * x + d) a b eps =
      (Except.ok ((b - a) * ((c * a + d) + (c * b + d)) / 2),
        Trapzd.after 7 (Trapzd.new (fun x => c * x + d) a b)) := by
  have key := qtrapRun_of_least (fun x => c * x + d) a b eps 6 le_rfl (by norm_num)
    (by
      rw [trapEstimate_affine c d a b _ (by norm_num) (by norm_num),
        trapEstimate_affine c d a b _ (by norm_num) (by norm_num)]
      exact converged_self _ _ h)
    (fun j h6 hlt => absurd h6 (by omega))
  rw [key, trapEstimate_affine c d a b _ (by norm_num) (by norm_num)]

theorem qmidRun_affine (c d a b eps : K) (h : 0 < eps) :
    qmidRun (fun x => c * x + d) a b eps =
      (Except.ok ((b - a) * ((c * a + d) + (c * b + d)) / 2),
        Midpnt.after 7 (Midpnt.new (fun x => c * x + d) a b)) := by
  have key := qmidRun_of_least (fun x => c * x + d) a b eps 6 le_rfl (by norm_num)
    (by
      rw [midEstimate_affine c d a b _ (by norm_num) (by norm_num),
        midEstimate_affine c d a b _ (by norm_num) (by norm_num)]
      exact converged_self _ _ h)
    (fun j h6 hlt => absurd h6 (by omega))
  rw [key, midEstimate_affine c d a b _ (by norm_num) (by norm_num)]

end AffineIntegrands

/-! ### C3 -/

section FailureFacts

variable {K : Type} [LinearOrderedField K]

/-- A returned value of `qtrap` comes after at least 7 and at most 20 calls. -/
theorem qtrap_ok_calls (f : K → K) (a b eps v : K) (h : qtrap f a b eps = Except.ok v) :
    7 ≤ (qtrapRun f a b eps).2.calls ∧ (qtrapRun f a b eps).2.calls ≤ 20 := by
  rcases qtrapRun_cases f a b eps with ⟨-, hr⟩ | ⟨j, h6, h19, -, -, hr⟩
  · rw [qtrap, hr] at h
    exact Except.noConfusion h
  · rw [hr, Trapzd_after_calls]
    simp only [Trapzd.new]
    omega

/-- A returned value of `qmid` comes after at least 7 and at most 20 calls. -/
theorem qmid_ok_calls (f : K → K) (a b eps v : K) (h : qmid f a b eps = Except.ok v) :
    7 ≤ (qmidRun f a b eps).2.calls ∧ (qmidRun f a b eps).2.calls ≤ 20 := by
  rcases qmidRun_cases f a b eps with ⟨-, hr⟩ | ⟨j, h6, h19, -, -, hr⟩
  · rw [qmid, hr] at h
    exact Except.noConfusion h
  · rw [hr, Midpnt_after_calls]
    simp only [Midpnt.new]
    omega

end FailureFacts

/-- C5: for every `eps`, whenever `qtrap` or `qmid` returns a value, `next()` has been
called at least 7 and at most 20 times; an iteration with loop index `j ≤ 5` (one of the
first six calls) goes on to the next iteration whatever the estimates and `eps` are. -/
theorem C5_minimum_work_before_return {K : Type} [LinearOrderedField K] (f : K → K)
    (a b eps : K) :
    (∀ v, qtrap f a b eps = Except.ok v →
      7 ≤ (qtrapRun f a b eps).2.calls ∧ (qtrapRun f a b eps).2.calls ≤ 20) ∧
    (∀ v, qmid f a b eps = Except.ok v →
      7 ≤ (qmidRun f a b eps).2.calls ∧ (qmidRun f a b eps).2.calls ≤ 20) ∧
    (∀ (r : Nat) (j : Int) (olds : K) (t : Trapzd K), j ≤ 5 →
      qtrapLoop eps (r + 1) j olds t = qtrapLoop eps r (j + 1) t.next.1 t.next.2) ∧
    (∀ (r : Nat) (j : Int) (olds : K) (t : Midpnt K), j ≤ 5 →
      qmidLoop eps (r + 1) j olds t = qmidLoop eps r (j + 1) t.next.1 t.next.2) := by
  refine ⟨fun v h => qtrap_ok_calls f a b eps v h, fun v h => qmid_ok_calls f a b eps v h, ?_, ?_⟩
  · intro r j olds t hj
    rw [qtrapLoop, if_neg (fun h => absurd h.1 (by omega))]
  · intro r j olds t hj
    rw [qmidLoop, if_neg (fun h => absurd h.1 (by omega))]

/-- Witness of C5: with the huge tolerance `eps = 1000` the drivers return the integral of
the constant `1` on `[0, 1]` after exactly 7 calls. -/
theorem C5_minimum_work_before_return_witness :
    (qtrap (fun _ : ℚ => 1) 0 1 1000 = Except.ok 1 ∧
      7 ≤ (qtrapRun (fun _ : ℚ => 1) 0 1 1000).2.calls ∧
      (qtrapRun (fun _ : ℚ => 1) 0 1 1000).2.calls ≤ 20) ∧
    (qmid (fun _ : ℚ => 1) 0 1 1000 = Except.ok 1 ∧
      7 ≤ (qmidRun (fun _ : ℚ => 1) 0 1 1000).2.calls ∧
      (qmidRun (fun _ : ℚ => 1) 0 1 1000).2.calls ≤ 20) := by
  have key := C5_minimum_work_before_return (fun _ : ℚ => 1) 0 1 1000
  have h1 : qtrap (fun _ : ℚ => 1) 0 1 1000 = Except.ok 1 := by
    have h := qtrapRun_affine (0 : ℚ) 1 0 1 1000 (by norm_num)
    simp only [zero_mul, zero_add] at h
    rw [qtrap, h]
    norm_num
  have h2 : qmid (fun _ : ℚ => 1) 0 1 1000 = Except.ok 1 := by
    have h := qmidRun_affine (0 : ℚ) 1 0 1 1000 (by norm_num)
    simp only [zero_mul, zero_add] at h
    rw [qmid, h]
    norm_num
  exact ⟨⟨h1, key.1 1 h1⟩, ⟨h2, key.2.1 1 h2⟩⟩

/-! ### C6 -/

section Fixed

variable {K : Type} [LinearOrderedField K]

/-- The loop of `qtrapfixed` with `d` iterations to go, for an integer `m = M` small enough
for the counter `j` to stay in range: it makes `d` calls and ends with the value of the
last one. -/
theorem qtrapfixedLoop_eq (M : Nat) (hM : M + 2 < 2147483648) (d : Nat) (fuel : Nat)
    (hfuel : d + 1 ≤ fuel) (j : Int) (hj0 : 1 ≤ j) (hj : j + d = M + 2) (s : K) (t : Trapzd K) :
    qtrapfixedLoop (M : K) fuel j s t =
      some (if d = 0 then s else (Trapzd.after (d - 1) t).next.1, Trapzd.after d t) := by
  induction d generalizing fuel j s t with
  | zero =>
    obtain ⟨fuel, rfl⟩ : ∃ g, fuel = g + 1 := ⟨fuel - 1, by omega⟩
    have hgt : ¬ ((j : K) ≤ (M : K) + 1) := by
      have : (M : Int) + 1 < j := by omega
      have h2 : ((M : Int) : K) + 1 < ((j : Int) : K) := by exact_mod_cast this
      simpa using h2
    rw [qtrapfixedLoop, if_neg hgt]
    rfl
  | succ d ih =>
    obtain ⟨fuel, rfl⟩ : ∃ g, fuel = g + 1 := ⟨fuel - 1, by omega⟩
    have hle : (j : K) ≤ (M : K) + 1 := by
      have : j ≤ (M : Int) + 1 := by push_cast at hj; omega
      have h2 : ((j : Int) : K) ≤ ((M : Int) : K) + 1 := by exact_mod_cast this
      simpa using h2
    have hw : wrap32 (j + 1) = j + 1 := wrap32_eq (by push_cast at hj; omega) (by push_cast at hj; omega)
    rw [qtrapfixedLoop, if_pos hle, hw, ih fuel (by omega) (j + 1) (by omega) (by push_cast at hj ⊢; omega)]
    congr 1
    rcases d with _ | d
    · rfl
    · simp only [Nat.add_sub_cancel, if_neg (Nat.succ_ne_zero _), Trapzd.after]

/-- The run of `qtrapfixed` for an integer `0 ≤ m ≤ 2^31 - 3`. -/
theorem qtrapfixedRun_eq (f : K → K) (a b : K) (M : Nat) (hM : M + 2 < 2147483648)
    (fuel : Nat) (hfuel : M + 2 ≤ fuel) :
    qtrapfixedRun fuel f a b (M : K) =
      some (trapEstimate f a b (M + 1), Trapzd.after (M + 1) (Trapzd.new f a b)) := by
  rw [qtrapfixedRun, qtrapfixedLoop_eq M hM (M + 1) fuel (by omega) 1 le_rfl (by push_cast; ring),
    if_neg (Nat.succ_ne_zero _), trapEstimate]

end Fixed

section AffineDrivers

variable {K : Type} [LinearOrderedField K]

/-- The three drivers on an affine integrand. -/
theorem drivers_affine (c d a b eps : K) (heps : 0 < eps) :
    (qtrap (fun x => c * x + d) a b eps =
        Except.ok ((b - a) * ((c * a + d) + (c * b + d)) / 2) ∧
      (qtrapRun (fun x => c * x + d) a b eps).2.calls = 7) ∧
    (qmid (fun x => c * x + d) a b eps =
        Except.ok ((b - a) * ((c * a + d) + (c * b + d)) / 2) ∧
      (qmidRun (fun x => c * x + d) a b eps).2.calls = 7) ∧
    (∀ m : Nat, m ≤ 31 → ∀ fuel, m + 2 ≤ fuel →
      qtrapfixed fuel (fun x => c * x + d) a b (m : K) =
        some ((b - a) * ((c * a + d) + (c * b + d)) / 2)) := by
  refine ⟨⟨?_, ?_⟩, ⟨?_, ?_⟩, ?_⟩
  · rw [qtrap, qtrapRun_affine c d a b eps heps]
  · rw [qtrapRun_affine c d a b eps heps, Trapzd_after_calls]
    rfl
  · rw [qmid, qmidRun_affine c d a b eps heps]
  · rw [qmidRun_affine c d a b eps heps, Midpnt_after_calls]
    rfl
  · intro m hm fuel hfuel
    rw [qtrapfixed, qtrapfixedRun_eq _ a b m (by omega) fuel hfuel,
      trapEstimate_affine c d a b (m + 1) (by omega) (by omega)]
    rfl

/-- The three drivers on a constant integrand. -/
theorem drivers_const (d a b eps : K) (heps : 0 < eps) :
    qtrap (fun _ => d) a b eps = Except.ok (d * (b - a)) ∧
    qmid (fun _ => d) a b eps = Except.ok (d * (b - a)) ∧
    (∀ m : Nat, m ≤ 31 → ∀ fuel, m + 2 ≤ fuel →
      qtrapfixed fuel (fun _ => d) a b (m : K) = some (d * (b - a))) := by
  have hf : (fun _ : K => d) = (fun x => 0 * x + d) := by
    funext x
    ring
  have hv : (b - a) * ((0 * a + d) + (0 * b + d)) / 2 = d * (b - a) := by ring
  have key := drivers_affine 0 d a b eps heps
  rw [← hf, hv] at key
  exact ⟨key.1.1, key.2.1.1, key.2.2⟩

/-- The three drivers on `f(x) = x` over `[0, 1]`. -/
theorem drivers_id (eps : K) (heps : 0 < eps) :
    qtrap (fun x => x) 0 1 eps = Except.ok (1 / 2) ∧
    qmid (fun x => x) 0 1 eps = Except.ok (1 / 2) ∧
    (∀ m : Nat, m ≤ 31 → ∀ fuel, m + 2 ≤ fuel →
      qtrapfixed fuel (fun x => x) 0 1 (m : K) = some (1 / 2)) := by
  have hf : (fun x : K => x) = (fun x => 1 * x + 0) := by
    funext x
    ring
  have hv : ((1 : K) - 0) * ((1 * 0 + 0) + (1 * 1 + 0)) / 2 = 1 / 2 := by ring
  have key := drivers_affine 1 0 0 1 eps heps
  rw [← hf, hv] at key
  exact ⟨key.1.1, key.2.1.1, key.2.2⟩

end AffineDrivers

/-- C7 (amended): for every affine `f(x) = c*x + d`, all `a`, `b` and every `eps > 0`, the
estimates `1 .. 32` of `Trapzd` and `1 .. 21` of `Midpnt` all equal the first-level value
`(b-a)*(f(a)+f(b))/2`; `qtrap` and `qmid` return exactly that value after 7 calls, and
`qtrapfixed(f, a, b, m)` returns it for every integer `0 ≤ m ≤ 31`.  In particular the
drivers return `d*(b-a)` for the constant `f = d`, and `1/2` for `f(x) = x` on `[0, 1]`. -/
theorem C7_exact_for_affine {K : Type} [LinearOrderedField K] (c d a b eps : K)
    (heps : 0 < eps) :
    (∀ k, 1 ≤ k → k ≤ 32 →
      trapEstimate (fun x => c * x + d) a b k = (b - a) * ((c * a + d) + (c * b + d)) / 2) ∧
    (∀ k, 1 ≤ k → k ≤ 21 →
      midEstimate (fun x => c * x + d) a b k = (b - a) * ((c * a + d) + (c * b + d)) / 2) ∧
    ((qtrap (fun x => c * x + d) a b eps =
          Except.ok ((b - a) * ((c * a + d) + (c * b + d)) / 2) ∧
        (qtrapRun (fun x => c * x + d) a b eps).2.calls = 7) ∧
      (qmid (fun x => c * x + d) a b eps =
          Except.ok ((b - a) * ((c * a + d) + (c * b + d)) / 2) ∧
        (qmidRun (fun x => c * x + d) a b eps).2.calls = 7) ∧
      (∀ m : Nat, m ≤ 31 → ∀ fuel, m + 2 ≤ fuel →
        qtrapfixed fuel (fun x => c * x + d) a b (m : K) =
          some ((b - a) * ((c * a + d) + (c * b + d)) / 2))) ∧
    (qtrap (fun _ => d) a b eps = Except.ok (d * (b - a)) ∧
      qmid (fun _ => d) a b eps = Except.ok (d * (b - a)) ∧
      (∀ m : Nat, m ≤ 31 → ∀ fuel, m + 2 ≤ fuel →
        qtrapfixed fuel (fun _ => d) a b (m : K) = some (d * (b - a)))) ∧
    (qtrap (fun x => x) 0 1 eps = Except.ok (1 / 2) ∧
      qmid (fun x => x) 0 1 eps = Except.ok (1 / 2) ∧
      (∀ m : Nat, m ≤ 31 → ∀ fuel, m + 2 ≤ fuel →
        qtrapfixed fuel (fun x => x) 0 1 (m : K) = some (1 / 2))) :=
  ⟨fun k h1 h32 => trapEstimate_affine c d a b k h1 h32,
    fun k h1 h21 => midEstimate_affine c d a b k h1 h21,
    drivers_affine c d a b eps heps, drivers_const d a b eps heps, drivers_id eps heps⟩

/-- Witness of C7 (amended): `f(x) = x` on `[0, 1]` with the default `eps = 10^-6` and the
default `m = 5`; all three drivers return `1/2`. -/
theorem C7_exact_for_affine_witness :
    (0 : ℚ) < 1 / 1000000 ∧
    qtrap (fun x : ℚ => x) 0 1 (1 / 1000000) = Except.ok (1 / 2) ∧
    qmid (fun x : ℚ => x) 0 1 (1 / 1000000) = Except.ok (1 / 2) ∧
    qtrapfixed 7 (fun x : ℚ => x) 0 1 ((5 : Nat) : ℚ) = some (1 / 2) := by
  have key := (C7_exact_for_affine (1 : ℚ) 0 0 1 (1 / 1000000) (by norm_num)).2.2.2.2
  exact ⟨by norm_num, key.1, key.2.1, key.2.2 5 (by decide) 7 (by decide)⟩

/-- C7 as stated fails beyond the range of the panel counter: on `f(x) = x` over `[0, 1]`
the 33rd estimate of `Trapzd` and the value of `qtrapfixed(f, 0, 1, 32)` are `1/4`, and the
22nd estimate of `Midpnt` is `1/6`, not `1/2`. -/
theorem C7_counterexample :
    trapEstimate (fun x : ℚ => 1 * x + 0) 0 1 33 = 1 / 4 ∧
    (∀ fuel, 34 ≤ fuel →
      qtrapfixed fuel (fun x : ℚ => 1 * x + 0) 0 1 ((32 : Nat) : ℚ) = some (1 / 4)) ∧
    midEstimate (fun x : ℚ => 1 * x + 0) 0 1 22 = 1 / 6 ∧
    (1 : ℚ) / 4 ≠ (1 - 0) * ((1 * 0 + 0) + (1 * 1 + 0)) / 2 ∧
    (1 : ℚ) / 6 ≠ (1 - 0) * ((1 * 0 + 0) + (1 * 1 + 0)) / 2 := by
  have h33 : trapEstimate (fun x : ℚ => 1 * x + 0) 0 1 33 = 1 / 4 := by
    rw [trapEstimate_33, trapFormula_affine (1 : ℚ) 0 0 1 _ Nat.one_le_two_pow]
    norm_num
  have h22 : midEstimate (fun x : ℚ => 1 * x + 0) 0 1 22 = 1 / 6 := by
    rw [midEstimate_22, midFormula_affine (1 : ℚ) 0 0 1 _ (Nat.one_le_pow _ _ (by norm_num))]
    norm_num
  refine ⟨h33, fun fuel hfuel => ?_, h22, by norm_num, by norm_num⟩
  rw [qtrapfixed, qtrapfixedRun_eq _ 0 1 32 (by norm_num) fuel hfuel, h33]
  rfl

/-! ### C8 -/

section Quadratic

/-- Sum of the squares of the interior grid indices. -/
theorem sum_Ico_sq (N : Nat) (hN : 1 ≤ N) :
    ∑ i in Finset.Ico 1 N, ((i : ℚ) * (i : ℚ)) = ((N : ℚ) - 1) * N * (2 * N - 1) / 6 := by
  induction N, hN using Nat.le_induction with
  | base => simp
  | succ N hN ih =>
    rw [Finset.sum_Ico_succ_top hN, ih]
    push_cast
    ring

/-- The composite trapezoidal sum of `x ↦ x²` over `[0, 1]` with `N` panels. -/
theorem trapFormula_sq (N : Nat) (hN : 1 ≤ N) :
    trapFormula (fun x : ℚ => x * x) 0 1 N = 1 / 3 + 1 / (6 * ((N : ℚ) * N)) := by
  have hN0 : (N : ℚ) ≠ 0 := Nat.cast_ne_zero.mpr (by omega)
  unfold trapFormula
  have e : ∀ i : Nat, (0 + (i : ℚ) * (1 - 0) / N) * (0 + (i : ℚ) * (1 - 0) / N) =
      ((i : ℚ) * (i : ℚ)) * (1 / ((N : ℚ) * N)) := by
    intro i
    field_simp
  simp only [e]
  rw [← Finset.sum_mul, sum_Ico_sq N hN]
  field_simp
  ring

/-- The estimates of `Trapzd` for `x ↦ x²` over `[0, 1]`. -/
theorem trapEstimate_sq (k : Nat) (h1 : 1 ≤ k) (h32 : k ≤ 32) :
    trapEstimate (fun x : ℚ => x * x) 0 1 k = 1 / 3 + 1 / (6 * 4 ^ (k - 1)) := by
  rw [trapEstimate_eq_formula _ 0 1 k h1 h32, trapFormula_sq _ Nat.one_le_two_pow]
  congr 3
  push_cast
  rw [← mul_pow]
  norm_num

/-- The test of the drivers on a decreasing pair of positive estimates. -/
theorem converged_iff_of_le {K : Type} [LinearOrderedField K] (eps s olds : K) (h : s ≤ olds)
    (hs : 0 < s) : converged eps s olds ↔ olds - s < eps * olds := by
  have ho : 0 < olds := lt_of_lt_of_le hs h
  unfold converged
  rw [abs_sub_comm, abs_of_nonneg (sub_nonneg.mpr h), abs_of_pos ho]
  constructor
  · rintro (h1 | ⟨h0, -⟩)
    · exact h1
    · exact absurd h0 (ne_of_gt hs)
  · exact Or.inl

/-- The run of `qtrap` on `x ↦ x²` over `[0, 1]` with `eps = 10^-8`: it returns estimate 15
at loop index 14. -/
theorem qtrapRun_sq :
    qtrapRun (fun x : ℚ => x * x) 0 1 (1 / 100000000) =
      (Except.ok (536870913 / 1610612736),
        Trapzd.after 15 (Trapzd.new (fun x : ℚ => x * x) 0 1)) := by
  have key := qtrapRun_of_least (fun x : ℚ => x * x) 0 1 (1 / 100000000) 14 (by norm_num)
    (by norm_num)
    (by
      rw [trapEstimate_sq _ (by norm_num) (by norm_num),
        trapEstimate_sq _ (by norm_num) (by norm_num),
        converged_iff_of_le _ _ _ (by norm_num) (by norm_num)]
      norm_num)
    (by
      intro j h6 hlt
      rw [trapEstimate_sq _ (by omega) (by omega), trapEstimate_sq _ (by omega) (by omega)]
      interval_cases j <;>
        (rw [converged_iff_of_le _ _ _ (by norm_num) (by norm_num)]; norm_num))
  rw [key, trapEstimate_sq _ (by norm_num) (by norm_num)]
  norm_num

end Quadratic

/-- C8: in exact rational arithmetic, `qtrap` applied to `f(x) = x²` on `[0, 1]` with
`eps = 10^-8` does not fail and returns a value `r` (the 15th estimate) with
`|r - 1/3| ≤ 10^-8 * (1/3)`. -/
theorem C8_quadratic_test_case :
    ∃ r : ℚ, qtrap (fun x : ℚ => x * x) 0 1 (1 / 100000000) = Except.ok r ∧
      r = trapEstimate (fun x : ℚ => x * x) 0 1 15 ∧
      |r - 1 / 3| ≤ (1 / 100000000) * (1 / 3) := by
  refine ⟨536870913 / 1610612736, by rw [qtrap, qtrapRun_sq], ?_, ?_⟩
  · rw [trapEstimate_sq _ (by norm_num) (by norm_num)]
    norm_num
  · rw [abs_of_nonneg (by norm_num)]
    norm_num

/-! ### C10 -/

section OpenClosed

variable {K : Type} [LinearOrderedField K]

theorem Midpnt_next_a (t : Midpnt K) : t.next.2.a = t.a := by
  simp only [Midpnt.next]
  split_ifs <;> rfl

theorem Midpnt_next_b (t : Midpnt K) : t.next.2.b = t.b := by
  simp only [Midpnt.next]
  split_ifs <;> rfl

/-- Every point at which a call of `Midpnt::next` evaluates the function lies strictly
inside the interval, whatever the value of the counter `n` is. -/
theorem Midpnt_next_evals_mem (t : Midpnt K) (hab : t.a < t.b) (x : K)
    (hx : x ∈ t.next.2.evals) : x ∈ t.evals ∨ (t.a < x ∧ x < t.b) := by
  simp only [Midpnt.next] at hx
  split_ifs at hx with h1
  · simp only [List.mem_append, List.mem_singleton] at hx
    rcases hx with hx | hx
    · exact Or.inl hx
    · right
      subst hx
      constructor <;> linarith
  · simp only [Midpnt_sumLoop_eq, List.mem_append, List.mem_flatMap, List.mem_range] at hx
    rcases hx with hx | ⟨i, hi, hx⟩
    · exact Or.inl hx
    · right
      generalize hit : tripleLoop (loopCount (wrap32 (t.n + 1))) 1 = it at hx hi
      have hpos : 0 < it := by
        by_contra hneg
        rw [Int.toNat_of_nonpos (not_lt.mp hneg)] at hi
        exact absurd hi (Nat.not_lt_zero _)
      have hiK : (i : K) + 1 ≤ (it : K) := by
        have h2 : (i : Int) + 1 ≤ it := by omega
        exact_mod_cast h2
      have hitK : (0 : K) < (it : K) := by exact_mod_cast hpos
      generalize hD : (t.b - t.a) / (3 * (it : K)) = D at hx
      have hDpos : 0 < D := by
        rw [← hD]
        exact div_pos (sub_pos.mpr hab) (by positivity)
      have hDmul : 3 * (it : K) * D = t.b - t.a := by
        rw [← hD]
        field_simp
      have hi0 : (0 : K) ≤ (i : K) := Nat.cast_nonneg i
      have hmul : ((i : K) + 1) * D ≤ (it : K) * D := mul_le_mul_of_nonneg_right hiK hDpos.le
      have hiD : 0 ≤ (i : K) * D := mul_nonneg hi0 hDpos.le
      simp only [List.mem_cons, List.mem_singleton, List.not_mem_nil, or_false] at hx
      rcases hx with hx | hx <;> subst hx <;> constructor <;> nlinarith

theorem Midpnt_after_a (k : Nat) (t : Midpnt K) : (Midpnt.after k t).a = t.a := by
  induction k with
  | zero => rfl
  | succ k ih => rw [Midpnt_after_succ, Midpnt_next_a, ih]

theorem Midpnt_after_b (k : Nat) (t : Midpnt K) : (Midpnt.after k t).b = t.b := by
  induction k with
  | zero => rfl
  | succ k ih => rw [Midpnt_after_succ, Midpnt_next_b, ih]

theorem Midpnt_after_evals_mem (k : Nat) (t : Midpnt K) (hab : t.a < t.b) (x : K)
    (hx : x ∈ (Midpnt.after k t).evals) : x ∈ t.evals ∨ (t.a < x ∧ x < t.b) := by
  induction k with
  | zero => exact Or.inl hx
  | succ k ih =>
    rw [Midpnt_after_succ] at hx
    have h := Midpnt_next_evals_mem (Midpnt.after k t)
      (by rw [Midpnt_after_a, Midpnt_after_b]; exact hab) x hx
    rw [Midpnt_after_a, Midpnt_after_b] at h
    rcases h with h | h
    · exact ih h
    · exact Or.inr h

end OpenClosed

/-- The evaluation points of the first two calls of `Midpnt::next` on `[0, 1]`. -/
theorem Midpnt_evals_two_calls :
    (Midpnt.after 2 (Midpnt.new (fun x : ℚ => x * x) 0 1)).evals = [1 / 2, 1 / 6, 5 / 6] := by
  simp [Midpnt.after, Midpnt.next, Midpnt.new, wrap32, loopCount, tripleLoop, Midpnt.sumLoop]
  norm_num

/-! ### C9 -/

section Singular

/-- The bound `1/√(i+1/2) ≤ 2 (√(i+1) - √i)` on the samples of `x ↦ 1/√x`. -/
theorem inv_sqrt_le_telescope (i : Nat) :
    1 / Real.sqrt ((i : ℝ) + 1 / 2) ≤ 2 * (Real.sqrt ((i : ℝ) + 1) - Real.sqrt (i : ℝ)) := by
  have hi : (0 : ℝ) ≤ (i : ℝ) := Nat.cast_nonneg i
  have hp2 : Real.sqrt ((i : ℝ) + 1) ^ 2 = (i : ℝ) + 1 := Real.sq_sqrt (by linarith)
  have hq2 : Real.sqrt (i : ℝ) ^ 2 = (i : ℝ) := Real.sq_sqrt hi
  have hr2 : Real.sqrt ((i : ℝ) + 1 / 2) ^ 2 = (i : ℝ) + 1 / 2 := Real.sq_sqrt (by linarith)
  have hp : 0 < Real.sqrt ((i : ℝ) + 1) := Real.sqrt_pos.mpr (by linarith)
  have hq : 0 ≤ Real.sqrt (i : ℝ) := Real.sqrt_nonneg _
  have hr : 0 < Real.sqrt ((i : ℝ) + 1 / 2) := Real.sqrt_pos.mpr (by linarith)
  have hqp : Real.sqrt (i : ℝ) ≤ Real.sqrt ((i : ℝ) + 1) := Real.sqrt_le_sqrt (by linarith)
  generalize Real.sqrt ((i : ℝ) + 1) = p at *
  generalize Real.sqrt (i : ℝ) = q at *
  generalize Real.sqrt ((i : ℝ) + 1 / 2) = r at *
  have h2 : p + q ≤ 2 * r := by
    by_contra hcon
    push_neg at hcon
    nlinarith [sq_nonneg (p - q)]
  rw [div_le_iff₀ hr]
  nlinarith [mul_le_mul_of_nonneg_left h2 (sub_nonneg.mpr hqp)]

/-- Midpoint convexity of `x ↦ 1/√x`. -/
theorem two_inv_sqrt_le (x δ : ℝ) (hδ : 0 < δ) (hx : δ < x) :
    2 * (1 / Real.sqrt x) ≤ 1 / Real.sqrt (x - δ) + 1 / Real.sqrt (x + δ) := by
  have hP2 : Real.sqrt (x - δ) ^ 2 = x - δ := Real.sq_sqrt (by linarith)
  have hQ2 : Real.sqrt (x + δ) ^ 2 = x + δ := Real.sq_sqrt (by linarith)
  have hR2 : Real.sqrt x ^ 2 = x := Real.sq_sqrt (by linarith)
  have hP : 0 < Real.sqrt (x - δ) := Real.sqrt_pos.mpr (by linarith)
  have hQ : 0 < Real.sqrt (x + δ) := Real.sqrt_pos.mpr (by linarith)
  have hR : 0 < Real.sqrt x := Real.sqrt_pos.mpr (by linarith)
  generalize Real.sqrt (x - δ) = P at *
  generalize Real.sqrt (x + δ) = Q at *
  generalize Real.sqrt x = R at *
  have h1 : P + Q ≤ 2 * R := by
    by_contra hcon
    push_neg at hcon
    nlinarith [sq_nonneg (P - Q)]
  rw [div_add_div _ _ hP.ne' hQ.ne', mul_one_div, div_le_div_iff₀ hR (mul_pos hP hQ)]
  nlinarith [sq_nonneg (P - Q), mul_pos hP hQ]

/-- Lower bound on `1/√z` from an upper bound on `z`. -/
theorem le_inv_sqrt (z t : ℝ) (hz : 0 < z) (h : z * t ^ 2 ≤ 1) :
    t ≤ 1 / Real.sqrt z := by
  have hs : 0 < Real.sqrt z := Real.sqrt_pos.mpr hz
  have hs2 : Real.sqrt z ^ 2 = z := Real.sq_sqrt hz.le
  rw [le_div_iff₀ hs]
  by_contra hcon
  push_neg at hcon
  nlinarith

/-- Upper bound on `1/√z` from a lower bound on `z`. -/
theorem inv_sqrt_le (z t : ℝ) (hz : 0 < z) (ht : 0 ≤ t) (h : 1 ≤ z * t ^ 2) :
    1 / Real.sqrt z ≤ t := by
  have hs : 0 < Real.sqrt z := Real.sqrt_pos.mpr hz
  have hs2 : Real.sqrt z ^ 2 = z := Real.sq_sqrt hz.le
  rw [div_le_iff₀ hs]
  by_contra hcon
  push_neg at hcon
  nlinarith [mul_nonneg ht hs.le]

/-- The composite midpoint sums of `x ↦ 1/√x` over `[0, 1]` are positive. -/
theorem midFormula_invSqrt_pos (N : Nat) (hN : 1 ≤ N) :
    0 < midFormula (fun x : ℝ => 1 / Real.sqrt x) 0 1 N := by
  have hN0 : (0 : ℝ) < (N : ℝ) := Nat.cast_pos.mpr (by omega)
  unfold midFormula
  refine mul_pos (by simpa using hN0) (Finset.sum_pos (fun i _ => ?_) ⟨0, Finset.mem_range.mpr hN⟩)
  have hi : (0 : ℝ) ≤ (i : ℝ) := Nat.cast_nonneg i
  exact div_pos one_pos (Real.sqrt_pos.mpr (by simp only [zero_add, sub_zero, mul_one]; positivity))

/-- The composite midpoint sums of `x ↦ 1/√x` over `[0, 1]` stay below the integral `2`. -/
theorem midFormula_invSqrt_le_two (N : Nat) (hN : 1 ≤ N) :
    midFormula (fun x : ℝ => 1 / Real.sqrt x) 0 1 N ≤ 2 := by
  have hN0 : (0 : ℝ) < (N : ℝ) := Nat.cast_pos.mpr (by omega)
  have hW : 0 < Real.sqrt (N : ℝ) := Real.sqrt_pos.mpr hN0
  have hW2 : Real.sqrt (N : ℝ) ^ 2 = N := Real.sq_sqrt hN0.le
  have hterm : ∀ i : Nat, 1 / Real.sqrt (0 + ((i : ℝ) + 1 / 2) * (1 - 0) / N) ≤
      Real.sqrt (N : ℝ) *
        (2 * (Real.sqrt (((i + 1 : Nat) : ℝ)) - Real.sqrt (i : ℝ))) := by
    intro i
    have hi : (0 : ℝ) ≤ (i : ℝ) := Nat.cast_nonneg i
    have e : (0 : ℝ) + ((i : ℝ) + 1 / 2) * (1 - 0) / N = ((i : ℝ) + 1 / 2) / N := by ring
    rw [e, Real.sqrt_div (by positivity), one_div_div, div_eq_mul_one_div]
    push_cast
    exact mul_le_mul_of_nonneg_left (inv_sqrt_le_telescope i) hW.le
  have hsum : ∑ i in Finset.range N,
      Real.sqrt (N : ℝ) * (2 * (Real.sqrt (((i + 1 : Nat) : ℝ)) - Real.sqrt (i : ℝ))) =
      2 * N := by
    rw [← Finset.mul_sum, ← Finset.mul_sum,
      Finset.sum_range_sub (fun i : Nat => Real.sqrt (i : ℝ))]
    simp only [Nat.cast_zero, Real.sqrt_zero, sub_zero]
    nlinarith
  unfold midFormula
  have hle := Finset.sum_le_sum (fun i (_ : i ∈ Finset.range N) => hterm i)
  rw [hsum] at hle
  have h1 : ((1 : ℝ) - 0) / N = 1 / N := by ring
  rw [h1]
  calc 1 / (N : ℝ) * ∑ i in Finset.range N,
        1 / Real.sqrt (0 + ((i : ℝ) + 1 / 2) * (1 - 0) / N)
      ≤ 1 / (N : ℝ) * (2 * N) := mul_le_mul_of_nonneg_left hle (by positivity)
    _ = 2 := by field_simp

/-- Convexity on one old panel: the two new samples of `x ↦ 1/√x` outweigh twice the old
one. -/
theorem invSqrt_panel_convex (N : Nat) (hN : 1 ≤ N) (i : Nat) :
    2 * (1 / Real.sqrt (((i : ℝ) + 1 / 2) / N)) ≤
      1 / Real.sqrt (0 + (1 / 2) * ((1 - 0) / (3 * (N : ℝ))) +
        (i : ℝ) * ((1 - 0) / (3 * (N : ℝ)) + (1 - 0) / (3 * (N : ℝ)) + (1 - 0) / (3 * (N : ℝ)))) +
      1 / Real.sqrt (0 + (1 / 2) * ((1 - 0) / (3 * (N : ℝ))) +
        (i : ℝ) * ((1 - 0) / (3 * (N : ℝ)) + (1 - 0) / (3 * (N : ℝ)) + (1 - 0) / (3 * (N : ℝ))) +
        ((1 - 0) / (3 * (N : ℝ)) + (1 - 0) / (3 * (N : ℝ)))) := by
  have hN0 : (0 : ℝ) < (N : ℝ) := Nat.cast_pos.mpr (by omega)
  have hi : (0 : ℝ) ≤ (i : ℝ) := Nat.cast_nonneg i
  have hd : 0 < 1 / (3 * (N : ℝ)) := by positivity
  have hlt : 1 / (3 * (N : ℝ)) < ((i : ℝ) + 1 / 2) / N := by
    rw [div_lt_div_iff₀ (by positivity) hN0]
    nlinarith
  have key := two_inv_sqrt_le (((i : ℝ) + 1 / 2) / N) (1 / (3 * (N : ℝ))) hd hlt
  have e1 : ((i : ℝ) + 1 / 2) / N - 1 / (3 * (N : ℝ)) =
      0 + (1 / 2) * ((1 - 0) / (3 * (N : ℝ))) +
      (i : ℝ) * ((1 - 0) / (3 * (N : ℝ)) + (1 - 0) / (3 * (N : ℝ)) + (1 - 0) / (3 * (N : ℝ))) := by
    field_simp
    ring
  have e2 : ((i : ℝ) + 1 / 2) / N + 1 / (3 * (N : ℝ)) =
      0 + (1 / 2) * ((1 - 0) / (3 * (N : ℝ))) +
      (i : ℝ) * ((1 - 0) / (3 * (N : ℝ)) + (1 - 0) / (3 * (N : ℝ)) + (1 - 0) / (3 * (N : ℝ))) +
      ((1 - 0) / (3 * (N : ℝ)) + (1 - 0) / (3 * (N : ℝ))) := by
    field_simp
    ring
  rw [e1, e2] at key
  exact key

/-- Numerical bounds on the three samples of `x ↦ 1/√x` in the first old panel, in units
of `√(3N)`. -/
theorem invSqrt_first_samples (N : Nat) (hN : 1 ≤ N) :
    1 / Real.sqrt (3 / (2 * (3 * (N : ℝ)))) ≤ (817 / 1000) * Real.sqrt (3 * (N : ℝ)) ∧
    (1414 / 1000) * Real.sqrt (3 * (N : ℝ)) ≤ 1 / Real.sqrt (1 / (2 * (3 * (N : ℝ)))) ∧
    (632 / 1000) * Real.sqrt (3 * (N : ℝ)) ≤ 1 / Real.sqrt (5 / (2 * (3 * (N : ℝ)))) := by
  have hN0 : (0 : ℝ) < (N : ℝ) := Nat.cast_pos.mpr (by omega)
  have hW2 : Real.sqrt (3 * (N : ℝ)) ^ 2 = 3 * N := Real.sq_sqrt (by positivity)
  refine ⟨?_, ?_, ?_⟩
  · refine inv_sqrt_le _ _ (by positivity) (by positivity) ?_
    rw [mul_pow, hW2]
    field_simp
    rw [le_div_iff₀ (by positivity)]
    nlinarith
  · refine le_inv_sqrt _ _ (by positivity) ?_
    rw [mul_pow, hW2]
    field_simp
    rw [div_le_iff₀ (by positivity)]
    nlinarith
  · refine le_inv_sqrt _ _ (by positivity) ?_
    rw [mul_pow, hW2]
    field_simp
    rw [div_le_iff₀ (by positivity)]
    nlinarith

/-- The first old panel: the two new samples outweigh twice the old one by
`0.412 √(3N)`. -/
theorem invSqrt_first_panel (N : Nat) (hN : 1 ≤ N) :
    2 * (1 / Real.sqrt ((((0 : Nat) : ℝ) + 1 / 2) / N)) +
      (412 / 1000) * Real.sqrt (3 * (N : ℝ)) ≤
      1 / Real.sqrt (0 + (1 / 2) * ((1 - 0) / (3 * (N : ℝ))) +
        ((0 : Nat) : ℝ) *
          ((1 - 0) / (3 * (N : ℝ)) + (1 - 0) / (3 * (N : ℝ)) + (1 - 0) / (3 * (N : ℝ)))) +
      1 / Real.sqrt (0 + (1 / 2) * ((1 - 0) / (3 * (N : ℝ))) +
        ((0 : Nat) : ℝ) *
          ((1 - 0) / (3 * (N : ℝ)) + (1 - 0) / (3 * (N : ℝ)) + (1 - 0) / (3 * (N : ℝ))) +
        ((1 - 0) / (3 * (N : ℝ)) + (1 - 0) / (3 * (N : ℝ)))) := by
  have hN0 : (0 : ℝ) < (N : ℝ) := Nat.cast_pos.mpr (by omega)
  have z0 : ((((0 : Nat) : ℝ) + 1 / 2) / N) = 3 / (2 * (3 * (N : ℝ))) := by
    field_simp
    ring
  have z1 : (0 + (1 / 2) * ((1 - 0) / (3 * (N : ℝ))) + ((0 : Nat) : ℝ) *
      ((1 - 0) / (3 * (N : ℝ)) + (1 - 0) / (3 * (N : ℝ)) + (1 - 0) / (3 * (N : ℝ)))) =
      1 / (2 * (3 * (N : ℝ))) := by
    field_simp
  have z2 : (0 + (1 / 2) * ((1 - 0) / (3 * (N : ℝ))) + ((0 : Nat) : ℝ) *
      ((1 - 0) / (3 * (N : ℝ)) + (1 - 0) / (3 * (N : ℝ)) + (1 - 0) / (3 * (N : ℝ))) +
      ((1 - 0) / (3 * (N : ℝ)) + (1 - 0) / (3 * (N : ℝ)))) = 5 / (2 * (3 * (N : ℝ))) := by
    field_simp
    ring
  rw [z0, z2, z1]
  obtain ⟨b0, b1, b2⟩ := invSqrt_first_samples N hN
  linarith

/-- The new samples of `x ↦ 1/√x` outweigh twice the old ones by `0.412 √(3N)`. -/
theorem invSqrt_new_samples (N : Nat) (hN : 1 ≤ N) :
    2 * (∑ i in Finset.range N, 1 / Real.sqrt (((i : ℝ) + 1 / 2) / N)) +
      (412 / 1000) * Real.sqrt (3 * (N : ℝ)) ≤
    ∑ i in Finset.range N,
      ((fun x : ℝ => 1 / Real.sqrt x) (0 + (1 / 2) * ((1 - 0) / (3 * (N : ℝ))) +
          (i : ℝ) * ((1 - 0) / (3 * (N : ℝ)) + (1 - 0) / (3 * (N : ℝ)) + (1 - 0) / (3 * (N : ℝ)))) +
        (fun x : ℝ => 1 / Real.sqrt x) (0 + (1 / 2) * ((1 - 0) / (3 * (N : ℝ))) +
          (i : ℝ) * ((1 - 0) / (3 * (N : ℝ)) + (1 - 0) / (3 * (N : ℝ)) + (1 - 0) / (3 * (N : ℝ))) +
          ((1 - 0) / (3 * (N : ℝ)) + (1 - 0) / (3 * (N : ℝ))))) := by
  obtain ⟨n, hn⟩ : ∃ n, N = n + 1 := ⟨N - 1, by omega⟩
  rw [hn, Finset.sum_range_succ', Finset.sum_range_succ' _ n, mul_add, add_assoc, ← hn]
  refine add_le_add ?_ (invSqrt_first_panel N hN)
  rw [Finset.mul_sum]
  exact Finset.sum_le_sum (fun i _ => invSqrt_panel_convex N hN (i + 1))

/-- Tripling the number of panels raises the composite midpoint sum of `x ↦ 1/√x` over
`[0, 1]` by more than `10^-5`, as long as there are at most `3^18` panels. -/
theorem midFormula_invSqrt_gap (N : Nat) (hN : 1 ≤ N) (hN18 : N ≤ 3 ^ 18) :
    midFormula (fun x : ℝ => 1 / Real.sqrt x) 0 1 N + 1 / 100000 ≤
      midFormula (fun x : ℝ => 1 / Real.sqrt x) 0 1 (3 * N) := by
  have hN0 : (0 : ℝ) < (N : ℝ) := Nat.cast_pos.mpr (by omega)
  have hNle : (N : ℝ) ≤ 387420489 := by
    have : N ≤ 387420489 := by norm_num at hN18; exact hN18
    exact_mod_cast this
  have hW : 0 < Real.sqrt (3 * (N : ℝ)) := Real.sqrt_pos.mpr (by positivity)
  have hW2 : Real.sqrt (3 * (N : ℝ)) ^ 2 = 3 * N := Real.sq_sqrt (by positivity)
  have hWle : Real.sqrt (3 * (N : ℝ)) ≤ 34100 :=
    Real.sqrt_le_iff.mpr ⟨by norm_num, by norm_num; linarith⟩
  have hSF := invSqrt_new_samples N hN
  rw [midFormula_triple _ 0 1 N hN]
  generalize (∑ i in Finset.range N,
    ((fun x : ℝ => 1 / Real.sqrt x) (0 + (1 / 2) * ((1 - 0) / (3 * (N : ℝ))) +
        (i : ℝ) * ((1 - 0) / (3 * (N : ℝ)) + (1 - 0) / (3 * (N : ℝ)) + (1 - 0) / (3 * (N : ℝ)))) +
      (fun x : ℝ => 1 / Real.sqrt x) (0 + (1 / 2) * ((1 - 0) / (3 * (N : ℝ))) +
        (i : ℝ) * ((1 - 0) / (3 * (N : ℝ)) + (1 - 0) / (3 * (N : ℝ)) + (1 - 0) / (3 * (N : ℝ))) +
        ((1 - 0) / (3 * (N : ℝ)) + (1 - 0) / (3 * (N : ℝ)))))) = S at hSF ⊢
  have hM : midFormula (fun x : ℝ => 1 / Real.sqrt x) 0 1 N =
      (1 / (N : ℝ)) * ∑ i in Finset.range N, 1 / Real.sqrt (((i : ℝ) + 1 / 2) / N) := by
    unfold midFormula
    rw [show ((1 : ℝ) - 0) / N = 1 / N by ring]
    congr 1
    refine Finset.sum_congr rfl (fun i _ => ?_)
    simp only [zero_add, sub_zero, mul_one]
  generalize (∑ i in Finset.range N, 1 / Real.sqrt (((i : ℝ) + 1 / 2) / N)) = F at hM hSF
  generalize midFormula (fun x : ℝ => 1 / Real.sqrt x) 0 1 N = M at hM ⊢
  generalize Real.sqrt (3 * (N : ℝ)) = W at hW hW2 hWle hSF
  -- the gain `0.412 / √(3N)` exceeds `10^-5`
  have hF : F = N * M := by
    rw [hM]
    field_simp
  have hgain : (1 : ℝ) / 100000 * (3 * N) ≤ (412 / 1000) * W := by
    nlinarith [mul_nonneg hW.le (sub_nonneg.mpr hWle)]
  rw [sub_zero, one_mul, le_div_iff₀ (by norm_num : (0 : ℝ) < 3), ← sub_nonneg]
  have e : (M + S / N - (M + 1 / 100000) * 3) * N =
      (S - (2 * F + (412 / 1000) * W)) + ((412 / 1000) * W - 1 / 100000 * (3 * N)) := by
    rw [hF]
    field_simp
    ring
  have hnn : 0 ≤ (M + S / N - (M + 1 / 100000) * 3) * N := by
    rw [e]
    linarith
  exact nonneg_of_mul_nonneg_left hnn hN0

/-- No test of `qmid` succeeds on `x ↦ 1/√x` over `[0, 1]` with `eps = 10^-6`. -/
theorem not_converged_invSqrt (j : Nat) (h1 : 1 ≤ j) (h19 : j ≤ 19) :
    ¬ converged (1 / 1000000 : ℝ) (midEstimate (fun x : ℝ => 1 / Real.sqrt x) 0 1 (j + 1))
      (midEstimate (fun x : ℝ => 1 / Real.sqrt x) 0 1 j) := by
  have hpow : 3 ^ (j - 1) ≤ 3 ^ 18 := Nat.pow_le_pow_right (by norm_num) (by omega)
  have hone : 1 ≤ 3 ^ (j - 1) := Nat.one_le_pow _ _ (by norm_num)
  have e : 3 ^ (j + 1 - 1) = 3 * 3 ^ (j - 1) := by
    rw [Nat.add_sub_cancel, ← pow_succ', Nat.sub_add_cancel h1]
  rw [midEstimate_eq_formula _ 0 1 (j + 1) (by omega) (by omega),
    midEstimate_eq_formula _ 0 1 j h1 (by omega), e]
  have hgap := midFormula_invSqrt_gap _ hone hpow
  have hpos := midFormula_invSqrt_pos _ hone
  have hle := midFormula_invSqrt_le_two _ hone
  generalize midFormula (fun x : ℝ => 1 / Real.sqrt x) 0 1 (3 * 3 ^ (j - 1)) = M3 at hgap
  generalize midFormula (fun x : ℝ => 1 / Real.sqrt x) 0 1 (3 ^ (j - 1)) = M at hgap hpos hle
  rintro (hc | ⟨-, h0⟩)
  · rw [abs_of_pos hpos, abs_of_pos (by linarith)] at hc
    linarith
  · exact absurd h0 (ne_of_gt hpos)

/-- The run of `qmid` on `x ↦ 1/√x` over `[0, 1]` with the default `eps = 10^-6`. -/
theorem qmidRun_invSqrt :
    qmidRun (fun x : ℝ => 1 / Real.sqrt x) 0 1 (1 / 1000000) =
      (Except.error qmidError,
        Midpnt.after 20 (Midpnt.new (fun x : ℝ => 1 / Real.sqrt x) 0 1)) := by
  rcases qmidRun_cases (fun x : ℝ => 1 / Real.sqrt x) 0 1 (1 / 1000000) with
    ⟨-, hr⟩ | ⟨j, h6, h19, hc, -, -⟩
  · exact hr
  · exact absurd hc (not_converged_invSqrt j (by omega) h19)

end Singular

/-- C9 (amended): `qmid` applied to `f(x) = 1/√x` on the interval from 0 to 1 with the
default tolerance `eps = 10^-6` never evaluates `f` at an endpoint, but in exact real
arithmetic it does not converge within its budget: it makes exactly 20 calls of `next()`
and fails with the too-many-steps error. -/
theorem C9_endpoint_singular_integrand :
    qmid (fun x : ℝ => 1 / Real.sqrt x) 0 1 (1 / 1000000) = Except.error qmidError ∧
    (qmidRun (fun x : ℝ => 1 / Real.sqrt x) 0 1 (1 / 1000000)).2.calls = 20 ∧
    (∀ x ∈ (qmidRun (fun x : ℝ => 1 / Real.sqrt x) 0 1 (1 / 1000000)).2.evals,
      0 < x ∧ x < 1) := by
  refine ⟨by rw [qmid, qmidRun_invSqrt], ?_, ?_⟩
  · rw [qmidRun_invSqrt, Midpnt_after_calls]
    rfl
  · intro x hx
    simp only [qmidRun_invSqrt] at hx
    rcases Midpnt_after_evals_mem 20 (Midpnt.new (fun x : ℝ => 1 / Real.sqrt x) 0 1)
      (show (0 : ℝ) < 1 from zero_lt_one) x hx with h | h
    · exact absurd h (List.not_mem_nil x)
    · exact h

/-- C9 as stated fails: `qmid` returns no estimate for `f(x) = 1/√x` on `[0, 1]` with
`eps = 10^-6`. -/
theorem C9_counterexample :
    ¬ ∃ r : ℝ, qmid (fun x : ℝ => 1 / Real.sqrt x) 0 1 (1 / 1000000) = Except.ok r := by
  rintro ⟨r, hr⟩
  rw [qmid, qmidRun_invSqrt] at hr
  exact Except.noConfusion hr

/-! ### C11 -/

section TwoCalls

variable {K : Type} [LinearOrderedField K]

/-- The first two estimates of `Trapzd`. -/
theorem trapEstimate_one_two (f : K → K) (a b : K) :
    trapEstimate f a b 1 = (b - a) * (f a + f b) / 2 ∧
    trapEstimate f a b 2 = ((b - a) * (f a + f b) / 2 + (b - a) * f ((a + b) / 2)) / 2 := by
  have e : a + ((1 : Nat) : K) * (b - a) / ((2 : Nat) : K) = (a + b) / 2 := by
    push_cast
    ring
  constructor
  · rw [trapEstimate_eq_formula f a b 1 le_rfl (by norm_num)]
    simp [trapFormula]
    ring
  · rw [trapEstimate_eq_formula f a b 2 (by norm_num) (by norm_num)]
    simp only [trapFormula, Nat.add_sub_cancel, pow_one, Nat.reduceSub,
      Finset.sum_Ico_succ_top (le_refl 1), Finset.Ico_self, Finset.sum_empty, zero_add, e]
    push_cast
    ring

/-- The first two estimates of `Midpnt`. -/
theorem midEstimate_one_two (f : K → K) (a b : K) :
    midEstimate f a b 1 = (b - a) * f ((a + b) / 2) ∧
    midEstimate f a b 2 =
      ((b - a) * f ((a + b) / 2) +
        (b - a) * (f (a + (b - a) / 6) + f (a + 5 * (b - a) / 6))) / 3 := by
  have e0 : a + (((0 : Nat) : K) + 1 / 2) * (b - a) / ((1 : Nat) : K) = (a + b) / 2 := by
    push_cast
    ring
  have e1 : a + (((0 : Nat) : K) + 1 / 2) * (b - a) / ((3 : Nat) : K) = a + (b - a) / 6 := by
    push_cast
    ring
  have e2 : a + (((1 : Nat) : K) + 1 / 2) * (b - a) / ((3 : Nat) : K) = (a + b) / 2 := by
    push_cast
    ring
  have e3 : a + (((2 : Nat) : K) + 1 / 2) * (b - a) / ((3 : Nat) : K) = a + 5 * (b - a) / 6 := by
    push_cast
    ring
  constructor
  · rw [midEstimate_eq_formula f a b 1 le_rfl (by norm_num)]
    simp only [midFormula, Nat.sub_self, pow_zero, Finset.sum_range_one, e0]
    push_cast
    ring
  · rw [midEstimate_eq_formula f a b 2 (by norm_num) (by norm_num)]
    simp only [midFormula, Nat.reduceSub, pow_one, Finset.sum_range_succ, Finset.sum_range_zero,
      zero_add, e1, e2, e3]
    push_cast
    ring

/-- When the first two estimates of the rules differ. -/
theorem two_calls_differ_iff (f : K → K) (a b : K) (hab : a < b) :
    (trapEstimate f a b 2 ≠ trapEstimate f a b 1 ↔ f ((a + b) / 2) ≠ (f a + f b) / 2) ∧
    (midEstimate f a b 2 ≠ midEstimate f a b 1 ↔
      f (a + (b - a) / 6) + f (a + 5 * (b - a) / 6) ≠ 2 * f ((a + b) / 2)) := by
  have hne : b - a ≠ 0 := sub_ne_zero.mpr (ne_of_gt hab)
  obtain ⟨t1, t2⟩ := trapEstimate_one_two f a b
  obtain ⟨m1, m2⟩ := midEstimate_one_two f a b
  rw [t1, t2, m1, m2]
  constructor
  · refine not_congr ⟨fun h => ?_, fun h => ?_⟩
    · have h2 : (b - a) * (f ((a + b) / 2) - (f a + f b) / 2) = 0 := by linear_combination 2 * h
      rcases mul_eq_zero.mp h2 with h3 | h3
      · exact absurd h3 hne
      · linear_combination h3
    · rw [h]
      ring
  · refine not_congr ⟨fun h => ?_, fun h => ?_⟩
    · have h2 : (b - a) *
          (f (a + (b - a) / 6) + f (a + 5 * (b - a) / 6) - 2 * f ((a + b) / 2)) = 0 := by
        linear_combination 3 * h
      rcases mul_eq_zero.mp h2 with h3 | h3
      · exact absurd h3 hne
      · linear_combination h3
    · rw [h]
      ring

end TwoCalls

/-- C11 (amended): in exact arithmetic, for every function `f` and all `a < b`, calling
`next()` twice in a row on a freshly constructed rule produces the level-1 estimate and then
the level-2 estimate; the two values are different exactly when
`f((a+b)/2) ≠ (f(a)+f(b))/2` for `Trapzd`, and exactly when
`f(a+(b-a)/6) + f(a+5(b-a)/6) ≠ 2 f((a+b)/2)` for `Midpnt`. -/
theorem C11_two_calls_of_next {K : Type} [LinearOrderedField K] (f : K → K) (a b : K)
    (hab : a < b) :
    (trapEstimate f a b 1 = trapFormula f a b 1 ∧ trapEstimate f a b 2 = trapFormula f a b 2 ∧
      (trapEstimate f a b 2 ≠ trapEstimate f a b 1 ↔ f ((a + b) / 2) ≠ (f a + f b) / 2)) ∧
    (midEstimate f a b 1 = midFormula f a b 1 ∧ midEstimate f a b 2 = midFormula f a b 3 ∧
      (midEstimate f a b 2 ≠ midEstimate f a b 1 ↔
        f (a + (b - a) / 6) + f (a + 5 * (b - a) / 6) ≠ 2 * f ((a + b) / 2))) :=
  ⟨⟨trapEstimate_eq_formula f a b 1 le_rfl (by norm_num),
      trapEstimate_eq_formula f a b 2 (by norm_num) (by norm_num),
      (two_calls_differ_iff f a b hab).1⟩,
    ⟨midEstimate_eq_formula f a b 1 le_rfl (by norm_num),
      midEstimate_eq_formula f a b 2 (by norm_num) (by norm_num),
      (two_calls_differ_iff f a b hab).2⟩⟩

/-- Witness of C11 (amended): on `x ↦ x²` over `[0, 1]` the first two estimates of both rules
differ. -/
theorem C11_two_calls_of_next_witness :
    (0 : ℚ) < 1 ∧
    trapEstimate (fun x : ℚ => x * x) 0 1 2 ≠ trapEstimate (fun x : ℚ => x * x) 0 1 1 ∧
    midEstimate (fun x : ℚ => x * x) 0 1 2 ≠ midEstimate (fun x : ℚ => x * x) 0 1 1 := by
  have key := C11_two_calls_of_next (fun x : ℚ => x * x) 0 1 (by norm_num)
  exact ⟨by norm_num, key.1.2.2.mpr (by norm_num), key.2.2.2.mpr (by norm_num)⟩

/-- For the constant integrand `f = 1` on `[0, 1]` the first two calls of `next()` return
the same value `1`, for both rules. -/
theorem const_two_calls_equal :
    (0 : ℚ) < 1 ∧
    trapEstimate (fun _ : ℚ => 1) 0 1 1 = 1 ∧ trapEstimate (fun _ : ℚ => 1) 0 1 2 = 1 ∧
    midEstimate (fun _ : ℚ => 1) 0 1 1 = 1 ∧ midEstimate (fun _ : ℚ => 1) 0 1 2 = 1 := by
  obtain ⟨t1, t2⟩ := trapEstimate_one_two (fun _ : ℚ => 1) 0 1
  obtain ⟨m1, m2⟩ := midEstimate_one_two (fun _ : ℚ => 1) 0 1
  rw [t1, t2, m1, m2]
  norm_num

/-! ### C12 -/

section Counter

variable {K : Type} [LinearOrderedField K]

theorem wrap32_succ_wrap32 (z : Int) : wrap32 (wrap32 z + 1) = wrap32 (z + 1) := by
  unfold wrap32
  omega

theorem Trapzd_next_n (t : Trapzd K) : t.next.2.n = wrap32 (t.n + 1) := by
  simp only [Trapzd.next]
  split_ifs <;> rfl

theorem Midpnt_next_n (t : Midpnt K) : t.next.2.n = wrap32 (t.n + 1) := by
  simp only [Midpnt.next]
  split_ifs <;> rfl

theorem Trapzd_next_a (t : Trapzd K) : t.next.2.a = t.a := by
  simp only [Trapzd.next]
  split_ifs <;> rfl

theorem Trapzd_next_b (t : Trapzd K) : t.next.2.b = t.b := by
  simp only [Trapzd.next]
  split_ifs <;> rfl

theorem Trapzd_next_func (t : Trapzd K) : t.next.2.func = t.func := by
  simp only [Trapzd.next]
  split_ifs <;> rfl

theorem Midpnt_next_funk (t : Midpnt K) : t.next.2.funk = t.funk := by
  simp only [Midpnt.next]
  split_ifs <;> rfl

/-- The counter of a fresh `Trapzd` after `k` calls, for any `k`. -/
theorem Trapzd_after_n (f : K → K) (a b : K) (k : Nat) :
    (Trapzd.after k (Trapzd.new f a b)).n = wrap32 k := by
  induction k with
  | zero => rfl
  | succ k ih =>
    rw [Trapzd_after_succ, Trapzd_next_n, ih, wrap32_succ_wrap32]
    push_cast
    rfl

/-- The counter of a fresh `Midpnt` after `k` calls, for any `k`. -/
theorem Midpnt_after_n (f : K → K) (a b : K) (k : Nat) :
    (Midpnt.after k (Midpnt.new f a b)).n = wrap32 k := by
  induction k with
  | zero => rfl
  | succ k ih =>
    rw [Midpnt_after_succ, Midpnt_next_n, ih, wrap32_succ_wrap32]
    push_cast
    rfl

theorem Trapzd_after_a (k : Nat) (t : Trapzd K) : (Trapzd.after k t).a = t.a := by
  induction k with
  | zero => rfl
  | succ k ih => rw [Trapzd_after_succ, Trapzd_next_a, ih]

theorem Trapzd_after_b (k : Nat) (t : Trapzd K) : (Trapzd.after k t).b = t.b := by
  induction k with
  | zero => rfl
  | succ k ih => rw [Trapzd_after_succ, Trapzd_next_b, ih]

end Counter

/-- C12 (amended): for both rules the counter `n` is 0 after construction, every call of
`next()` made with `n < 2^31 - 1` increases it by exactly 1, so after any sequence of
`k < 2^31` calls `n = k`; `next()` also leaves the interval endpoints `a` and `b`
unchanged. -/
theorem C12_refinement_count {K : Type} [LinearOrderedField K] (f : K → K) (a b : K)
    (k : Nat) (hk : k < 2147483648) :
    ((Trapzd.new f a b).n = 0 ∧ (Midpnt.new f a b).n = 0) ∧
    ((Trapzd.after k (Trapzd.new f a b)).n = k ∧ (Midpnt.after k (Midpnt.new f a b)).n = k) ∧
    ((∀ t : Trapzd K, -2147483648 ≤ t.n → t.n < 2147483647 → t.next.2.n = t.n + 1) ∧
      (∀ t : Midpnt K, -2147483648 ≤ t.n → t.n < 2147483647 → t.next.2.n = t.n + 1)) ∧
    ((∀ t : Trapzd K, t.next.2.a = t.a ∧ t.next.2.b = t.b) ∧
      (∀ t : Midpnt K, t.next.2.a = t.a ∧ t.next.2.b = t.b)) := by
  refine ⟨⟨rfl, rfl⟩, ⟨?_, ?_⟩, ⟨fun t h1 h2 => ?_, fun t h1 h2 => ?_⟩,
    ⟨fun t => ⟨Trapzd_next_a t, Trapzd_next_b t⟩, fun t => ⟨Midpnt_next_a t, Midpnt_next_b t⟩⟩⟩
  · rw [Trapzd_after_n, wrap32_natCast hk]
  · rw [Midpnt_after_n, wrap32_natCast hk]
  · rw [Trapzd_next_n, wrap32_eq (by omega) (by omega)]
  · rw [Midpnt_next_n, wrap32_eq (by omega) (by omega)]

/-- Witness of C12 (amended): three calls on `x ↦ x²` over `[0, 1]`. -/
theorem C12_refinement_count_witness :
    3 < 2147483648 ∧
    (Trapzd.after 3 (Trapzd.new (fun x : ℚ => x * x) 0 1)).n = 3 ∧
    (Midpnt.after 3 (Midpnt.new (fun x : ℚ => x * x) 0 1)).n = 3 :=
  ⟨by decide, (C12_refinement_count (fun x : ℚ => x * x) 0 1 3 (by decide)).2.1⟩

/-- C12 as stated fails at the end of the range of `int`: after `2^31 - 1` calls the counter
is `2^31 - 1` and the next call takes it to `-2^31`, so after `2^31` calls `n ≠ 2^31`. -/
theorem C12_counterexample :
    (Trapzd.after 2147483647 (Trapzd.new (fun _ : ℚ => 1) 0 1)).n = 2147483647 ∧
    (Trapzd.after 2147483648 (Trapzd.new (fun _ : ℚ => 1) 0 1)).n = -2147483648 ∧
    (Midpnt.after 2147483647 (Midpnt.new (fun _ : ℚ => 1) 0 1)).n = 2147483647 ∧
    (Midpnt.after 2147483648 (Midpnt.new (fun _ : ℚ => 1) 0 1)).n = -2147483648 := by
  refine ⟨?_, ?_, ?_, ?_⟩
  · rw [Trapzd_after_n]
    decide
  · rw [Trapzd_after_n]
    decide
  · rw [Midpnt_after_n]
    decide
  · rw [Midpnt_after_n]
    decide

/-! ### C16 -/

section NonPositiveTolerance

variable {K : Type} [LinearOrderedField K]

/-- With `eps ≤ 0` the test succeeds only on two zero estimates. -/
theorem zero_of_converged_of_nonpos (eps s olds : K) (h : eps ≤ 0) (hc : converged eps s olds) :
    s = 0 ∧ olds = 0 := by
  rcases hc with hc | hc
  · have h1 : eps * |olds| ≤ 0 := mul_nonpos_of_nonpos_of_nonneg h (abs_nonneg _)
    exact absurd (lt_of_lt_of_le hc h1) (not_lt.mpr (abs_nonneg _))
  · exact hc

/-- The outcomes of `qtrap` for `eps ≤ 0`. -/
theorem qtrap_nonpos (f : K → K) (a b eps : K) (heps : eps ≤ 0) :
    (∀ v, qtrap f a b eps = Except.ok v →
      v = 0 ∧ ∃ j, 6 ≤ j ∧ j ≤ 19 ∧ trapEstimate f a b j = 0 ∧ trapEstimate f a b (j + 1) = 0) ∧
    ((¬ ∃ j, 6 ≤ j ∧ j ≤ 19 ∧ trapEstimate f a b j = 0 ∧ trapEstimate f a b (j + 1) = 0) →
      qtrap f a b eps = Except.error qtrapError ∧ (qtrapRun f a b eps).2.calls = 20) := by
  rcases qtrapRun_cases f a b eps with ⟨hno, hr⟩ | ⟨j, h6, h19, hc, -, hr⟩
  · refine ⟨fun v hv => ?_, fun _ => ⟨by rw [qtrap, hr], ?_⟩⟩
    · rw [qtrap, hr] at hv
      exact Except.noConfusion hv
    · rw [hr, Trapzd_after_calls]
      rfl
  · obtain ⟨h0, h1⟩ := zero_of_converged_of_nonpos _ _ _ heps hc
    refine ⟨fun v hv => ?_, fun hne => absurd ⟨j, h6, h19, h1, h0⟩ hne⟩
    rw [qtrap, hr] at hv
    exact ⟨(Except.ok.inj hv) ▸ h0, j, h6, h19, h1, h0⟩

/-- The outcomes of `qmid` for `eps ≤ 0`. -/
theorem qmid_nonpos (f : K → K) (a b eps : K) (heps : eps ≤ 0) :
    (∀ v, qmid f a b eps = Except.ok v →
      v = 0 ∧ ∃ j, 6 ≤ j ∧ j ≤ 19 ∧ midEstimate f a b j = 0 ∧ midEstimate f a b (j + 1) = 0) ∧
    ((¬ ∃ j, 6 ≤ j ∧ j ≤ 19 ∧ midEstimate f a b j = 0 ∧ midEstimate f a b (j + 1) = 0) →
      qmid f a b eps = Except.error qmidError ∧ (qmidRun f a b eps).2.calls = 20) := by
  rcases qmidRun_cases f a b eps with ⟨hno, hr⟩ | ⟨j, h6, h19, hc, -, hr⟩
  · refine ⟨fun v hv => ?_, fun _ => ⟨by rw [qmid, hr], ?_⟩⟩
    · rw [qmid, hr] at hv
      exact Except.noConfusion hv
    · rw [hr, Midpnt_after_calls]
      rfl
  · obtain ⟨h0, h1⟩ := zero_of_converged_of_nonpos _ _ _ heps hc
    refine ⟨fun v hv => ?_, fun hne => absurd ⟨j, h6, h19, h1, h0⟩ hne⟩
    rw [qmid, hr] at hv
    exact ⟨(Except.ok.inj hv) ▸ h0, j, h6, h19, h1, h0⟩

/-- With `eps = -1` the zero integrand on `[0, 1]` makes `qtrap` return `0`. -/
theorem qtrap_zero_neg : qtrap (fun _ : ℚ => 0) 0 1 (-1) = Except.ok 0 := by
  have h := fun k h1 h32 => trapEstimate_affine (0 : ℚ) 0 0 1 k h1 h32
  simp only [zero_mul, zero_add, add_zero, mul_zero, zero_div] at h
  have key := qtrapRun_of_least (fun _ : ℚ => 0) 0 1 (-1) 6 le_rfl (by norm_num)
    (Or.inr ⟨h 7 (by norm_num) (by norm_num), h 6 (by norm_num) (by norm_num)⟩)
    (fun j h6 hlt => absurd h6 (by omega))
  rw [qtrap, key, h 7 (by norm_num) (by norm_num)]

end NonPositiveTolerance

/-- C16: for every `eps ≤ 0`, `qtrap` and `qmid` return a value only if some consecutive
estimates `s_j` and `s_(j+1)` with `6 ≤ j ≤ 19` are both exactly 0, and then the returned
value is 0; in every other case they fail with the too-many-steps error after 20 calls. -/
theorem C16_non_positive_tolerance {K : Type} [LinearOrderedField K] (f : K → K) (a b eps : K)
    (heps : eps ≤ 0) :
    ((∀ v, qtrap f a b eps = Except.ok v →
        v = 0 ∧
          ∃ j, 6 ≤ j ∧ j ≤ 19 ∧ trapEstimate f a b j = 0 ∧ trapEstimate f a b (j + 1) = 0) ∧
      ((¬ ∃ j, 6 ≤ j ∧ j ≤ 19 ∧ trapEstimate f a b j = 0 ∧ trapEstimate f a b (j + 1) = 0) →
        qtrap f a b eps = Except.error qtrapError ∧ (qtrapRun f a b eps).2.calls = 20)) ∧
    ((∀ v, qmid f a b eps = Except.ok v →
        v = 0 ∧
          ∃ j, 6 ≤ j ∧ j ≤ 19 ∧ midEstimate f a b j = 0 ∧ midEstimate f a b (j + 1) = 0) ∧
      ((¬ ∃ j, 6 ≤ j ∧ j ≤ 19 ∧ midEstimate f a b j = 0 ∧ midEstimate f a b (j + 1) = 0) →
        qmid f a b eps = Except.error qmidError ∧ (qmidRun f a b eps).2.calls = 20)) :=
  ⟨qtrap_nonpos f a b eps heps, qmid_nonpos f a b eps heps⟩

/-- Witness of C16: with `eps = -1` the zero integrand on `[0, 1]` makes `qtrap` return `0`
through the zero/zero case. -/
theorem C16_non_positive_tolerance_witness :
    (-1 : ℚ) ≤ 0 ∧ qtrap (fun _ : ℚ => 0) 0 1 (-1) = Except.ok 0 ∧
    ∃ j, 6 ≤ j ∧ j ≤ 19 ∧ trapEstimate (fun _ : ℚ => 0) 0 1 j = 0 ∧
      trapEstimate (fun _ : ℚ => 0) 0 1 (j + 1) = 0 :=
  ⟨by norm_num, qtrap_zero_neg,
    ((C16_non_positive_tolerance (fun _ : ℚ => 0) 0 1 (-1) (by norm_num)).1.1 0
      qtrap_zero_neg).2⟩

/-! ### C19 -/

/-- C19: for every call index `k` with `2 ≤ k ≤ 20`, the loop that computes `it` in 32-bit
signed arithmetic yields exactly `3^(k-2)` in `Midpnt::next` and `2^(k-2)` in `Trapzd::next`;
every intermediate value is the exact power and at most `3^18 = 387420489 < 2^31`, the
counter `n` of a fresh rule is `k` in its `k`-th call, and `qtrap` and `qmid` make at most 20
calls. -/
theorem C19_no_overflow_within_budget {K : Type} [LinearOrderedField K] (f : K → K)
    (a b eps : K) (k : Nat) (h2 : 2 ≤ k) (h20 : k ≤ 20) :
    (tripleLoop (loopCount k) 1 = 3 ^ (k - 2) ∧ shiftLoop (loopCount k) 1 = 2 ^ (k - 2)) ∧
    (∀ c, c ≤ k - 2 →
      tripleLoop c 1 = 3 ^ c ∧ shiftLoop c 1 = 2 ^ c ∧
        (2 : Int) ^ c ≤ 3 ^ c ∧ (3 : Int) ^ c ≤ 387420489 ∧ (387420489 : Int) < 2 ^ 31) ∧
    (wrap32 ((Midpnt.after (k - 1) (Midpnt.new f a b)).n + 1) = k ∧
      wrap32 ((Trapzd.after (k - 1) (Trapzd.new f a b)).n + 1) = k) ∧
    ((qtrapRun f a b eps).2.calls ≤ 20 ∧ (qmidRun f a b eps).2.calls ≤ 20) := by
  have hc : loopCount (k : Int) = k - 2 := by
    have := loopCount_succ (show k - 1 < 2147483648 by omega)
    rw [show ((k - 1 : Nat) : Int) + 1 = (k : Int) by omega] at this
    rw [this]
    omega
  refine ⟨⟨?_, ?_⟩, fun c hc2 => ⟨tripleLoop_one (by omega), shiftLoop_one (by omega), ?_, ?_,
    by norm_num⟩, ⟨?_, ?_⟩, ⟨?_, ?_⟩⟩
  · rw [hc, tripleLoop_one (by omega)]
  · rw [hc, shiftLoop_one (by omega)]
  · exact pow_le_pow_left₀ (by norm_num) (by norm_num) c
  · calc (3 : Int) ^ c ≤ 3 ^ 18 := pow_le_pow_right₀ (by norm_num) (by omega)
      _ = 387420489 := by norm_num
  · rw [Midpnt_after_n, wrap32_natCast (by omega)]
    exact wrap32_eq (by omega) (by omega) |>.trans (by omega)
  · rw [Trapzd_after_n, wrap32_natCast (by omega)]
    exact wrap32_eq (by omega) (by omega) |>.trans (by omega)
  · rcases qtrapRun_cases f a b eps with ⟨-, hr⟩ | ⟨j, -, h19, -, -, hr⟩ <;>
      rw [hr, Trapzd_after_calls] <;> simp only [Trapzd.new] <;> omega
  · rcases qmidRun_cases f a b eps with ⟨-, hr⟩ | ⟨j, -, h19, -, -, hr⟩ <;>
      rw [hr, Midpnt_after_calls] <;> simp only [Midpnt.new] <;> omega

/-- Witness of C19: the last call `k = 20` of the budget; `it` is `3^18`, resp. `2^18`. -/
theorem C19_no_overflow_within_budget_witness :
    (2 ≤ 20 ∧ 20 ≤ 20) ∧
    tripleLoop (loopCount (20 : Nat)) 1 = 3 ^ (20 - 2) ∧
    shiftLoop (loopCount (20 : Nat)) 1 = 2 ^ (20 - 2) :=
  ⟨by decide,
    (C19_no_overflow_within_budget (fun x : ℚ => x) 0 1 (1 / 1000000) 20 (by decide)
      (by decide)).1⟩

/-! ### C14 -/

section TrapzdSamples

variable {K : Type} [LinearOrderedField K]

theorem panelMidpoints_length (a b : K) (N : Nat) : (panelMidpoints a b N).length = N := by
  rw [panelMidpoints, List.length_map, List.length_range]

/-- The panel midpoints of a proper interval are pairwise distinct. -/
theorem panelMidpoints_nodup (a b : K) (hab : a < b) (N : Nat) :
    (panelMidpoints a b N).Nodup := by
  rcases Nat.eq_zero_or_pos N with h0 | hpos
  · subst h0
    simp [panelMidpoints]
  · have hN0 : (N : K) ≠ 0 := Nat.cast_ne_zero.mpr (by omega)
    have hne : b - a ≠ 0 := sub_ne_zero.mpr (ne_of_gt hab)
    refine List.Nodup.map (fun i j h => ?_) (List.nodup_range N)
    have h1 : ((i : K) + 1 / 2) * (b - a) / N = ((j : K) + 1 / 2) * (b - a) / N :=
      add_left_cancel h
    have h2 : ((i : K) + 1 / 2) * (b - a) = ((j : K) + 1 / 2) * (b - a) :=
      (div_left_inj' hN0).mp h1
    exact Nat.cast_injective (add_right_cancel (mul_right_cancel₀ hne h2))

/-- The points taken by call `k + 1` of `Trapzd::next` are the midpoints of the `2^(k-1)`
panels of the previous level. -/
theorem Trapzd_newPoints_eq (t : Trapzd K) (k : Nat) :
    t.newPoints k = panelMidpoints t.a t.b (2 ^ (k - 1)) := by
  unfold Trapzd.newPoints panelMidpoints
  refine List.map_congr_left (fun i _ => ?_)
  push_cast
  ring

/-- The evaluation log of a fresh `Trapzd` grows by the midpoints of the previous level's
panels at call `k + 1`, for `1 ≤ k ≤ 31`. -/
theorem Trapzd_after_evals_succ (f : K → K) (a b : K) (k : Nat) (h1 : 1 ≤ k) (h31 : k ≤ 31) :
    (Trapzd.after (k + 1) (Trapzd.new f a b)).evals =
      (Trapzd.after k (Trapzd.new f a b)).evals ++ panelMidpoints a b (2 ^ (k - 1)) := by
  obtain ⟨hn, ha, hb, -, -, -⟩ := Trapzd_after_new f a b k h1 (by omega)
  rw [Trapzd_after_succ, Trapzd_next_later _ k hn h1 h31, Trapzd_newPoints_eq, ha, hb]

/-- Every point evaluated by the first `k` calls of a fresh `Trapzd` is a grid point
`a + j*(b-a)/2^(k-1)` of level `k`. -/
theorem Trapzd_evals_on_grid (f : K → K) (a b : K) (k : Nat) (h1 : 1 ≤ k) (h32 : k ≤ 32) :
    ∀ x ∈ (Trapzd.after k (Trapzd.new f a b)).evals,
      ∃ j : Nat, x = a + (j : K) * (b - a) / 2 ^ (k - 1) := by
  induction k, h1 using Nat.le_induction with
  | base =>
    intro x hx
    have h : (Trapzd.after 1 (Trapzd.new f a b)).evals = [a, b] := by
      rw [Trapzd.after, Trapzd.after, Trapzd_next_first _ rfl]
      rfl
    rw [h] at hx
    simp only [List.mem_cons, List.mem_singleton, List.not_mem_nil, or_false] at hx
    rcases hx with hx | hx
    · exact ⟨0, by rw [hx]; simp⟩
    · exact ⟨1, by rw [hx]; simp⟩
  | succ k h1 ih =>
    intro x hx
    have h2 : (2 : K) ^ (k - 1) ≠ 0 := pow_ne_zero _ (by norm_num)
    have h22 : (2 : K) * 2 ^ (k - 1) ≠ 0 := mul_ne_zero two_ne_zero h2
    have e : (2 : K) ^ (k + 1 - 1) = 2 * 2 ^ (k - 1) := by
      rw [Nat.add_sub_cancel, ← pow_succ', Nat.sub_add_cancel h1]
    rw [Trapzd_after_evals_succ f a b k h1 (by omega), List.mem_append] at hx
    rcases hx with hx | hx
    · obtain ⟨j, hj⟩ := ih (by omega) x hx
      refine ⟨2 * j, ?_⟩
      rw [hj, e]
      congr 1
      rw [div_eq_div_iff h2 h22]
      push_cast
      ring
    · simp only [panelMidpoints, List.mem_map, List.mem_range] at hx
      obtain ⟨i, -, hi⟩ := hx
      refine ⟨2 * i + 1, ?_⟩
      rw [← hi, e]
      congr 1
      push_cast
      rw [div_eq_div_iff h2 h22]
      ring

/-- A midpoint of a panel of level `k` is not a grid point of level `k`. -/
theorem panelMidpoint_not_on_grid (a b : K) (hab : a < b) (k : Nat) (i j : Nat) :
    a + ((i : K) + 1 / 2) * (b - a) / ((2 ^ (k - 1) : Nat) : K) ≠
      a + (j : K) * (b - a) / 2 ^ (k - 1) := by
  have hne : b - a ≠ 0 := sub_ne_zero.mpr (ne_of_gt hab)
  have h2 : (2 : K) ^ (k - 1) ≠ 0 := pow_ne_zero _ (by norm_num)
  intro h
  push_cast at h
  have h1 : ((i : K) + 1 / 2) * (b - a) = (j : K) * (b - a) :=
    (div_left_inj' h2).mp (add_left_cancel h)
  have h3 : (i : K) + 1 / 2 = (j : K) := mul_right_cancel₀ hne h1
  have h4 : ((2 * i + 1 : Nat) : K) = ((2 * j : Nat) : K) := by
    push_cast
    linear_combination 2 * h3
  have h5 : 2 * i + 1 = 2 * j := Nat.cast_injective h4
  omega

/-- Call 33 of `Trapzd::next` evaluates the function nowhere. -/
theorem Trapzd_next_overflow_evals (t : Trapzd K) (h : t.n = 32) : t.next.2.evals = t.evals := by
  have e : wrap32 (t.n + 1) = 33 := by rw [h]; decide
  have hs : shiftLoop (loopCount 33) 1 = -2147483648 := by
    have h30 : shiftLoop 31 1 = shiftLoop 1 (wrap32 (2 ^ 30)) := by
      simp only [shiftLoop, one_mul]
      norm_num [wrap32]
    have hc : loopCount 33 = 31 := by decide
    rw [hc, h30]
    decide
  simp [Trapzd.next, e, hs, Trapzd.sumLoop]

end TrapzdSamples

/-- The 33rd call of `next()` on `Trapzd` evaluates the function nowhere, instead of at the
`2^31` midpoints of the previous level's panels. -/
theorem Trapzd_call_33_samples_nothing :
    (Trapzd.after 33 (Trapzd.new (fun x : ℚ => x * x) 0 1)).evals =
      (Trapzd.after 32 (Trapzd.new (fun x : ℚ => x * x) 0 1)).evals ∧
    (panelMidpoints (0 : ℚ) 1 (2 ^ (33 - 2))).length = 2147483648 ∧
    (Trapzd.after 33 (Trapzd.new (fun x : ℚ => x * x) 0 1)).evals ≠
      (Trapzd.after 32 (Trapzd.new (fun x : ℚ => x * x) 0 1)).evals ++
        panelMidpoints 0 1 (2 ^ (33 - 2)) := by
  have hn := (Trapzd_after_new (fun x : ℚ => x * x) 0 1 32 (by norm_num) (by norm_num)).1
  have h33 : (Trapzd.after 33 (Trapzd.new (fun x : ℚ => x * x) 0 1)).evals =
      (Trapzd.after 32 (Trapzd.new (fun x : ℚ => x * x) 0 1)).evals := by
    rw [Trapzd_after_succ, Trapzd_next_overflow_evals _ (by simpa using hn)]
  have hl : (panelMidpoints (0 : ℚ) 1 (2 ^ (33 - 2))).length = 2147483648 := by
    rw [panelMidpoints_length]
    norm_num
  refine ⟨h33, hl, fun h => ?_⟩
  have h2 := congrArg List.length h
  rw [h33, List.length_append, hl] at h2
  omega

/-! ### C13 -/

section MidpntSamples

variable {K : Type} [LinearOrderedField K]

/-- Splitting the list `g 0, ..., g (3 N - 1)` by the residue of the index modulo 3. -/
theorem map_range_triple_perm {α : Type} (g : Nat → α) (N : Nat) :
    List.Perm ((List.range (3 * N)).map g)
      ((List.range N).map (fun i => g (3 * i + 1)) ++
        (List.range N).flatMap (fun i => [g (3 * i), g (3 * i + 2)])) := by
  induction N with
  | zero => simp
  | succ N ih =>
    rw [show 3 * (N + 1) = 3 * N + 1 + 1 + 1 by ring, List.range_succ, List.range_succ,
      List.range_succ, List.range_succ (n := N)]
    simp only [List.map_append, List.flatMap_append, List.map_cons, List.map_nil,
      List.flatMap_cons, List.flatMap_nil, List.append_nil, List.append_assoc,
      List.singleton_append, List.cons_append, List.nil_append]
    refine (List.Perm.append_right _ ih).trans ?_
    rw [List.append_assoc]
    refine List.Perm.append_left _ ?_
    have h := @List.perm_middle α (g (3 * N + 1))
      ((List.range N).flatMap (fun i => [g (3 * i), g (3 * i + 2)]) ++ [g (3 * N)])
      [g (3 * N + 1 + 1)]
    simp only [List.append_assoc, List.singleton_append, List.cons_append,
      List.nil_append] at h
    exact h

/-- The points taken by call `k + 1` of `Midpnt::next`, together with the midpoints of the
`N = 3^(k-1)` panels of the previous level, are the midpoints of the `3 N` panels. -/
theorem Midpnt_newPoints_perm (t : Midpnt K) (k : Nat) :
    List.Perm (panelMidpoints t.a t.b (3 ^ (k - 1)) ++ t.newPoints k)
      (panelMidpoints t.a t.b (3 * 3 ^ (k - 1))) := by
  have hN0 : ((3 : K) ^ (k - 1)) ≠ 0 := pow_ne_zero _ (by norm_num)
  have key := map_range_triple_perm
    (fun i : Nat => t.a + ((i : K) + 1 / 2) * (t.b - t.a) / ((3 * 3 ^ (k - 1) : Nat) : K))
    (3 ^ (k - 1))
  refine List.Perm.symm (key.trans (List.Perm.of_eq ?_))
  unfold panelMidpoints Midpnt.newPoints Midpnt.step
  congr 1
  · refine List.map_congr_left (fun i _ => ?_)
    push_cast
    field_simp
    ring
  · refine List.flatMap_congr (fun i _ => ?_)
    have e0 : t.a + (((3 * i : Nat) : K) + 1 / 2) * (t.b - t.a) /
        ((3 * 3 ^ (k - 1) : Nat) : K) =
        t.a + 1 / 2 * ((t.b - t.a) / (3 * 3 ^ (k - 1))) +
          (i : K) * ((t.b - t.a) / (3 * 3 ^ (k - 1)) + (t.b - t.a) / (3 * 3 ^ (k - 1)) +
            (t.b - t.a) / (3 * 3 ^ (k - 1))) := by
      push_cast
      field_simp
      ring
    have e2 : t.a + (((3 * i + 2 : Nat) : K) + 1 / 2) * (t.b - t.a) /
        ((3 * 3 ^ (k - 1) : Nat) : K) =
        t.a + 1 / 2 * ((t.b - t.a) / (3 * 3 ^ (k - 1))) +
          (i : K) * ((t.b - t.a) / (3 * 3 ^ (k - 1)) + (t.b - t.a) / (3 * 3 ^ (k - 1)) +
            (t.b - t.a) / (3 * 3 ^ (k - 1))) +
          ((t.b - t.a) / (3 * 3 ^ (k - 1)) + (t.b - t.a) / (3 * 3 ^ (k - 1))) := by
      push_cast
      field_simp
      ring
    rw [e0, e2]

theorem Midpnt_newPoints_length (t : Midpnt K) (k : Nat) :
    (t.newPoints k).length = 2 * 3 ^ (k - 1) := by
  have h := (Midpnt_newPoints_perm t k).length_eq
  rw [List.length_append, panelMidpoints_length, panelMidpoints_length] at h
  omega

/-- The evaluation log of a fresh `Midpnt` at call `k + 1`, for `1 ≤ k ≤ 20`. -/
theorem Midpnt_after_evals_succ (f : K → K) (a b : K) (k : Nat) (h1 : 1 ≤ k) (h20 : k ≤ 20) :
    (Midpnt.after (k + 1) (Midpnt.new f a b)).evals =
      (Midpnt.after k (Midpnt.new f a b)).evals ++
        (Midpnt.after k (Midpnt.new f a b)).newPoints k := by
  obtain ⟨hn, -, -, -, -, -⟩ := Midpnt_after_new f a b k h1 (by omega)
  rw [Midpnt_after_succ, Midpnt_next_later _ k hn h1 h20]

/-- The points evaluated by the first `k` calls of a fresh `Midpnt`, `1 ≤ k ≤ 21`, are the
midpoints of the `3^(k-1)` panels, in some order. -/
theorem Midpnt_evals_perm (f : K → K) (a b : K) (k : Nat) (h1 : 1 ≤ k) (h21 : k ≤ 21) :
    List.Perm (Midpnt.after k (Midpnt.new f a b)).evals (panelMidpoints a b (3 ^ (k - 1))) := by
  induction k, h1 using Nat.le_induction with
  | base =>
    have h : (Midpnt.after 1 (Midpnt.new f a b)).evals = [(1 / 2) * (a + b)] := by
      rw [Midpnt.after, Midpnt.after, Midpnt_next_first _ rfl]
      rfl
    rw [h]
    refine List.Perm.of_eq ?_
    have hr : List.range 1 = [0] := rfl
    simp only [panelMidpoints, Nat.sub_self, pow_zero, hr, List.map_cons, List.map_nil]
    congr 1
    push_cast
    ring
  | succ k h1 ih =>
    have e : 3 ^ (k + 1 - 1) = 3 * 3 ^ (k - 1) := by
      rw [Nat.add_sub_cancel, ← pow_succ', Nat.sub_add_cancel h1]
    rw [Midpnt_after_evals_succ f a b k h1 (by omega), e]
    have hp := Midpnt_newPoints_perm (Midpnt.after k (Midpnt.new f a b)) k
    rw [Midpnt_after_a, Midpnt_after_b] at hp
    exact (List.Perm.append_right _ (ih (by omega))).trans hp

/-- Call 22 of `Midpnt::next` evaluates the function nowhere. -/
theorem Midpnt_next_overflow_evals (t : Midpnt K) (h : t.n = 21) : t.next.2.evals = t.evals := by
  have e : wrap32 (t.n + 1) = 22 := by rw [h]; decide
  have hs : tripleLoop (loopCount 22) 1 = -808182895 := by
    have h19 : tripleLoop 20 1 = tripleLoop 1 (wrap32 (3 ^ 19)) := by
      simp only [tripleLoop, one_mul]
      norm_num [wrap32]
    have hc : loopCount 22 = 20 := by decide
    rw [hc, h19]
    decide
  simp [Midpnt.next, e, hs, Midpnt.sumLoop]

end MidpntSamples

/-- The 22nd call of `next()` on `Midpnt` evaluates the function nowhere, so the first 22
calls sample `3^20` points and not the `3^21` midpoints of the level-22 grid. -/
theorem Midpnt_call_22_samples_nothing :
    (Midpnt.after 22 (Midpnt.new (fun x : ℚ => x * x) 0 1)).evals =
      (Midpnt.after 21 (Midpnt.new (fun x : ℚ => x * x) 0 1)).evals ∧
    (Midpnt.after 22 (Midpnt.new (fun x : ℚ => x * x) 0 1)).evals.length = 3 ^ 20 ∧
    ¬ List.Perm (Midpnt.after 22 (Midpnt.new (fun x : ℚ => x * x) 0 1)).evals
      (panelMidpoints 0 1 (3 ^ (22 - 1))) := by
  have hn := (Midpnt_after_new (fun x : ℚ => x * x) 0 1 21 (by norm_num) (by norm_num)).1
  have h22 : (Midpnt.after 22 (Midpnt.new (fun x : ℚ => x * x) 0 1)).evals =
      (Midpnt.after 21 (Midpnt.new (fun x : ℚ => x * x) 0 1)).evals := by
    rw [Midpnt_after_succ, Midpnt_next_overflow_evals _ (by simpa using hn)]
  have hl : (Midpnt.after 22 (Midpnt.new (fun x : ℚ => x * x) 0 1)).evals.length = 3 ^ 20 := by
    rw [h22, (Midpnt_evals_perm (fun x : ℚ => x * x) 0 1 21 (by norm_num) (by norm_num)).length_eq,
      panelMidpoints_length]
  refine ⟨h22, hl, fun h => ?_⟩
  have h2 := h.length_eq
  rw [hl, panelMidpoints_length] at h2
  norm_num at h2

/-! ### C15 -/

section Antisymmetry

variable {K : Type} [LinearOrderedField K]

/-- The samples of `Trapzd::next` on the swapped interval are those on the interval, in
reverse order. -/
theorem trap_sum_mirror (g : K → K) (a b : K) (c : Nat) (hc : 0 < c) :
    ∑ i in Finset.range c, g (b + 1 / 2 * ((a - b) / c) + i * ((a - b) / c)) =
      ∑ i in Finset.range c, g (a + 1 / 2 * ((b - a) / c) + i * ((b - a) / c)) := by
  have hc0 : (c : K) ≠ 0 := Nat.cast_ne_zero.mpr (by omega)
  rw [← Finset.sum_range_reflect (fun i => g (a + 1 / 2 * ((b - a) / c) + i * ((b - a) / c))) c]
  refine Finset.sum_congr rfl (fun i hi => ?_)
  have hi2 : i + 1 ≤ c := Finset.mem_range.mp hi
  have e : ((c - 1 - i : Nat) : K) = (c : K) - 1 - i := by
    rw [Nat.sub_sub, Nat.cast_sub (by omega)]
    push_cast
    ring
  simp only [e]
  congr 1
  field_simp
  ring

/-- The samples of `Midpnt::next` on the swapped interval are those on the interval, in
reverse order. -/
theorem mid_sum_mirror (g : K → K) (a b : K) (c : Nat) (hc : 0 < c) :
    ∑ i in Finset.range c,
        (g (b + 1 / 2 * ((a - b) / (3 * c)) +
            i * ((a - b) / (3 * c) + (a - b) / (3 * c) + (a - b) / (3 * c))) +
          g (b + 1 / 2 * ((a - b) / (3 * c)) +
            i * ((a - b) / (3 * c) + (a - b) / (3 * c) + (a - b) / (3 * c)) +
            ((a - b) / (3 * c) + (a - b) / (3 * c)))) =
      ∑ i in Finset.range c,
        (g (a + 1 / 2 * ((b - a) / (3 * c)) +
            i * ((b - a) / (3 * c) + (b - a) / (3 * c) + (b - a) / (3 * c))) +
          g (a + 1 / 2 * ((b - a) / (3 * c)) +
            i * ((b - a) / (3 * c) + (b - a) / (3 * c) + (b - a) / (3 * c)) +
            ((b - a) / (3 * c) + (b - a) / (3 * c)))) := by
  have hc0 : (c : K) ≠ 0 := Nat.cast_ne_zero.mpr (by omega)
  rw [← Finset.sum_range_reflect (fun i =>
    g (a + 1 / 2 * ((b - a) / (3 * c)) +
        i * ((b - a) / (3 * c) + (b - a) / (3 * c) + (b - a) / (3 * c))) +
      g (a + 1 / 2 * ((b - a) / (3 * c)) +
        i * ((b - a) / (3 * c) + (b - a) / (3 * c) + (b - a) / (3 * c)) +
        ((b - a) / (3 * c) + (b - a) / (3 * c)))) c]
  refine Finset.sum_congr rfl (fun i hi => ?_)
  have hi2 : i + 1 ≤ c := Finset.mem_range.mp hi
  have e : ((c - 1 - i : Nat) : K) = (c : K) - 1 - i := by
    rw [Nat.sub_sub, Nat.cast_sub (by omega)]
    push_cast
    ring
  simp only [e]
  rw [add_comm]
  congr 2
  · field_simp
    ring
  · field_simp
    ring

/-- A call of `Trapzd::next` on mirrored states returns opposite values. -/
theorem Trapzd_next_mirror (t u : Trapzd K) (h : Trapzd.Mirrored t u) :
    u.next.1 = -t.next.1 := by
  obtain ⟨hn, ha, hb, hf, hs⟩ := h
  simp only [Trapzd.next, Trapzd_sumLoop_eq, hn, ha, hb, hf, hs, zero_add]
  split_ifs with h1
  · ring
  · generalize shiftLoop (loopCount (wrap32 (t.n + 1))) 1 = it
    rcases le_or_lt it 0 with hle | hpos
    · simp only [Int.toNat_of_nonpos hle, Finset.range_zero, Finset.sum_empty, mul_zero, zero_div,
        add_zero]
      ring
    · lift it to Nat using hpos.le
      have hc : 0 < it := by exact_mod_cast hpos
      simp only [Int.toNat_natCast, Int.cast_natCast]
      rw [trap_sum_mirror t.func t.a t.b it hc]
      ring

/-- A call of `Midpnt::next` on mirrored states returns opposite values. -/
theorem Midpnt_next_mirror (t u : Midpnt K) (h : Midpnt.Mirrored t u) :
    u.next.1 = -t.next.1 := by
  obtain ⟨hn, ha, hb, hf, hs⟩ := h
  simp only [Midpnt.next, Midpnt_sumLoop_eq, Midpnt.func, hn, ha, hb, hf, hs, zero_add]
  split_ifs with h1
  · rw [add_comm t.b t.a]
    ring
  · generalize tripleLoop (loopCount (wrap32 (t.n + 1))) 1 = it
    rcases le_or_lt it 0 with hle | hpos
    · simp only [Int.toNat_of_nonpos hle, Finset.range_zero, Finset.sum_empty, mul_zero, zero_div,
        add_zero]
      ring
    · lift it to Nat using hpos.le
      have hc : 0 < it := by exact_mod_cast hpos
      simp only [Int.toNat_natCast, Int.cast_natCast]
      rw [mid_sum_mirror t.funk t.a t.b it hc]
      ring

theorem Trapzd_next_mirrored (t u : Trapzd K) (h : Trapzd.Mirrored t u) :
    Trapzd.Mirrored t.next.2 u.next.2 := by
  have hv := Trapzd_next_mirror t u h
  obtain ⟨hn, ha, hb, hf, hs⟩ := h
  refine ⟨?_, ?_, ?_, ?_, ?_⟩
  · rw [Trapzd_next_n, Trapzd_next_n, hn]
  · rw [Trapzd_next_a, Trapzd_next_b, ha]
  · rw [Trapzd_next_b, Trapzd_next_a, hb]
  · rw [Trapzd_next_func, Trapzd_next_func, hf]
  · rw [← Trapzd_next_fst, ← Trapzd_next_fst, hv]

theorem Midpnt_next_mirrored (t u : Midpnt K) (h : Midpnt.Mirrored t u) :
    Midpnt.Mirrored t.next.2 u.next.2 := by
  have hv := Midpnt_next_mirror t u h
  obtain ⟨hn, ha, hb, hf, hs⟩ := h
  refine ⟨?_, ?_, ?_, ?_, ?_⟩
  · rw [Midpnt_next_n, Midpnt_next_n, hn]
  · rw [Midpnt_next_a, Midpnt_next_b, ha]
  · rw [Midpnt_next_b, Midpnt_next_a, hb]
  · rw [Midpnt_next_funk, Midpnt_next_funk, hf]
  · rw [← Midpnt_next_fst, ← Midpnt_next_fst, hv]

theorem Trapzd_after_mirrored (k : Nat) (t u : Trapzd K) (h : Trapzd.Mirrored t u) :
    Trapzd.Mirrored (Trapzd.after k t) (Trapzd.after k u) := by
  induction k with
  | zero => exact h
  | succ k ih =>
    rw [Trapzd_after_succ, Trapzd_after_succ]
    exact Trapzd_next_mirrored _ _ ih

theorem Midpnt_after_mirrored (k : Nat) (t u : Midpnt K) (h : Midpnt.Mirrored t u) :
    Midpnt.Mirrored (Midpnt.after k t) (Midpnt.after k u) := by
  induction k with
  | zero => exact h
  | succ k ih =>
    rw [Midpnt_after_succ, Midpnt_after_succ]
    exact Midpnt_next_mirrored _ _ ih

theorem Trapzd_new_mirrored (f : K → K) (a b : K) :
    Trapzd.Mirrored (Trapzd.new f a b) (Trapzd.new f b a) :=
  ⟨rfl, rfl, rfl, rfl, by simp [Trapzd.new]⟩

theorem Midpnt_new_mirrored (f : K → K) (a b : K) :
    Midpnt.Mirrored (Midpnt.new f a b) (Midpnt.new f b a) :=
  ⟨rfl, rfl, rfl, rfl, by simp [Midpnt.new]⟩

/-- Every estimate of `Trapzd` changes sign when the endpoints are swapped. -/
theorem trapEstimate_swap (f : K → K) (a b : K) (k : Nat) :
    trapEstimate f b a k = -trapEstimate f a b k :=
  Trapzd_next_mirror _ _ (Trapzd_after_mirrored (k - 1) _ _ (Trapzd_new_mirrored f a b))

/-- Every estimate of `Midpnt` changes sign when the endpoints are swapped. -/
theorem midEstimate_swap (f : K → K) (a b : K) (k : Nat) :
    midEstimate f b a k = -midEstimate f a b k :=
  Midpnt_next_mirror _ _ (Midpnt_after_mirrored (k - 1) _ _ (Midpnt_new_mirrored f a b))

/-- The stopping test does not see a common change of sign. -/
theorem converged_neg (eps s olds : K) : converged eps (-s) (-olds) ↔ converged eps s olds := by
  unfold converged
  rw [neg_sub_neg, abs_sub_comm, abs_neg, neg_eq_zero, neg_eq_zero]

/-- The loop of a driver on two rules whose calls return opposite values. -/
theorem driverLoop_neg {σ : Type} (next : σ → K × σ) (err : String) (eps : K)
    (R : σ → σ → Prop)
    (hR : ∀ t u, R t u → (next u).1 = -(next t).1 ∧ R (next t).2 (next u).2)
    (r : Nat) (j : Int) (olds : K) (t u : σ) (h : R t u) :
    (driverLoop next err eps r j (-olds) u).1 =
      Except.map (fun v => -v) (driverLoop next err eps r j olds t).1 := by
  induction r generalizing j olds t u with
  | zero => rfl
  | succ r ih =>
    obtain ⟨hv, hstep⟩ := hR t u h
    rw [driverLoop, driverLoop, hv]
    by_cases hc : j > 5 ∧ converged eps (next t).1 olds
    · have hc2 : j > 5 ∧ converged eps (-(next t).1) (-olds) :=
        ⟨hc.1, (converged_neg eps _ _).mpr hc.2⟩
      rw [if_pos hc, if_pos hc2]
      rfl
    · have hc2 : ¬ (j > 5 ∧ converged eps (-(next t).1) (-olds)) :=
        fun h2 => hc ⟨h2.1, (converged_neg eps _ _).mp h2.2⟩
      rw [if_neg hc, if_neg hc2]
      exact ih (j + 1) (next t).1 _ _ hstep

/-- The loop of `qtrapfixed` on mirrored rules. -/
theorem qtrapfixedLoop_neg (m : K) (fuel : Nat) (j : Int) (s : K) (t u : Trapzd K)
    (h : Trapzd.Mirrored t u) :
    (qtrapfixedLoop m fuel j (-s) u).map Prod.fst =
      ((qtrapfixedLoop m fuel j s t).map Prod.fst).map (fun v => -v) := by
  induction fuel generalizing j s t u with
  | zero => rfl
  | succ fuel ih =>
    rw [qtrapfixedLoop, qtrapfixedLoop]
    by_cases hc : (j : K) ≤ m + 1
    · rw [if_pos hc, if_pos hc, Trapzd_next_mirror t u h]
      exact ih _ _ _ _ (Trapzd_next_mirrored t u h)
    · rw [if_neg hc, if_neg hc]
      rfl

end Antisymmetry

/-! ### C17 -/

section Linearity

variable {K : Type} [LinearOrderedField K]

/-- A call of `Trapzd::next` on the combination of two functions returns the combination of
the values. -/
theorem Trapzd_next_linear (alpha beta : K) (t1 t2 t : Trapzd K)
    (h : Trapzd.Combined alpha beta t1 t2 t) :
    t.next.1 = alpha * t1.next.1 + beta * t2.next.1 := by
  obtain ⟨hn1, hn2, ha1, ha2, hb1, hb2, hf, hs⟩ := h
  simp only [Trapzd.next, Trapzd_sumLoop_eq, hn1, hn2, ha1, ha2, hb1, hb2, hf, hs, zero_add]
  split_ifs with h1
  · ring
  · simp only [Finset.sum_add_distrib, ← Finset.mul_sum]
    ring

/-- A call of `Midpnt::next` on the combination of two functions returns the combination of
the values. -/
theorem Midpnt_next_linear (alpha beta : K) (t1 t2 t : Midpnt K)
    (h : Midpnt.Combined alpha beta t1 t2 t) :
    t.next.1 = alpha * t1.next.1 + beta * t2.next.1 := by
  obtain ⟨hn1, hn2, ha1, ha2, hb1, hb2, hf, hs⟩ := h
  simp only [Midpnt.next, Midpnt_sumLoop_eq, Midpnt.func, hn1, hn2, ha1, ha2, hb1, hb2, hf, hs,
    zero_add]
  split_ifs with h1
  · ring
  · simp only [Finset.sum_add_distrib, ← Finset.mul_sum]
    ring

theorem Trapzd_next_combined (alpha beta : K) (t1 t2 t : Trapzd K)
    (h : Trapzd.Combined alpha beta t1 t2 t) :
    Trapzd.Combined alpha beta t1.next.2 t2.next.2 t.next.2 := by
  have hv := Trapzd_next_linear alpha beta t1 t2 t h
  obtain ⟨hn1, hn2, ha1, ha2, hb1, hb2, hf, hs⟩ := h
  refine ⟨?_, ?_, ?_, ?_, ?_, ?_, ?_, ?_⟩
  · rw [Trapzd_next_n, Trapzd_next_n, hn1]
  · rw [Trapzd_next_n, Trapzd_next_n, hn2]
  · rw [Trapzd_next_a, Trapzd_next_a, ha1]
  · rw [Trapzd_next_a, Trapzd_next_a, ha2]
  · rw [Trapzd_next_b, Trapzd_next_b, hb1]
  · rw [Trapzd_next_b, Trapzd_next_b, hb2]
  · rw [Trapzd_next_func, Trapzd_next_func, Trapzd_next_func, hf]
  · rw [← Trapzd_next_fst, ← Trapzd_next_fst, ← Trapzd_next_fst, hv]

theorem Midpnt_next_combined (alpha beta : K) (t1 t2 t : Midpnt K)
    (h : Midpnt.Combined alpha beta t1 t2 t) :
    Midpnt.Combined alpha beta t1.next.2 t2.next.2 t.next.2 := by
  have hv := Midpnt_next_linear alpha beta t1 t2 t h
  obtain ⟨hn1, hn2, ha1, ha2, hb1, hb2, hf, hs⟩ := h
  refine ⟨?_, ?_, ?_, ?_, ?_, ?_, ?_, ?_⟩
  · rw [Midpnt_next_n, Midpnt_next_n, hn1]
  · rw [Midpnt_next_n, Midpnt_next_n, hn2]
  · rw [Midpnt_next_a, Midpnt_next_a, ha1]
  · rw [Midpnt_next_a, Midpnt_next_a, ha2]
  · rw [Midpnt_next_b, Midpnt_next_b, hb1]
  · rw [Midpnt_next_b, Midpnt_next_b, hb2]
  · rw [Midpnt_next_funk, Midpnt_next_funk, Midpnt_next_funk, hf]
  · rw [← Midpnt_next_fst, ← Midpnt_next_fst, ← Midpnt_next_fst, hv]

theorem Trapzd_after_combined (alpha beta : K) (k : Nat) (t1 t2 t : Trapzd K)
    (h : Trapzd.Combined alpha beta t1 t2 t) :
    Trapzd.Combined alpha beta (Trapzd.after k t1) (Trapzd.after k t2) (Trapzd.after k t) := by
  induction k with
  | zero => exact h
  | succ k ih =>
    rw [Trapzd_after_succ, Trapzd_after_succ, Trapzd_after_succ]
    exact Trapzd_next_combined alpha beta _ _ _ ih

theorem Midpnt_after_combined (alpha beta : K) (k : Nat) (t1 t2 t : Midpnt K)
    (h : Midpnt.Combined alpha beta t1 t2 t) :
    Midpnt.Combined alpha beta (Midpnt.after k t1) (Midpnt.after k t2) (Midpnt.after k t) := by
  induction k with
  | zero => exact h
  | succ k ih =>
    rw [Midpnt_after_succ, Midpnt_after_succ, Midpnt_after_succ]
    exact Midpnt_next_combined alpha beta _ _ _ ih

theorem Trapzd_new_combined (alpha beta : K) (f g : K → K) (a b : K) :
    Trapzd.Combined alpha beta (Trapzd.new f a b) (Trapzd.new g a b)
      (Trapzd.new (fun x => alpha * f x + beta * g x) a b) :=
  ⟨rfl, rfl, rfl, rfl, rfl, rfl, rfl, by simp [Trapzd.new]⟩

theorem Midpnt_new_combined (alpha beta : K) (f g : K → K) (a b : K) :
    Midpnt.Combined alpha beta (Midpnt.new f a b) (Midpnt.new g a b)
      (Midpnt.new (fun x => alpha * f x + beta * g x) a b) :=
  ⟨rfl, rfl, rfl, rfl, rfl, rfl, rfl, by simp [Midpnt.new]⟩

/-- Every estimate of `Trapzd` is linear in the integrand. -/
theorem trapEstimate_linear (alpha beta : K) (f g : K → K) (a b : K) (k : Nat) :
    trapEstimate (fun x => alpha * f x + beta * g x) a b k =
      alpha * trapEstimate f a b k + beta * trapEstimate g a b k :=
  Trapzd_next_linear alpha beta _ _ _
    (Trapzd_after_combined alpha beta (k - 1) _ _ _ (Trapzd_new_combined alpha beta f g a b))

/-- Every estimate of `Midpnt` is linear in the integrand. -/
theorem midEstimate_linear (alpha beta : K) (f g : K → K) (a b : K) (k : Nat) :
    midEstimate (fun x => alpha * f x + beta * g x) a b k =
      alpha * midEstimate f a b k + beta * midEstimate g a b k :=
  Midpnt_next_linear alpha beta _ _ _
    (Midpnt_after_combined alpha beta (k - 1) _ _ _ (Midpnt_new_combined alpha beta f g a b))

/-- The loop of `qtrapfixed` on the combination of two functions. -/
theorem qtrapfixedLoop_linear (alpha beta m : K) (fuel : Nat) (j : Int) (s1 s2 : K)
    (t1 t2 t : Trapzd K) (h : Trapzd.Combined alpha beta t1 t2 t) :
    (qtrapfixedLoop m fuel j (alpha * s1 + beta * s2) t).map Prod.fst =
      ((qtrapfixedLoop m fuel j s1 t1).map Prod.fst).bind (fun v1 =>
        ((qtrapfixedLoop m fuel j s2 t2).map Prod.fst).map (fun v2 =>
          alpha * v1 + beta * v2)) := by
  induction fuel generalizing j s1 s2 t1 t2 t with
  | zero => rfl
  | succ fuel ih =>
    rw [qtrapfixedLoop, qtrapfixedLoop, qtrapfixedLoop]
    by_cases hc : (j : K) ≤ m + 1
    · rw [if_pos hc, if_pos hc, if_pos hc, Trapzd_next_linear alpha beta t1 t2 t h]
      exact ih _ _ _ _ _ _ (Trapzd_next_combined alpha beta t1 t2 t h)
    · rw [if_neg hc, if_neg hc, if_neg hc]
      rfl

/-- The driver `qtrapfixed` on the combination of two functions. -/
theorem qtrapfixed_linear (alpha beta : K) (f g : K → K) (a b m : K) (fuel : Nat) :
    qtrapfixed fuel (fun x => alpha * f x + beta * g x) a b m =
      (qtrapfixed fuel f a b m).bind (fun v1 =>
        (qtrapfixed fuel g a b m).map (fun v2 => alpha * v1 + beta * v2)) := by
  have key := qtrapfixedLoop_linear alpha beta m fuel 1 0 0 _ _ _
    (Trapzd_new_combined alpha beta f g a b)
  rw [mul_zero, mul_zero, add_zero] at key
  simpa only [qtrapfixed, qtrapfixedRun] using key

end Linearity

/-! ### Rounding to `double` -/

section RoundingFacts

/-- The binary exponent of a positive rational. -/
theorem log_two_eq (q : ℚ) (hq : 0 < q) (e : ℤ) (h1 : (2 : ℚ) ^ e ≤ q) (h2 : q < (2 : ℚ) ^ (e + 1)) :
    Int.log 2 q = e := by
  have hb : 1 < (2 : ℕ) := by norm_num
  have hle : e ≤ Int.log 2 q := (Int.zpow_le_iff_le_log hb hq).mp (by exact_mod_cast h1)
  have hlt : Int.log 2 q < e + 1 := (Int.lt_zpow_iff_log_lt hb hq).mp (by exact_mod_cast h2)
  omega

/-- Rounding of a number of the binade `[2^e, 2^(e+1))`, up to sign. -/
theorem roundDouble_eq (q : ℚ) (e : ℤ) (h1 : (2 : ℚ) ^ e ≤ |q|) (h2 : |q| < (2 : ℚ) ^ (e + 1)) :
    roundDouble q = (roundHalfEven (q / 2 ^ (e - 52)) : ℚ) * 2 ^ (e - 52) := by
  have hpos : 0 < |q| := lt_of_lt_of_le (by positivity) h1
  have hq : q ≠ 0 := abs_pos.mp hpos
  rw [roundDouble, if_neg hq, log_two_eq |q| hpos e h1 h2]

theorem roundHalfEven_le_floor_succ (r : ℚ) : roundHalfEven r ≤ ⌊r⌋ + 1 := by
  unfold roundHalfEven
  split_ifs <;> omega

theorem floor_le_roundHalfEven (r : ℚ) : ⌊r⌋ ≤ roundHalfEven r := by
  unfold roundHalfEven
  split_ifs <;> omega

/-- Rounding to the nearest integer does not pass an integer `z` from a point below
`z + 1/2`. -/
theorem roundHalfEven_le (r : ℚ) (z : ℤ) (h : r < z + 1 / 2) : roundHalfEven r ≤ z := by
  have hf : ⌊r⌋ ≤ z := by
    have : ⌊r⌋ < z + 1 := Int.floor_lt.mpr (by push_cast; linarith)
    omega
  rcases lt_or_eq_of_le hf with hlt | heq
  · have := roundHalfEven_le_floor_succ r
    omega
  · have hfrac : r - ⌊r⌋ < 1 / 2 := by
      rw [heq]
      linarith
    rw [roundHalfEven, if_pos hfrac, heq]

/-- Rounding does not change the sign: a number `≤ 0` rounds to a number `≤ 0`. -/
theorem roundDouble_nonpos (q : ℚ) (h : q ≤ 0) : roundDouble q ≤ 0 := by
  unfold roundDouble
  split_ifs with h0
  · exact le_rfl
  · have hu : (0 : ℚ) < 2 ^ (Int.log 2 |q| - 52) := by positivity
    have hr : q / 2 ^ (Int.log 2 |q| - 52) < ((0 : ℤ) : ℚ) + 1 / 2 := by
      have : q / 2 ^ (Int.log 2 |q| - 52) ≤ 0 := div_nonpos_of_nonpos_of_nonneg h hu.le
      push_cast
      linarith
    have hz := roundHalfEven_le _ 0 hr
    have hzq : (roundHalfEven (q / 2 ^ (Int.log 2 |q| - 52)) : ℚ) ≤ 0 := by exact_mod_cast hz
    exact mul_nonpos_of_nonpos_of_nonneg hzq hu.le

/-- A number below `1 - 2^-54` rounds to a `double` below `1`. -/
theorem roundDouble_lt_one (q : ℚ) (h : q < 1 - 1 / 2 ^ 54) : roundDouble q < 1 := by
  rcases le_or_lt q 0 with h0 | hpos
  · exact lt_of_le_of_lt (roundDouble_nonpos q h0) one_pos
  · have hb : 1 < (2 : ℕ) := by norm_num
    have habs : |q| = q := abs_of_pos hpos
    have hq1 : q < 1 := by
      have : (0 : ℚ) < 1 / 2 ^ 54 := by positivity
      linarith
    have he : Int.log 2 q < 0 :=
      (Int.lt_zpow_iff_log_lt hb hpos).mp (by simpa using hq1)
    have hlow : ((2 : ℕ) : ℚ) ^ Int.log 2 q ≤ q := Int.zpow_log_le_self hb hpos
    have hup : q < ((2 : ℕ) : ℚ) ^ (Int.log 2 q + 1) := Int.lt_zpow_succ_log_self hb q
    rw [roundDouble, if_neg (ne_of_gt hpos), habs]
    generalize Int.log 2 q = e at he hlow hup
    push_cast at hlow hup
    have hu : (0 : ℚ) < 2 ^ (e - 52) := by positivity
    have e1 : (2 : ℚ) ^ (e + 1) = 2 ^ (e - 52) * 2 ^ (53 : ℤ) := by
      rw [← zpow_add₀ (by norm_num : (2 : ℚ) ≠ 0)]
      congr 1
      ring
    rcases lt_or_eq_of_le (show e ≤ -1 by omega) with hlt | heq
    · -- below 1/2: the rounded value is at most 2^(e+1) ≤ 1/2
      have hr : q / 2 ^ (e - 52) < 2 ^ (53 : ℤ) := by
        rw [div_lt_iff₀ hu, mul_comm, ← e1]
        exact hup
      have hz : roundHalfEven (q / 2 ^ (e - 52)) ≤ 2 ^ 53 := by
        refine roundHalfEven_le _ _ ?_
        push_cast
        have : (2 : ℚ) ^ (53 : ℤ) = 2 ^ 53 := by norm_num
        linarith
      have hzq : (roundHalfEven (q / 2 ^ (e - 52)) : ℚ) ≤ 2 ^ (53 : ℤ) := by
        have h3 : (2 : ℚ) ^ (53 : ℤ) = ((2 ^ 53 : ℤ) : ℚ) := by norm_num
        rw [h3]
        exact_mod_cast hz
      have hle : (2 : ℚ) ^ (e + 1) ≤ 2 ^ (-1 : ℤ) :=
        zpow_le_zpow_right₀ (by norm_num) (by omega)
      calc (roundHalfEven (q / 2 ^ (e - 52)) : ℚ) * 2 ^ (e - 52)
          ≤ 2 ^ (53 : ℤ) * 2 ^ (e - 52) := mul_le_mul_of_nonneg_right hzq hu.le
        _ = 2 ^ (e + 1) := by rw [e1, mul_comm]
        _ ≤ 2 ^ (-1 : ℤ) := hle
        _ < 1 := by norm_num
    · -- between 1/2 and 1 - 2^-54: the significand stays below 2^53
      subst heq
      have hu2 : (2 : ℚ) ^ ((-1 : ℤ) - 52) = 1 / 2 ^ 53 := by
        rw [show ((-1 : ℤ) - 52) = -53 by norm_num, zpow_neg]
        norm_num
      rw [hu2]
      have hr : q / (1 / 2 ^ 53) < ((2 ^ 53 - 1 : ℤ) : ℚ) + 1 / 2 := by
        rw [div_lt_iff₀ (by positivity)]
        push_cast
        have : (0 : ℚ) < 2 ^ 53 := by positivity
        nlinarith
      have hz := roundHalfEven_le _ _ hr
      have hzq : (roundHalfEven (q / (1 / 2 ^ 53)) : ℚ) ≤ 2 ^ 53 - 1 := by
        have h3 : (2 : ℚ) ^ 53 - 1 = ((2 ^ 53 - 1 : ℤ) : ℚ) := by norm_num
        rw [h3]
        exact_mod_cast hz
      calc (roundHalfEven (q / (1 / 2 ^ 53)) : ℚ) * (1 / 2 ^ 53)
          ≤ (2 ^ 53 - 1) * (1 / 2 ^ 53) := mul_le_mul_of_nonneg_right hzq (by positivity)
        _ < 1 := by norm_num

end RoundingFacts

section RoundedFacts

variable {K : Type} [LinearOrderedField K]

theorem Midpnt_sumLoopFl_id (t : Midpnt K) (del ddel : K) (c : Nat) (x sum : K) (log : List K) :
    Midpnt.sumLoopFl id t del ddel c x sum log = Midpnt.sumLoop t del ddel c x sum log := by
  induction c generalizing x sum log with
  | zero => rfl
  | succ c ih => simp only [Midpnt.sumLoopFl, Midpnt.sumLoop, id, ih]

theorem Trapzd_sumLoopFl_id (t : Trapzd K) (del : K) (c : Nat) (x sum : K) (log : List K) :
    Trapzd.sumLoopFl id t del c x sum log = Trapzd.sumLoop t del c x sum log := by
  induction c generalizing x sum log with
  | zero => rfl
  | succ c ih => simp only [Trapzd.sumLoopFl, Trapzd.sumLoop, id, ih]

/-- Without rounding, `Midpnt.nextFl` is `Midpnt.next`. -/
theorem Midpnt_nextFl_id (t : Midpnt K) : t.nextFl id = t.next := by
  simp only [Midpnt.nextFl, Midpnt.next, Midpnt_sumLoopFl_id, id]

/-- Without rounding, `Trapzd.nextFl` is `Trapzd.next`. -/
theorem Trapzd_nextFl_id (t : Trapzd K) : t.nextFl id = t.next := by
  simp only [Trapzd.nextFl, Trapzd.next, Trapzd_sumLoopFl_id, id, mul_assoc]

/-- Without rounding, `qtrapfixedLoopFl` is `qtrapfixedLoop`. -/
theorem qtrapfixedLoopFl_id (m : K) (fuel : Nat) (j : Int) (s : K) (t : Trapzd K) :
    qtrapfixedLoopFl id m fuel j s t = qtrapfixedLoop m fuel j s t := by
  induction fuel generalizing j s t with
  | zero => rfl
  | succ fuel ih => simp only [qtrapfixedLoopFl, qtrapfixedLoop, Trapzd_nextFl_id, id, ih]

/-- The first call of `Trapzd::next` with rounding: one call, evaluating the function at
`a` and at `b`, whatever the rounding is. -/
theorem Trapzd_nextFl_first (fl : K → K) (t : Trapzd K) (h : t.n = 0) :
    (t.nextFl fl).2.evals = t.evals ++ [t.a, t.b] ∧ (t.nextFl fl).2.calls = t.calls + 1 ∧
      (t.nextFl fl).2.n = 1 := by
  have e : wrap32 (t.n + 1) = 1 := by rw [h]; decide
  simp [Trapzd.nextFl, e]

/-- The first call of `Midpnt::next` with rounding evaluates the function at the rounded
`0.5*(a+b)`. -/
theorem Midpnt_nextFl_first (fl : K → K) (t : Midpnt K) (h : t.n = 0) :
    (t.nextFl fl).2.evals = t.evals ++ [fl ((1 / 2) * fl (t.a + t.b))] := by
  have e : wrap32 (t.n + 1) = 1 := by rw [h]; decide
  simp [Midpnt.nextFl, e]

end RoundedFacts

section RoundingValues

theorem roundHalfEven_intCast (z : ℤ) : roundHalfEven (z : ℚ) = z := by
  simp [roundHalfEven]

/-- The sum `1 + (1 + 2^-52)` lies half-way between the doubles `2` and `2 + 2^-51` and
rounds to the even one, `2`. -/
theorem roundDouble_two_plus_half_ulp :
    roundDouble (1 + (1 + 1 / 2 ^ 52)) = 2 := by
  have h := roundDouble_eq (1 + (1 + 1 / 2 ^ 52)) 1
    (by rw [abs_of_pos (by positivity)]; norm_num)
    (by rw [abs_of_pos (by positivity)]; norm_num)
  have hr : (1 + (1 + 1 / 2 ^ 52) : ℚ) / 2 ^ ((1 : ℤ) - 52) = 4503599627370496 + 1 / 2 := by
    rw [show ((1 : ℤ) - 52) = -51 by norm_num, zpow_neg]
    norm_num
  have hf : ⌊(4503599627370496 + 1 / 2 : ℚ)⌋ = 4503599627370496 :=
    Int.floor_eq_iff.mpr ⟨by norm_num, by norm_num⟩
  have hz : roundHalfEven (4503599627370496 + 1 / 2 : ℚ) = 4503599627370496 := by
    rw [roundHalfEven, hf]
    norm_num
  rw [h, hr, hz, show ((1 : ℤ) - 52) = -51 by norm_num, zpow_neg]
  norm_num

theorem roundDouble_one : roundDouble 1 = 1 := by
  have h := roundDouble_eq 1 0 (by norm_num) (by norm_num)
  have hr : (1 : ℚ) / 2 ^ ((0 : ℤ) - 52) = ((4503599627370496 : ℤ) : ℚ) := by
    rw [show ((0 : ℤ) - 52) = -52 by norm_num, zpow_neg]
    norm_num
  rw [h, hr, roundHalfEven_intCast, show ((0 : ℤ) - 52) = -52 by norm_num, zpow_neg]
  norm_num

/-- The sum `-2^-60 + 1` rounds to the double `1`. -/
theorem roundDouble_one_minus_tiny : roundDouble (-(1 / 2 ^ 60) + 1) = 1 := by
  have h := roundDouble_eq (-(1 / 2 ^ 60) + 1) (-1)
    (by rw [abs_of_pos (by norm_num)]; norm_num)
    (by rw [abs_of_pos (by norm_num)]; norm_num)
  have hr : (-(1 / 2 ^ 60) + 1 : ℚ) / 2 ^ ((-1 : ℤ) - 52) = 9007199254740991 + 127 / 128 := by
    rw [show ((-1 : ℤ) - 52) = -53 by norm_num, zpow_neg]
    norm_num
  have hf : ⌊(9007199254740991 + 127 / 128 : ℚ)⌋ = 9007199254740991 :=
    Int.floor_eq_iff.mpr ⟨by norm_num, by norm_num⟩
  have hz : roundHalfEven (9007199254740991 + 127 / 128 : ℚ) = 9007199254740992 := by
    rw [roundHalfEven, hf]
    norm_num
  rw [h, hr, hz, show ((-1 : ℤ) - 52) = -53 by norm_num, zpow_neg]
  norm_num

end RoundingValues

section RoundingInputs

/-- The endpoint `1 + 2^-52` is a `double`. -/
theorem roundDouble_one_plus_ulp : roundDouble (1 + 1 / 2 ^ 52) = 1 + 1 / 2 ^ 52 := by
  have h := roundDouble_eq (1 + 1 / 2 ^ 52) 0
    (by rw [abs_of_pos (by positivity)]; norm_num)
    (by rw [abs_of_pos (by positivity)]; norm_num)
  have hr : (1 + 1 / 2 ^ 52 : ℚ) / 2 ^ ((0 : ℤ) - 52) = ((4503599627370497 : ℤ) : ℚ) := by
    rw [show ((0 : ℤ) - 52) = -52 by norm_num, zpow_neg]
    norm_num
  rw [h, hr, roundHalfEven_intCast, show ((0 : ℤ) - 52) = -52 by norm_num, zpow_neg]
  norm_num

/-- The step count `-2^-60` is a `double`. -/
theorem roundDouble_neg_tiny : roundDouble (-(1 / 2 ^ 60)) = -(1 / 2 ^ 60) := by
  have h := roundDouble_eq (-(1 / 2 ^ 60)) (-60)
    (by rw [abs_neg, abs_of_pos (by positivity), zpow_neg]; norm_num)
    (by rw [abs_neg, abs_of_pos (by positivity)]; norm_num)
  have hr : (-(1 / 2 ^ 60) : ℚ) / 2 ^ ((-60 : ℤ) - 52) = ((-4503599627370496 : ℤ) : ℚ) := by
    rw [show ((-60 : ℤ) - 52) = -112 by norm_num, zpow_neg]
    norm_num
  rw [h, hr, roundHalfEven_intCast, show ((-60 : ℤ) - 52) = -112 by norm_num, zpow_neg]
  norm_num

/-- The first abscissa of `Midpnt` on `[1, 1 + 2^-52]` in `double` arithmetic is `1`. -/
theorem midpoint_rounds_to_endpoint :
    roundDouble ((1 / 2) * roundDouble (1 + (1 + 1 / 2 ^ 52))) = 1 := by
  rw [roundDouble_two_plus_half_ulp]
  norm_num
  exact roundDouble_one

/-- For `m < -2^-54` the loop of `qtrapfixed` in `double` arithmetic ends at its first
test. -/
theorem qtrapfixedLoopFl_negative (m : ℚ) (hm : m < -(1 / 2 ^ 54)) (fuel : Nat) (s : ℚ)
    (t : Trapzd ℚ) :
    qtrapfixedLoopFl roundDouble m (fuel + 1) 1 s t = some (s, t) := by
  have h1 : roundDouble (m + 1) < 1 := roundDouble_lt_one _ (by linarith)
  have hgt : ¬ (((1 : Int) : ℚ) ≤ roundDouble (m + 1)) := by
    push_cast
    exact not_le.mpr h1
  rw [qtrapfixedLoopFl, if_neg hgt]

/-- For `m = -2^-60` the loop of `qtrapfixed` in `double` arithmetic makes one call of
`next()`. -/
theorem qtrapfixedLoopFl_tiny (fuel : Nat) (s : ℚ) (t : Trapzd ℚ) :
    qtrapfixedLoopFl roundDouble (-(1 / 2 ^ 60)) (fuel + 2) 1 s t =
      some ((t.nextFl roundDouble).1, (t.nextFl roundDouble).2) := by
  have h1 : ((1 : Int) : ℚ) ≤ roundDouble (-(1 / 2 ^ 60) + 1) := by
    rw [roundDouble_one_minus_tiny]
    norm_num
  have h2 : ¬ (((2 : Int) : ℚ) ≤ roundDouble (-(1 / 2 ^ 60) + 1)) := by
    rw [roundDouble_one_minus_tiny]
    norm_num
  have hw : wrap32 (1 + 1) = 2 := by decide
  rw [qtrapfixedLoopFl, if_pos h1, hw, qtrapfixedLoopFl, if_neg h2]

end RoundingInputs

/-! ### C10: the statement -/

/-- C10 (amended): in exact arithmetic, for all `a < b` and every `k ≤ 21`, every point `x`
at which `Midpnt(f, a, b)` evaluates `f` during its first `k` calls of `next()` satisfies
`a < x < b`, the counter `it` of each of these calls being the power `3^(j-2)`, computed
without overflow; the first call of `next()` on `Trapzd(f, a, b)` evaluates `f` at exactly
the two points `a` and `b`, in exact arithmetic and with any rounding. -/
theorem C10_open_versus_closed {K : Type} [LinearOrderedField K] (f : K → K) (a b : K)
    (hab : a < b) (k : Nat) (hk : k ≤ 21) :
    (∀ x ∈ (Midpnt.after k (Midpnt.new f a b)).evals, a < x ∧ x < b) ∧
    (∀ j : Nat, 2 ≤ j → j ≤ k → tripleLoop (loopCount (j : Int)) 1 = 3 ^ (j - 2)) ∧
    (Trapzd.new f a b).next.2.evals = [a, b] ∧
    (∀ fl : K → K, ((Trapzd.new f a b).nextFl fl).2.evals = [a, b]) := by
  refine ⟨fun x hx => ?_, fun j h2 hj => ?_, ?_, fun fl => ?_⟩
  · rcases Midpnt_after_evals_mem k (Midpnt.new f a b) hab x hx with h | h
    · exact absurd h (List.not_mem_nil x)
    · exact h
  · have hc := loopCount_succ (show j - 1 < 2147483648 by omega)
    rw [show ((j - 1 : Nat) : Int) + 1 = (j : Int) by omega] at hc
    rw [hc, show j - 1 - 1 = j - 2 by omega, tripleLoop_one (by omega)]
  · rw [Trapzd_next_first _ rfl]
    rfl
  · exact (Trapzd_nextFl_first fl (Trapzd.new f a b) rfl).1

/-- Witness of C10 (amended): the first two calls on `[0, 1]`; `Midpnt` evaluates the
function at `1/2`, `1/6` and `5/6`, `Trapzd` at `0` and `1`. -/
theorem C10_open_versus_closed_witness :
    ((0 : ℚ) < 1 ∧ 2 ≤ 21) ∧
    (Midpnt.after 2 (Midpnt.new (fun x : ℚ => x * x) 0 1)).evals = [1 / 2, 1 / 6, 5 / 6] ∧
    ((∀ x ∈ (Midpnt.after 2 (Midpnt.new (fun x : ℚ => x * x) 0 1)).evals, 0 < x ∧ x < 1) ∧
      (Trapzd.new (fun x : ℚ => x * x) 0 1).next.2.evals = [0, 1]) :=
  ⟨⟨by norm_num, by decide⟩, Midpnt_evals_two_calls,
    (C10_open_versus_closed (fun x : ℚ => x * x) 0 1 (by norm_num) 2 (by decide)).1,
    (C10_open_versus_closed (fun x : ℚ => x * x) 0 1 (by norm_num) 2 (by decide)).2.2.1⟩

/-- C10 as stated fails in `double` arithmetic: on the interval `[1, 1 + 2^-52]`, whose
endpoints are doubles, the sum `a+b` rounds to `2` and the first call of `next()` on `Midpnt`
evaluates `f` at `0.5*(a+b) = 1`, the endpoint `a`. -/
theorem C10_counterexample :
    (1 : ℚ) < 1 + 1 / 2 ^ 52 ∧
    roundDouble 1 = 1 ∧ roundDouble (1 + 1 / 2 ^ 52) = 1 + 1 / 2 ^ 52 ∧
    ((Midpnt.new (fun x : ℚ => x) 1 (1 + 1 / 2 ^ 52)).nextFl roundDouble).2.evals = [1] := by
  refine ⟨by norm_num, roundDouble_one, roundDouble_one_plus_ulp, ?_⟩
  rw [Midpnt_nextFl_first _ _ rfl]
  simp only [Midpnt.new, List.nil_append]
  rw [midpoint_rounds_to_endpoint]

/-! ### C18: the statement -/

/-- C18 (amended): in exact arithmetic for every `m < 0`, and in `double` arithmetic for
every `m < -2^-54` (in particular for every negative integer `m`), `qtrapfixed(f, a, b, m)`
performs no call of `next()`, never evaluates `f`, and returns `0`, the initial value of its
accumulator. -/
theorem C18_qtrapfixed_negative {K : Type} [LinearOrderedField K] (f : K → K) (a b m : K)
    (hm : m < 0) (g : ℚ → ℚ) (c d r : ℚ) (hr : r < -(1 / 2 ^ 54)) (fuel : Nat)
    (hfuel : 1 ≤ fuel) :
    (qtrapfixed fuel f a b m = some 0 ∧
      ∃ t, qtrapfixedRun fuel f a b m = some (0, t) ∧ t = Trapzd.new f a b ∧
        t.calls = 0 ∧ t.evals = []) ∧
    (∃ t, qtrapfixedRunFl roundDouble fuel g c d r = some (0, t) ∧ t = Trapzd.new g c d ∧
      t.calls = 0 ∧ t.evals = []) := by
  obtain ⟨n, rfl⟩ : ∃ n, fuel = n + 1 := ⟨fuel - 1, by omega⟩
  have hgt : ¬ (((1 : Int) : K) ≤ m + 1) := by
    push_cast
    linarith
  have hrun : qtrapfixedRun (n + 1) f a b m = some (0, Trapzd.new f a b) := by
    rw [qtrapfixedRun, qtrapfixedLoop, if_neg hgt]
  exact ⟨⟨by rw [qtrapfixed, hrun]; rfl, _, hrun, rfl, rfl, rfl⟩,
    ⟨_, qtrapfixedLoopFl_negative r hr n 0 _, rfl, rfl, rfl⟩⟩

/-- Witness of C18 (amended): `m = -1` on `x ↦ x²` over `[0, 1]`. -/
theorem C18_qtrapfixed_negative_witness :
    ((-1 : ℚ) < 0 ∧ (-1 : ℚ) < -(1 / 2 ^ 54)) ∧
    qtrapfixed 1 (fun x : ℚ => x * x) 0 1 (-1) = some 0 ∧
    ∃ t, qtrapfixedRunFl roundDouble 1 (fun x : ℚ => x * x) 0 1 (-1) = some (0, t) ∧
      t = Trapzd.new (fun x : ℚ => x * x) 0 1 ∧ t.calls = 0 ∧ t.evals = [] :=
  ⟨⟨by norm_num, by norm_num⟩,
    (C18_qtrapfixed_negative (fun x : ℚ => x * x) 0 1 (-1) (by norm_num)
      (fun x : ℚ => x * x) 0 1 (-1) (by norm_num) 1 le_rfl).1.1,
    (C18_qtrapfixed_negative (fun x : ℚ => x * x) 0 1 (-1) (by norm_num)
      (fun x : ℚ => x * x) 0 1 (-1) (by norm_num) 1 le_rfl).2⟩

/-- C18 as stated fails in `double` arithmetic: for the negative double `m = -2^-60` the sum
`m+1` rounds to `1`, the first test `1 <= m+1` holds and `qtrapfixed(f, 0, 1, m)` calls
`next()` once, evaluating `f` at `0` and at `1`. -/
theorem C18_counterexample :
    (-(1 / 2 ^ 60) : ℚ) < 0 ∧ roundDouble (-(1 / 2 ^ 60)) = -(1 / 2 ^ 60) ∧
    roundDouble (-(1 / 2 ^ 60) + 1) = 1 ∧
    ∃ v t, qtrapfixedRunFl roundDouble 2 (fun x : ℚ => x) 0 1 (-(1 / 2 ^ 60)) = some (v, t) ∧
      t.calls = 1 ∧ t.evals = [0, 1] := by
  refine ⟨by norm_num, roundDouble_neg_tiny, roundDouble_one_minus_tiny, _, _,
    qtrapfixedLoopFl_tiny 0 0 _, ?_, ?_⟩
  · exact (Trapzd_nextFl_first roundDouble (Trapzd.new (fun x : ℚ => x) 0 1) rfl).2.1
  · exact (Trapzd_nextFl_first roundDouble (Trapzd.new (fun x : ℚ => x) 0 1) rfl).1

/-! ### Calls of `next()` that divide by zero -/

section Strict

/-- After 31 doublings the counter `it` of `Trapzd::next` is `-2^31`. -/
theorem shiftLoop_31 : shiftLoop 31 1 = -2147483648 := by
  have h30 : shiftLoop 31 1 = shiftLoop 1 (wrap32 (2 ^ 30)) := by
    simp only [shiftLoop, one_mul]
    norm_num [wrap32]
  rw [h30]
  decide

/-- After 32 doublings the counter `it` of `Trapzd::next` is `0`. -/
theorem shiftLoop_32 : shiftLoop 32 1 = 0 := by
  have h30 : shiftLoop 32 1 = shiftLoop 2 (wrap32 (2 ^ 30)) := by
    simp only [shiftLoop, one_mul]
    norm_num [wrap32]
  rw [h30]
  decide

theorem shiftLoop_ne_zero {c : Nat} (h : c ≤ 31) : shiftLoop c 1 ≠ 0 := by
  rcases Nat.lt_or_ge c 31 with h30 | h31
  · rw [shiftLoop_one (by omega)]
    exact pow_ne_zero _ (by norm_num)
  · have hc : c = 31 := le_antisymm h h31
    rw [hc, shiftLoop_31]
    decide

theorem tripleLoop_ne_zero {c : Nat} (h : c ≤ 19) : tripleLoop c 1 ≠ 0 := by
  rw [tripleLoop_one h]
  exact pow_ne_zero _ (by norm_num)

/-- None of the calls `1 .. 33` of `Trapzd::next` divides by zero. -/
theorem Trapzd_not_dividesByZero {K : Type} (t : Trapzd K) (i : Nat) (hn : t.n = i) (hi : i ≤ 32) :
    ¬ t.dividesByZero := by
  rintro ⟨-, h0⟩
  have e : wrap32 (t.n + 1) = (i : Int) + 1 := by
    rw [hn]
    exact wrap32_eq (by omega) (by omega)
  rw [e, loopCount_succ (by omega)] at h0
  exact shiftLoop_ne_zero (by omega) h0

/-- None of the calls `1 .. 21` of `Midpnt::next` divides by zero. -/
theorem Midpnt_not_dividesByZero {K : Type} (t : Midpnt K) (i : Nat) (hn : t.n = i) (hi : i ≤ 20) :
    ¬ t.dividesByZero := by
  rintro ⟨-, h0⟩
  have e : wrap32 (t.n + 1) = (i : Int) + 1 := by
    rw [hn]
    exact wrap32_eq (by omega) (by omega)
  rw [e, loopCount_succ (by omega)] at h0
  exact tripleLoop_ne_zero (by omega) h0

/-- Call 34 of `Trapzd::next` divides by `tnm = 0`. -/
theorem Trapzd_dividesByZero_34 {K : Type} (t : Trapzd K) (hn : t.n = 33) :
    t.dividesByZero := by
  have e : wrap32 (t.n + 1) = 34 := by rw [hn]; decide
  have hc : loopCount 34 = 32 := by decide
  refine ⟨?_, ?_⟩
  · rw [e]
    decide
  · rw [e, hc, shiftLoop_32]

variable {K : Type} [LinearOrderedField K]

theorem Trapzd_afterStrict_eq (k i : Nat) (t : Trapzd K) (hn : t.n = i) (h : i + k ≤ 33) :
    Trapzd.afterStrict k t = some (Trapzd.after k t) := by
  induction k generalizing i t with
  | zero => rfl
  | succ k ih =>
    rw [Trapzd.afterStrict, if_neg (Trapzd_not_dividesByZero t i hn (by omega)), Trapzd.after]
    refine ih (i + 1) _ ?_ (by omega)
    rw [Trapzd_next_n, hn]
    push_cast
    exact wrap32_eq (by omega) (by omega)

theorem Midpnt_afterStrict_eq (k i : Nat) (t : Midpnt K) (hn : t.n = i) (h : i + k ≤ 21) :
    Midpnt.afterStrict k t = some (Midpnt.after k t) := by
  induction k generalizing i t with
  | zero => rfl
  | succ k ih =>
    rw [Midpnt.afterStrict, if_neg (Midpnt_not_dividesByZero t i hn (by omega)), Midpnt.after]
    refine ih (i + 1) _ ?_ (by omega)
    rw [Midpnt_next_n, hn]
    push_cast
    exact wrap32_eq (by omega) (by omega)

/-- The strict run of `k + 1` calls is the strict run of `k` calls followed by one more. -/
theorem Trapzd_afterStrict_succ (k : Nat) (t : Trapzd K) :
    Trapzd.afterStrict (k + 1) t =
      (Trapzd.afterStrict k t).bind
        (fun u => if u.dividesByZero then none else some u.next.2) := by
  induction k generalizing t with
  | zero =>
    simp only [Trapzd.afterStrict, Option.some_bind]
  | succ k ih =>
    rw [Trapzd.afterStrict]
    by_cases hd : t.dividesByZero
    · rw [if_pos hd, Trapzd.afterStrict, if_pos hd]
      rfl
    · rw [if_neg hd, ih, Trapzd.afterStrict, if_neg hd]

/-- The estimates `1 .. 33` of `Trapzd` are computed without a division by zero. -/
theorem trapEstimateStrict_eq (f : K → K) (a b : K) (k : Nat) (h1 : 1 ≤ k) (h : k ≤ 33) :
    trapEstimateStrict f a b k = some (trapEstimate f a b k) := by
  rw [trapEstimateStrict, Trapzd_afterStrict_eq k 0 (Trapzd.new f a b) rfl (by omega),
    trapEstimate_eq_s f a b k h1]
  rfl

/-- The estimates `1 .. 21` of `Midpnt` are computed without a division by zero. -/
theorem midEstimateStrict_eq (f : K → K) (a b : K) (k : Nat) (h1 : 1 ≤ k) (h : k ≤ 21) :
    midEstimateStrict f a b k = some (midEstimate f a b k) := by
  obtain ⟨j, rfl⟩ : ∃ j, k = j + 1 := ⟨k - 1, by omega⟩
  rw [midEstimateStrict, Midpnt_afterStrict_eq (j + 1) 0 (Midpnt.new f a b) rfl (by omega),
    midEstimate, Nat.add_sub_cancel, Midpnt_after_succ, Midpnt_next_fst]
  rfl

/-- Estimate 34 of `Trapzd` has no value: call 34 divides by zero. -/
theorem trapEstimateStrict_34 (f : K → K) (a b : K) : trapEstimateStrict f a b 34 = none := by
  have hn : (Trapzd.after 33 (Trapzd.new f a b)).n = 33 := by
    rw [Trapzd_after_n]
    decide
  rw [trapEstimateStrict, Trapzd_afterStrict_succ,
    Trapzd_afterStrict_eq 33 0 (Trapzd.new f a b) rfl (by omega), Option.some_bind,
    if_pos (Trapzd_dividesByZero_34 _ hn)]
  rfl

/-- A run of `qtrap` makes at most 20 calls of `next()`. -/
theorem qtrapRun_calls_le (f : K → K) (a b eps : K) : (qtrapRun f a b eps).2.calls ≤ 20 := by
  rcases qtrapRun_cases f a b eps with ⟨-, hr⟩ | ⟨j, h6, h19, -, -, hr⟩
  · rw [hr, Trapzd_after_calls]
    simp only [Trapzd.new]
    omega
  · rw [hr, Trapzd_after_calls]
    simp only [Trapzd.new]
    omega

/-- A run of `qmid` makes at most 20 calls of `next()`. -/
theorem qmidRun_calls_le (f : K → K) (a b eps : K) : (qmidRun f a b eps).2.calls ≤ 20 := by
  rcases qmidRun_cases f a b eps with ⟨-, hr⟩ | ⟨j, h6, h19, -, -, hr⟩
  · rw [hr, Midpnt_after_calls]
    simp only [Midpnt.new]
    omega
  · rw [hr, Midpnt_after_calls]
    simp only [Midpnt.new]
    omega

/-- For `m < 32` the loop of `qtrapfixed` ends, after at most 32 calls of `next()`. -/
theorem qtrapfixedLoop_bounded (m : K) (hm : m < 32) (fuel : Nat) (j : Int) (s : K)
    (t : Trapzd K) (hj1 : 1 ≤ j) (hj : j ≤ 33) (hc : (t.calls : Int) + 1 = j)
    (hfuel : 34 ≤ (fuel : Int) + j) :
    ∃ v u, qtrapfixedLoop m fuel j s t = some (v, u) ∧ u.calls ≤ 32 := by
  induction fuel generalizing j s t with
  | zero => exact absurd hfuel (by omega)
  | succ fuel ih =>
    rw [qtrapfixedLoop]
    by_cases hcond : (j : K) ≤ m + 1
    · have hlt : (j : K) < ((33 : Int) : K) := by
        push_cast
        linarith
      have hj32 : j < 33 := Int.cast_lt.mp hlt
      rw [if_pos hcond, wrap32_eq (by omega) (by omega)]
      refine ih (j + 1) _ _ (by omega) (by omega) ?_ (by push_cast at hfuel ⊢; omega)
      rw [Trapzd_next_calls]
      push_cast
      omega
    · rw [if_neg hcond]
      exact ⟨s, t, rfl, by omega⟩

/-- For `m < 32` and `fuel ≥ 33` the driver `qtrapfixed` returns, after at most 32 calls. -/
theorem qtrapfixedRun_bounded (f : K → K) (a b m : K) (hm : m < 32) (fuel : Nat)
    (hfuel : 33 ≤ fuel) :
    ∃ v u, qtrapfixedRun fuel f a b m = some (v, u) ∧ u.calls ≤ 32 :=
  qtrapfixedLoop_bounded m hm fuel 1 0 _ le_rfl (by norm_num) rfl (by omega)

end Strict

section StrictClaims

variable {K : Type} [LinearOrderedField K]

/-- The driver `qtrap` on swapped endpoints. -/
theorem qtrap_swap (f : K → K) (a b eps : K) :
    qtrap f b a eps = Except.map (fun v => -v) (qtrap f a b eps) := by
  have key := driverLoop_neg Trapzd.next qtrapError eps Trapzd.Mirrored
    (fun t u h => ⟨Trapzd_next_mirror t u h, Trapzd_next_mirrored t u h⟩) JMAX 0 0 _ _
    (Trapzd_new_mirrored f a b)
  rw [neg_zero] at key
  simpa only [qtrap, qtrapRun, qtrapLoop_eq] using key

/-- The driver `qmid` on swapped endpoints. -/
theorem qmid_swap (f : K → K) (a b eps : K) :
    qmid f b a eps = Except.map (fun v => -v) (qmid f a b eps) := by
  have key := driverLoop_neg Midpnt.next qmidError eps Midpnt.Mirrored
    (fun t u h => ⟨Midpnt_next_mirror t u h, Midpnt_next_mirrored t u h⟩) JMAX 0 0 _ _
    (Midpnt_new_mirrored f a b)
  rw [neg_zero] at key
  simpa only [qmid, qmidRun, qmidLoop_eq] using key

/-- The driver `qtrapfixed` on swapped endpoints. -/
theorem qtrapfixed_swap (f : K → K) (a b m : K) (fuel : Nat) :
    qtrapfixed fuel f b a m = (qtrapfixed fuel f a b m).map (fun v => -v) := by
  have key := qtrapfixedLoop_neg m fuel 1 0 _ _ (Trapzd_new_mirrored f a b)
  rw [neg_zero] at key
  simpa only [qtrapfixed, qtrapfixedRun] using key

/-- For `m < 32` the driver `qtrapfixed` on swapped endpoints returns the opposite value. -/
theorem qtrapfixed_swap_bounded (f : K → K) (a b m : K) (hm : m < 32) (fuel : Nat)
    (hfuel : 33 ≤ fuel) :
    ∃ v u, qtrapfixedRun fuel f a b m = some (v, u) ∧ u.calls ≤ 32 ∧
      qtrapfixed fuel f b a m = some (-v) := by
  obtain ⟨v, u, hr, hc⟩ := qtrapfixedRun_bounded f a b m hm fuel hfuel
  refine ⟨v, u, hr, hc, ?_⟩
  rw [qtrapfixed_swap, qtrapfixed, hr]
  rfl

/-- For `m < 32` the driver `qtrapfixed` is linear in the integrand. -/
theorem qtrapfixed_linear_bounded (alpha beta : K) (f g : K → K) (a b m : K) (hm : m < 32)
    (fuel : Nat) (hfuel : 33 ≤ fuel) :
    ∃ v1 u1 v2 u2 u,
      qtrapfixedRun fuel f a b m = some (v1, u1) ∧
      qtrapfixedRun fuel g a b m = some (v2, u2) ∧
      qtrapfixedRun fuel (fun x => alpha * f x + beta * g x) a b m =
        some (alpha * v1 + beta * v2, u) ∧
      u1.calls ≤ 32 ∧ u2.calls ≤ 32 ∧ u.calls ≤ 32 := by
  obtain ⟨v1, u1, hr1, hc1⟩ := qtrapfixedRun_bounded f a b m hm fuel hfuel
  obtain ⟨v2, u2, hr2, hc2⟩ := qtrapfixedRun_bounded g a b m hm fuel hfuel
  obtain ⟨v, u, hr, hc⟩ :=
    qtrapfixedRun_bounded (fun x => alpha * f x + beta * g x) a b m hm fuel hfuel
  have hl := qtrapfixed_linear alpha beta f g a b m fuel
  simp only [qtrapfixed, hr1, hr2, hr, Option.map_some', Option.some_bind] at hl
  have hv : v = alpha * v1 + beta * v2 := Option.some.inj hl
  exact ⟨v1, u1, v2, u2, u, hr1, hr2, by rw [hr, hv], hc1, hc2, hc⟩

end StrictClaims

/-! ### C15: the statement -/

/-- C15 (amended): in exact arithmetic, for every `f` and all `a`, `b`: for every `k` with
`1 ≤ k ≤ 32` the `k`-th estimate of `Trapzd(f, b, a)` is the negation of the `k`-th estimate
of `Trapzd(f, a, b)`, and for every `k` with `1 ≤ k ≤ 21` likewise for `Midpnt`, none of these
calls dividing by zero; `qtrap(f, b, a, eps)` fails exactly when `qtrap(f, a, b, eps)` fails
and otherwise returns its negation, and the same holds for `qmid`, every run making at most
20 calls of `next()`; for every `m < 32`, `qtrapfixed(f, a, b, m)` returns a value `v` after
at most 32 calls of `next()` and `qtrapfixed(f, b, a, m)` returns `-v`. -/
theorem C15_antisymmetry_under_swap {K : Type} [LinearOrderedField K] (f : K → K)
    (a b eps : K) :
    (∀ k, 1 ≤ k → k ≤ 32 →
      trapEstimateStrict f a b k = some (trapEstimate f a b k) ∧
      trapEstimateStrict f b a k = some (trapEstimate f b a k) ∧
      trapEstimate f b a k = -trapEstimate f a b k) ∧
    (∀ k, 1 ≤ k → k ≤ 21 →
      midEstimateStrict f a b k = some (midEstimate f a b k) ∧
      midEstimateStrict f b a k = some (midEstimate f b a k) ∧
      midEstimate f b a k = -midEstimate f a b k) ∧
    (qtrap f b a eps = Except.map (fun v => -v) (qtrap f a b eps) ∧
      (qtrapRun f a b eps).2.calls ≤ 20 ∧ (qtrapRun f b a eps).2.calls ≤ 20) ∧
    (qmid f b a eps = Except.map (fun v => -v) (qmid f a b eps) ∧
      (qmidRun f a b eps).2.calls ≤ 20 ∧ (qmidRun f b a eps).2.calls ≤ 20) ∧
    (∀ (m : K) (fuel : Nat), m < 32 → 33 ≤ fuel →
      ∃ v u, qtrapfixedRun fuel f a b m = some (v, u) ∧ u.calls ≤ 32 ∧
        qtrapfixed fuel f b a m = some (-v)) :=
  ⟨fun k h1 h32 => ⟨trapEstimateStrict_eq f a b k h1 (by omega),
      trapEstimateStrict_eq f b a k h1 (by omega), trapEstimate_swap f a b k⟩,
    fun k h1 h21 => ⟨midEstimateStrict_eq f a b k h1 h21, midEstimateStrict_eq f b a k h1 h21,
      midEstimate_swap f a b k⟩,
    ⟨qtrap_swap f a b eps, qtrapRun_calls_le f a b eps, qtrapRun_calls_le f b a eps⟩,
    ⟨qmid_swap f a b eps, qmidRun_calls_le f a b eps, qmidRun_calls_le f b a eps⟩,
    fun m fuel hm hfuel => qtrapfixed_swap_bounded f a b m hm fuel hfuel⟩

/-- Witness of C15 (amended): the second estimates of `x ↦ x²` on `[0, 1]` and on `[1, 0]`,
and `qtrapfixed` with the default `m = 5`. -/
theorem C15_antisymmetry_under_swap_witness :
    ((1 ≤ 2 ∧ 2 ≤ 32) ∧ (5 : ℚ) < 32 ∧ 33 ≤ 33) ∧
    (trapEstimateStrict (fun x : ℚ => x * x) 0 1 2 =
        some (trapEstimate (fun x : ℚ => x * x) 0 1 2) ∧
      trapEstimateStrict (fun x : ℚ => x * x) 1 0 2 =
        some (trapEstimate (fun x : ℚ => x * x) 1 0 2) ∧
      trapEstimate (fun x : ℚ => x * x) 1 0 2 = -trapEstimate (fun x : ℚ => x * x) 0 1 2) ∧
    ∃ v u, qtrapfixedRun 33 (fun x : ℚ => x * x) 0 1 5 = some (v, u) ∧ u.calls ≤ 32 ∧
      qtrapfixed 33 (fun x : ℚ => x * x) 1 0 5 = some (-v) :=
  ⟨⟨by decide, by norm_num, le_rfl⟩,
    (C15_antisymmetry_under_swap (fun x : ℚ => x * x) 0 1 1).1 2 (by decide) (by decide),
    (C15_antisymmetry_under_swap (fun x : ℚ => x * x) 0 1 1).2.2.2.2 5 33 (by norm_num) le_rfl⟩

/-- C15 as stated fails at `k = 34`: after 33 calls the counter of `Trapzd(f, 0, 1)` is 33,
the shift loop of call 34 leaves `it = 0`, so `tnm = 0` and the call divides `(b-a)*sum = 0`
by `tnm = 0`; neither `Trapzd(f, 1, 0)` nor `Trapzd(f, 0, 1)` has a 34th estimate, so the
former is not the negation of the latter. -/
theorem C15_counterexample :
    (Trapzd.after 33 (Trapzd.new (fun x : ℚ => x) 0 1)).n = 33 ∧
    shiftLoop (loopCount 34) 1 = 0 ∧
    trapEstimateStrict (fun x : ℚ => x) 0 1 34 = none ∧
    trapEstimateStrict (fun x : ℚ => x) 1 0 34 = none ∧
    ¬ ∃ v w : ℚ, trapEstimateStrict (fun x : ℚ => x) 1 0 34 = some v ∧
      trapEstimateStrict (fun x : ℚ => x) 0 1 34 = some w ∧ v = -w := by
  refine ⟨?_, ?_, trapEstimateStrict_34 _ 0 1, trapEstimateStrict_34 _ 1 0, ?_⟩
  · rw [Trapzd_after_n]
    decide
  · rw [show loopCount 34 = 32 by decide, shiftLoop_32]
  · rintro ⟨v, w, hv, -, -⟩
    rw [trapEstimateStrict_34] at hv
    exact Option.noConfusion hv

/-! ### C17: the statement -/

/-- C17 (amended): in exact arithmetic, for all functions `f`, `g` and all `alpha`, `beta`,
`a`, `b`: for every `k` with `1 ≤ k ≤ 32` the `k`-th estimate of `Trapzd` bound to
`x ↦ alpha*f(x) + beta*g(x)` equals `alpha` times the `k`-th estimate for `f` plus `beta`
times the `k`-th estimate for `g`, and for every `k` with `1 ≤ k ≤ 21` likewise for `Midpnt`,
none of these calls dividing by zero; hence for every `m < 32` the driver `qtrapfixed`
returns on `f`, on `g` and on the combination, each time after at most 32 calls of `next()`,
and its value on the combination is `alpha` times its value on `f` plus `beta` times its
value on `g`. -/
theorem C17_linearity_in_integrand {K : Type} [LinearOrderedField K] (alpha beta : K)
    (f g : K → K) (a b : K) :
    (∀ k, 1 ≤ k → k ≤ 32 →
      trapEstimateStrict f a b k = some (trapEstimate f a b k) ∧
      trapEstimateStrict g a b k = some (trapEstimate g a b k) ∧
      trapEstimateStrict (fun x => alpha * f x + beta * g x) a b k =
        some (alpha * trapEstimate f a b k + beta * trapEstimate g a b k)) ∧
    (∀ k, 1 ≤ k → k ≤ 21 →
      midEstimateStrict f a b k = some (midEstimate f a b k) ∧
      midEstimateStrict g a b k = some (midEstimate g a b k) ∧
      midEstimateStrict (fun x => alpha * f x + beta * g x) a b k =
        some (alpha * midEstimate f a b k + beta * midEstimate g a b k)) ∧
    (∀ (m : K) (fuel : Nat), m < 32 → 33 ≤ fuel →
      ∃ v1 u1 v2 u2 u,
        qtrapfixedRun fuel f a b m = some (v1, u1) ∧
        qtrapfixedRun fuel g a b m = some (v2, u2) ∧
        qtrapfixedRun fuel (fun x => alpha * f x + beta * g x) a b m =
          some (alpha * v1 + beta * v2, u) ∧
        u1.calls ≤ 32 ∧ u2.calls ≤ 32 ∧ u.calls ≤ 32) :=
  ⟨fun k h1 h32 => ⟨trapEstimateStrict_eq f a b k h1 (by omega),
      trapEstimateStrict_eq g a b k h1 (by omega),
      by rw [trapEstimateStrict_eq _ a b k h1 (by omega), trapEstimate_linear]⟩,
    fun k h1 h21 => ⟨midEstimateStrict_eq f a b k h1 h21, midEstimateStrict_eq g a b k h1 h21,
      by rw [midEstimateStrict_eq _ a b k h1 h21, midEstimate_linear]⟩,
    fun m fuel hm hfuel => qtrapfixed_linear_bounded alpha beta f g a b m hm fuel hfuel⟩

/-- Witness of C17 (amended): the sixth estimate of `Trapzd` and `qtrapfixed` with the
default `m = 5` on `2*x² + 3*x` over `[0, 1]`. -/
theorem C17_linearity_in_integrand_witness :
    ((1 ≤ 6 ∧ 6 ≤ 32) ∧ (5 : ℚ) < 32 ∧ 33 ≤ 33) ∧
    trapEstimateStrict (fun x : ℚ => 2 * (x * x) + 3 * x) 0 1 6 =
      some (2 * trapEstimate (fun x : ℚ => x * x) 0 1 6 +
        3 * trapEstimate (fun x : ℚ => x) 0 1 6) ∧
    ∃ v1 u1 v2 u2 u,
      qtrapfixedRun 33 (fun x : ℚ => x * x) 0 1 5 = some (v1, u1) ∧
      qtrapfixedRun 33 (fun x : ℚ => x) 0 1 5 = some (v2, u2) ∧
      qtrapfixedRun 33 (fun x : ℚ => 2 * (x * x) + 3 * x) 0 1 5 = some (2 * v1 + 3 * v2, u) ∧
      u1.calls ≤ 32 ∧ u2.calls ≤ 32 ∧ u.calls ≤ 32 :=
  ⟨⟨by decide, by norm_num, le_rfl⟩,
    ((C17_linearity_in_integrand (2 : ℚ) 3 (fun x => x * x) (fun x => x) 0 1).1 6
      (by decide) (by decide)).2.2,
    (C17_linearity_in_integrand (2 : ℚ) 3 (fun x => x * x) (fun x => x) 0 1).2.2 5 33
      (by norm_num) le_rfl⟩

/-- C17 as stated fails at `k = 34` and for `qtrapfixed` at `m = 33`: call 34 of
`Trapzd::next` divides by `tnm = 0`, so on `[0, 1]` neither `2*x² + 3*x` nor `x²` nor `x` has
a 34th estimate, and the 34th estimate is the value that `qtrapfixed(f, 0, 1, 33)` returns. -/
theorem C17_counterexample :
    trapEstimateStrict (fun x : ℚ => 2 * (x * x) + 3 * x) 0 1 34 = none ∧
    trapEstimateStrict (fun x : ℚ => x * x) 0 1 34 = none ∧
    trapEstimateStrict (fun x : ℚ => x) 0 1 34 = none ∧
    (¬ ∃ u v w : ℚ, trapEstimateStrict (fun x : ℚ => 2 * (x * x) + 3 * x) 0 1 34 = some u ∧
      trapEstimateStrict (fun x : ℚ => x * x) 0 1 34 = some v ∧
      trapEstimateStrict (fun x : ℚ => x) 0 1 34 = some w ∧ u = 2 * v + 3 * w) ∧
    qtrapfixedRun 35 (fun x : ℚ => 2 * (x * x) + 3 * x) 0 1 ((33 : Nat) : ℚ) =
      some (trapEstimate (fun x : ℚ => 2 * (x * x) + 3 * x) 0 1 34,
        Trapzd.after 34 (Trapzd.new (fun x : ℚ => 2 * (x * x) + 3 * x) 0 1)) := by
  refine ⟨trapEstimateStrict_34 _ 0 1, trapEstimateStrict_34 _ 0 1, trapEstimateStrict_34 _ 0 1,
    ?_, qtrapfixedRun_eq _ 0 1 33 (by norm_num) 35 (by norm_num)⟩
  rintro ⟨u, v, w, hu, -, -, -⟩
  rw [trapEstimateStrict_34] at hu
  exact Option.noConfusion hu

/-! ### Number of evaluations, with any rounding -/

section RoundedCounts

variable {K : Type} [LinearOrderedField K]

theorem Trapzd_sumLoopFl_length (fl : K → K) (t : Trapzd K) (del : K) (c : Nat) (x sum : K)
    (log : List K) :
    (Trapzd.sumLoopFl fl t del c x sum log).2.length = log.length + c := by
  induction c generalizing x sum log with
  | zero => rfl
  | succ c ih =>
    rw [Trapzd.sumLoopFl, ih, List.length_append, List.length_singleton]
    omega

theorem Midpnt_sumLoopFl_length (fl : K → K) (t : Midpnt K) (del ddel : K) (c : Nat)
    (x sum : K) (log : List K) :
    (Midpnt.sumLoopFl fl t del ddel c x sum log).2.length = log.length + 2 * c := by
  induction c generalizing x sum log with
  | zero => rfl
  | succ c ih =>
    rw [Midpnt.sumLoopFl, ih, List.length_append]
    simp only [List.length_cons, List.length_nil]
    omega

theorem Trapzd_nextFl_n (fl : K → K) (t : Trapzd K) :
    (t.nextFl fl).2.n = wrap32 (t.n + 1) := by
  simp only [Trapzd.nextFl]
  split_ifs <;> rfl

theorem Midpnt_nextFl_n (fl : K → K) (t : Midpnt K) :
    (t.nextFl fl).2.n = wrap32 (t.n + 1) := by
  simp only [Midpnt.nextFl]
  split_ifs <;> rfl

/-- Call `k + 1` of `Trapzd::next`, `1 ≤ k ≤ 31`, evaluates the function `2^(k-1)` times,
whatever the rounding. -/
theorem Trapzd_nextFl_later_length (fl : K → K) (t : Trapzd K) (k : Nat) (h : t.n = k)
    (h1 : 1 ≤ k) (h31 : k ≤ 31) :
    (t.nextFl fl).2.evals.length = t.evals.length + 2 ^ (k - 1) := by
  have e : wrap32 (t.n + 1) = (k : Int) + 1 := by
    rw [h]
    exact wrap32_eq (by omega) (by omega)
  have hne : ¬ ((k : Int) + 1 = 1) := by omega
  have hs : shiftLoop (k - 1) 1 = 2 ^ (k - 1) := shiftLoop_one (by omega)
  have ht : ((2 : Int) ^ (k - 1)).toNat = 2 ^ (k - 1) := by
    rw [show ((2 : Int) ^ (k - 1)) = ((2 ^ (k - 1) : Nat) : Int) by push_cast; rfl]
    exact Int.toNat_natCast _
  simp only [Trapzd.nextFl, e, if_neg hne, loopCount_succ (show k < 2147483648 by omega), hs,
    Trapzd_sumLoopFl_length, ht]

/-- Call `k + 1` of `Midpnt::next`, `1 ≤ k ≤ 20`, evaluates the function `2 * 3^(k-1)` times,
whatever the rounding. -/
theorem Midpnt_nextFl_later_length (fl : K → K) (t : Midpnt K) (k : Nat) (h : t.n = k)
    (h1 : 1 ≤ k) (h20 : k ≤ 20) :
    (t.nextFl fl).2.evals.length = t.evals.length + 2 * 3 ^ (k - 1) := by
  have e : wrap32 (t.n + 1) = (k : Int) + 1 := by
    rw [h]
    exact wrap32_eq (by omega) (by omega)
  have hne : ¬ ((k : Int) + 1 = 1) := by omega
  have hs : tripleLoop (k - 1) 1 = 3 ^ (k - 1) := tripleLoop_one (by omega)
  have ht : ((3 : Int) ^ (k - 1)).toNat = 3 ^ (k - 1) := by
    rw [show ((3 : Int) ^ (k - 1)) = ((3 ^ (k - 1) : Nat) : Int) by push_cast; rfl]
    exact Int.toNat_natCast _
  simp only [Midpnt.nextFl, e, if_neg hne, loopCount_succ (show k < 2147483648 by omega), hs,
    Midpnt_sumLoopFl_length, ht]

theorem Trapzd_afterFl_succ (fl : K → K) (k : Nat) (t : Trapzd K) :
    Trapzd.afterFl fl (k + 1) t = ((Trapzd.afterFl fl k t).nextFl fl).2 := by
  induction k generalizing t with
  | zero => rfl
  | succ k ih => rw [Trapzd.afterFl, ih, ← Trapzd.afterFl]

theorem Midpnt_afterFl_succ (fl : K → K) (k : Nat) (t : Midpnt K) :
    Midpnt.afterFl fl (k + 1) t = ((Midpnt.afterFl fl k t).nextFl fl).2 := by
  induction k generalizing t with
  | zero => rfl
  | succ k ih => rw [Midpnt.afterFl, ih, ← Midpnt.afterFl]

theorem Trapzd_afterFl_n (fl : K → K) (f : K → K) (a b : K) (k : Nat) (hk : k ≤ 32) :
    (Trapzd.afterFl fl k (Trapzd.new f a b)).n = k := by
  induction k with
  | zero => rfl
  | succ k ih =>
    rw [Trapzd_afterFl_succ, Trapzd_nextFl_n, ih (by omega)]
    push_cast
    exact wrap32_eq (by omega) (by omega)

theorem Midpnt_afterFl_n (fl : K → K) (f : K → K) (a b : K) (k : Nat) (hk : k ≤ 21) :
    (Midpnt.afterFl fl k (Midpnt.new f a b)).n = k := by
  induction k with
  | zero => rfl
  | succ k ih =>
    rw [Midpnt_afterFl_succ, Midpnt_nextFl_n, ih (by omega)]
    push_cast
    exact wrap32_eq (by omega) (by omega)

/-- With any rounding, call `k` of `next()` on a fresh `Trapzd`, `2 ≤ k ≤ 32`, evaluates the
function exactly `2^(k-2)` times. -/
theorem Trapzd_afterFl_evals_length (fl : K → K) (f : K → K) (a b : K) (k : Nat) (h2 : 2 ≤ k)
    (h32 : k ≤ 32) :
    (Trapzd.afterFl fl k (Trapzd.new f a b)).evals.length =
      (Trapzd.afterFl fl (k - 1) (Trapzd.new f a b)).evals.length + 2 ^ (k - 2) := by
  obtain ⟨j, rfl⟩ : ∃ j, k = j + 1 := ⟨k - 1, by omega⟩
  rw [Trapzd_afterFl_succ, Nat.add_sub_cancel,
    Trapzd_nextFl_later_length fl _ j (Trapzd_afterFl_n fl f a b j (by omega)) (by omega)
      (by omega),
    show j + 1 - 2 = j - 1 by omega]

/-- With any rounding, call `k` of `next()` on a fresh `Midpnt`, `2 ≤ k ≤ 21`, evaluates the
function exactly `2 * 3^(k-2)` times. -/
theorem Midpnt_afterFl_evals_length (fl : K → K) (f : K → K) (a b : K) (k : Nat) (h2 : 2 ≤ k)
    (h21 : k ≤ 21) :
    (Midpnt.afterFl fl k (Midpnt.new f a b)).evals.length =
      (Midpnt.afterFl fl (k - 1) (Midpnt.new f a b)).evals.length + 2 * 3 ^ (k - 2) := by
  obtain ⟨j, rfl⟩ : ∃ j, k = j + 1 := ⟨k - 1, by omega⟩
  rw [Midpnt_afterFl_succ, Nat.add_sub_cancel,
    Midpnt_nextFl_later_length fl _ j (Midpnt_afterFl_n fl f a b j (by omega)) (by omega)
      (by omega),
    show j + 1 - 2 = j - 1 by omega]

/-- With any rounding, the first `k` calls of `next()` on a fresh `Midpnt`, `1 ≤ k ≤ 21`,
evaluate the function `3^(k-1)` times in all. -/
theorem Midpnt_afterFl_evals_total (fl : K → K) (f : K → K) (a b : K) (k : Nat) (h1 : 1 ≤ k)
    (h21 : k ≤ 21) :
    (Midpnt.afterFl fl k (Midpnt.new f a b)).evals.length = 3 ^ (k - 1) := by
  induction k, h1 using Nat.le_induction with
  | base =>
    rw [Midpnt_afterFl_succ, Midpnt.afterFl, Midpnt_nextFl_first fl _ rfl]
    rfl
  | succ k h1 ih =>
    rw [Midpnt_afterFl_evals_length fl f a b (k + 1) (by omega) h21, Nat.add_sub_cancel,
      ih (by omega), show k + 1 - 2 = k - 1 by omega]
    obtain ⟨i, rfl⟩ : ∃ i, k = i + 1 := ⟨k - 1, by omega⟩
    rw [Nat.add_sub_cancel, pow_succ]
    omega

/-- With rounding `id` the rounded run is the exact run. -/
theorem Trapzd_afterFl_id (k : Nat) (t : Trapzd K) :
    Trapzd.afterFl id k t = Trapzd.after k t := by
  induction k generalizing t with
  | zero => rfl
  | succ k ih => rw [Trapzd.afterFl, Trapzd.after, Trapzd_nextFl_id, ih]

theorem Midpnt_afterFl_id (k : Nat) (t : Midpnt K) :
    Midpnt.afterFl id k t = Midpnt.after k t := by
  induction k generalizing t with
  | zero => rfl
  | succ k ih => rw [Midpnt.afterFl, Midpnt.after, Midpnt_nextFl_id, ih]

end RoundedCounts

/-! ### Rounding of single values -/

section RoundingNear

/-- Rounding to the nearest integer of a point less than `1/2` away from the integer `z`. -/
theorem roundHalfEven_near (r : ℚ) (z : ℤ) (h1 : (z : ℚ) - 1 / 2 < r) (h2 : r < z + 1 / 2) :
    roundHalfEven r = z := by
  rcases le_or_lt (z : ℚ) r with hz | hz
  · have hf : ⌊r⌋ = z := Int.floor_eq_iff.mpr ⟨hz, by linarith⟩
    rw [roundHalfEven, hf, if_pos (by linarith)]
  · have hf : ⌊r⌋ = z - 1 := Int.floor_eq_iff.mpr ⟨by push_cast; linarith, by push_cast; linarith⟩
    have hnot : ¬ (r - ((z - 1 : ℤ) : ℚ) < 1 / 2) := by push_cast; linarith
    have hgt : 1 / 2 < r - ((z - 1 : ℤ) : ℚ) := by push_cast; linarith
    rw [roundHalfEven, hf, if_neg hnot, if_pos hgt]
    omega

/-- Rounding to `double` of a positive number `q` of the binade `[2^(-n), 2^(1-n))`, whose
unit in the last place is `w = 2^(-n-52)`, when `q / w` is less than `1/2` away from the
integer `z`. -/
theorem roundDouble_near (q : ℚ) (n : ℕ) (z : ℤ) (h1 : 1 / 2 ^ n ≤ q) (h2 : q < 2 / 2 ^ n)
    (h3 : (z : ℚ) - 1 / 2 < q * 2 ^ (n + 52)) (h4 : q * 2 ^ (n + 52) < z + 1 / 2) :
    roundDouble q = z / 2 ^ (n + 52) := by
  have hpos : 0 < q := lt_of_lt_of_le (by positivity) h1
  have e1 : (2 : ℚ) ^ (-(n : ℤ)) = 1 / 2 ^ n := by
    rw [zpow_neg, zpow_natCast, one_div]
  have e2 : (2 : ℚ) ^ (-(n : ℤ) + 1) = 2 / 2 ^ n := by
    rw [zpow_add₀ (by norm_num), e1, zpow_one]
    ring
  have e3 : (2 : ℚ) ^ (-(n : ℤ) - 52) = 1 / 2 ^ (n + 52) := by
    rw [show (-(n : ℤ) - 52) = -((n + 52 : ℕ) : ℤ) by push_cast; ring, zpow_neg, zpow_natCast,
      one_div]
  have h := roundDouble_eq q (-(n : ℤ)) (by rw [abs_of_pos hpos, e1]; exact h1)
    (by rw [abs_of_pos hpos, e2]; exact h2)
  rw [h, e3, show q / (1 / 2 ^ (n + 52)) = q * 2 ^ (n + 52) by rw [div_div_eq_mul_div, div_one],
    roundHalfEven_near _ z h3 h4]
  ring

/-- A number `z / 2^(n+52)` with `2^52 ≤ z < 2^53` is a `double`. -/
theorem roundDouble_exact (n : ℕ) (z : ℤ) (h1 : 2 ^ 52 ≤ z) (h2 : z < 2 ^ 53) :
    roundDouble ((z : ℚ) / 2 ^ (n + 52)) = z / 2 ^ (n + 52) := by
  have hz1 : ((2 ^ 52 : ℤ) : ℚ) ≤ z := by exact_mod_cast h1
  have hz2 : (z : ℚ) < ((2 ^ 53 : ℤ) : ℚ) := by exact_mod_cast h2
  push_cast at hz1 hz2
  have hp : (0 : ℚ) < 2 ^ (n + 52) := by positivity
  have hm : (z : ℚ) / 2 ^ (n + 52) * 2 ^ (n + 52) = z := div_mul_cancel₀ _ hp.ne.symm
  refine roundDouble_near _ n z ?_ ?_ (by rw [hm]; linarith) (by rw [hm]; linarith)
  · rw [div_le_div_iff₀ (by positivity) hp, pow_add]
    nlinarith [pow_pos (show (0 : ℚ) < 2 by norm_num) n]
  · rw [div_lt_div_iff₀ hp (by positivity), pow_add]
    nlinarith [pow_pos (show (0 : ℚ) < 2 by norm_num) n]

end RoundingNear

section RoundedSamples

/-- A negative power of two is a `double`. -/
theorem roundDouble_inv_pow (n : ℕ) : roundDouble (1 / 2 ^ n) = 1 / 2 ^ n := by
  have h := roundDouble_exact n (2 ^ 52) le_rfl (by norm_num)
  have e : (((2 ^ 52 : ℤ) : ℚ)) / 2 ^ (n + 52) = 1 / 2 ^ n := by
    push_cast
    rw [pow_add, div_mul_eq_div_div_swap]
    norm_num
  rwa [e] at h

/-- The sum `1 + 2^-53` lies half-way between the doubles `1` and `1 + 2^-52` and rounds to
`1`, whose significand is even. -/
theorem roundDouble_one_plus_half_ulp : roundDouble (1 + 1 / 2 ^ 53) = 1 := by
  have h := roundDouble_eq (1 + 1 / 2 ^ 53) 0
    (by rw [abs_of_pos (by positivity)]; norm_num)
    (by rw [abs_of_pos (by positivity)]; norm_num)
  have hr : (1 + 1 / 2 ^ 53 : ℚ) / 2 ^ ((0 : ℤ) - 52) = 4503599627370496 + 1 / 2 := by
    rw [show ((0 : ℤ) - 52) = -52 by norm_num, zpow_neg]
    norm_num
  have hf : ⌊(4503599627370496 + 1 / 2 : ℚ)⌋ = 4503599627370496 :=
    Int.floor_eq_iff.mpr ⟨by norm_num, by norm_num⟩
  have hz : roundHalfEven (4503599627370496 + 1 / 2 : ℚ) = 4503599627370496 := by
    rw [roundHalfEven, hf]
    norm_num
  rw [h, hr, hz, show ((0 : ℤ) - 52) = -52 by norm_num, zpow_neg]
  norm_num

theorem roundDouble_three : roundDouble 3 = 3 := by
  have h := roundDouble_eq 3 1 (by norm_num) (by norm_num)
  have hr : (3 : ℚ) / 2 ^ ((1 : ℤ) - 52) = ((6755399441055744 : ℤ) : ℚ) := by
    rw [show ((1 : ℤ) - 52) = -51 by norm_num, zpow_neg]
    norm_num
  rw [h, hr, roundHalfEven_intCast, show ((1 : ℤ) - 52) = -51 by norm_num, zpow_neg]
  norm_num

/-- The quotient `2^-52 / 3` rounds to `6004799503160661 / 2^106`. -/
theorem roundDouble_ulp_third :
    roundDouble (1 / 2 ^ 52 / 3) = 6004799503160661 / 2 ^ 106 := by
  have h := roundDouble_near (1 / 2 ^ 52 / 3) 54 6004799503160661 (by norm_num) (by norm_num)
    (by norm_num) (by norm_num)
  rw [h]
  norm_num

theorem roundDouble_two_thirds_ulp :
    roundDouble (6004799503160661 / 2 ^ 106 + 6004799503160661 / 2 ^ 106) =
      6004799503160661 / 2 ^ 105 := by
  have h := roundDouble_exact 53 6004799503160661 (by norm_num) (by norm_num)
  have e : (6004799503160661 / 2 ^ 106 + 6004799503160661 / 2 ^ 106 : ℚ) =
      ((6004799503160661 : ℤ) : ℚ) / 2 ^ (53 + 52) := by norm_num
  rw [e, h]
  norm_num

theorem roundDouble_sixth_ulp :
    roundDouble (1 / 2 * (6004799503160661 / 2 ^ 106)) = 6004799503160661 / 2 ^ 107 := by
  have h := roundDouble_exact 55 6004799503160661 (by norm_num) (by norm_num)
  have e : (1 / 2 * (6004799503160661 / 2 ^ 106) : ℚ) =
      ((6004799503160661 : ℤ) : ℚ) / 2 ^ (55 + 52) := by norm_num
  rw [e, h]
  norm_num

/-- The sum `1 + fl(2^-52 / 6)` rounds to `1`. -/
theorem roundDouble_one_plus_sixth_ulp :
    roundDouble (1 + 6004799503160661 / 2 ^ 107) = 1 := by
  have h := roundDouble_near (1 + 6004799503160661 / 2 ^ 107) 0 (2 ^ 52) (by norm_num)
    (by norm_num) (by norm_num) (by norm_num)
  rw [h]
  norm_num

/-- The sum `1 + fl(2 * 2^-52 / 3)` rounds to `1 + 2^-52`. -/
theorem roundDouble_one_plus_two_thirds_ulp :
    roundDouble (1 + 6004799503160661 / 2 ^ 105) = 1 + 1 / 2 ^ 52 := by
  have h := roundDouble_near (1 + 6004799503160661 / 2 ^ 105) 0 (2 ^ 52 + 1) (by norm_num)
    (by norm_num) (by norm_num) (by norm_num)
  rw [h]
  norm_num

end RoundedSamples

/-! ### Runs in `double` arithmetic -/

section RoundedRuns

variable {K : Type} [LinearOrderedField K]

theorem Trapzd_nextFl_a (fl : K → K) (t : Trapzd K) : (t.nextFl fl).2.a = t.a := by
  simp only [Trapzd.nextFl]
  split_ifs <;> rfl

theorem Trapzd_nextFl_b (fl : K → K) (t : Trapzd K) : (t.nextFl fl).2.b = t.b := by
  simp only [Trapzd.nextFl]
  split_ifs <;> rfl

theorem Midpnt_nextFl_a (fl : K → K) (t : Midpnt K) : (t.nextFl fl).2.a = t.a := by
  simp only [Midpnt.nextFl]
  split_ifs <;> rfl

theorem Midpnt_nextFl_b (fl : K → K) (t : Midpnt K) : (t.nextFl fl).2.b = t.b := by
  simp only [Midpnt.nextFl]
  split_ifs <;> rfl

/-- The second call of `Trapzd::next` with rounding: one evaluation, at
`x = a + 0.5*del` with `del = (b-a)/1`. -/
theorem Trapzd_nextFl_second (fl : K → K) (t : Trapzd K) (h : t.n = 1) :
    (t.nextFl fl).2.evals = t.evals ++ [fl (t.a + fl ((1 / 2) * fl (fl (t.b - t.a) / 1)))] ∧
    (t.nextFl fl).2.n = 2 := by
  have e : wrap32 (t.n + 1) = 2 := by rw [h]; decide
  have hc : loopCount 2 = 0 := by decide
  have h2 : ¬ ((2 : Int) = 1) := by decide
  simp only [Trapzd.nextFl, e, if_neg h2, hc, shiftLoop, Int.cast_one, Int.toNat_one,
    Trapzd.sumLoopFl, and_self]

/-- The third call of `Trapzd::next` with rounding: two evaluations, at `x = a + 0.5*del`
and at `x + del`, with `del = (b-a)/2`. -/
theorem Trapzd_nextFl_third (fl : K → K) (t : Trapzd K) (h : t.n = 2) :
    (t.nextFl fl).2.evals =
      t.evals ++ [fl (t.a + fl ((1 / 2) * fl (fl (t.b - t.a) / 2)))] ++
        [fl (fl (t.a + fl ((1 / 2) * fl (fl (t.b - t.a) / 2))) + fl (fl (t.b - t.a) / 2))] := by
  have e : wrap32 (t.n + 1) = 3 := by rw [h]; decide
  have hc : loopCount 3 = 1 := by decide
  have h3 : ¬ ((3 : Int) = 1) := by decide
  have hs : shiftLoop 1 1 = 2 := by decide
  have ht : (2 : Int).toNat = 2 := by decide
  simp only [Trapzd.nextFl, e, if_neg h3, hc, hs, ht, Int.cast_ofNat, Trapzd.sumLoopFl]

/-- The second call of `Midpnt::next` with rounding: two evaluations, at `x = a + 0.5*del`
and at `x + ddel`, with `del = (b-a)/(3.0*1)` and `ddel = del + del`. -/
theorem Midpnt_nextFl_second (fl : K → K) (t : Midpnt K) (h : t.n = 1) :
    (t.nextFl fl).2.evals =
      t.evals ++ [fl (t.a + fl ((1 / 2) * fl (fl (t.b - t.a) / fl (3 * 1)))),
        fl (fl (t.a + fl ((1 / 2) * fl (fl (t.b - t.a) / fl (3 * 1)))) +
          fl (fl (fl (t.b - t.a) / fl (3 * 1)) + fl (fl (t.b - t.a) / fl (3 * 1))))] := by
  have e : wrap32 (t.n + 1) = 2 := by rw [h]; decide
  have hc : loopCount 2 = 0 := by decide
  have h2 : ¬ ((2 : Int) = 1) := by decide
  simp only [Midpnt.nextFl, e, if_neg h2, hc, tripleLoop, Int.cast_one, Int.toNat_one,
    Midpnt.sumLoopFl]

end RoundedRuns

/-- In `double` arithmetic the third call of `next()` on `Trapzd(f, 1, 1 + 2^-51)` evaluates
`f` at `1`, the endpoint sampled by the first call, and at `1 + 2^-52`, the point sampled
by the second call. -/
theorem Trapzd_rounded_resamples (f : ℚ → ℚ) :
    (Trapzd.afterFl roundDouble 3 (Trapzd.new f 1 (1 + 1 / 2 ^ 51))).evals =
      [1, 1 + 1 / 2 ^ 51, 1 + 1 / 2 ^ 52, 1, 1 + 1 / 2 ^ 52] := by
  have h1 := Trapzd_nextFl_first roundDouble (Trapzd.new f 1 (1 + 1 / 2 ^ 51)) rfl
  have h2 := Trapzd_nextFl_second roundDouble
    ((Trapzd.new f 1 (1 + 1 / 2 ^ 51)).nextFl roundDouble).2 h1.2.2
  have h3 := Trapzd_nextFl_third roundDouble _ h2.2
  have hd : (1 + 1 / 2 ^ 51 - 1 : ℚ) = 1 / 2 ^ 51 := by norm_num
  have hd1 : (1 / 2 ^ 51 / 1 : ℚ) = 1 / 2 ^ 51 := by norm_num
  have hd2 : (1 / 2 ^ 51 / 2 : ℚ) = 1 / 2 ^ 52 := by norm_num
  have hm1 : (1 / 2 * (1 / 2 ^ 51) : ℚ) = 1 / 2 ^ 52 := by norm_num
  have hm2 : (1 / 2 * (1 / 2 ^ 52) : ℚ) = 1 / 2 ^ 53 := by norm_num
  simp only [Trapzd.afterFl]
  rw [h3, h2.1, h1.1]
  simp only [Trapzd_nextFl_a, Trapzd_nextFl_b, Trapzd.new, List.nil_append, hd,
    roundDouble_inv_pow, hd1, hd2, hm1, hm2, roundDouble_one_plus_ulp,
    roundDouble_one_plus_half_ulp, List.append_assoc]
  rfl

/-- In `double` arithmetic the second call of `next()` on `Midpnt(f, 1, 1 + 2^-52)` evaluates
`f` at the endpoint `1`, which the first call has sampled, and at the endpoint
`1 + 2^-52`. -/
theorem Midpnt_rounded_resamples (f : ℚ → ℚ) :
    (Midpnt.afterFl roundDouble 2 (Midpnt.new f 1 (1 + 1 / 2 ^ 52))).evals =
      [1, 1, 1 + 1 / 2 ^ 52] := by
  have h1 := Midpnt_nextFl_first roundDouble (Midpnt.new f 1 (1 + 1 / 2 ^ 52)) rfl
  have hn : ((Midpnt.new f 1 (1 + 1 / 2 ^ 52)).nextFl roundDouble).2.n = 1 := by
    rw [Midpnt_nextFl_n]
    rfl
  have h2 := Midpnt_nextFl_second roundDouble _ hn
  have hd : (1 + 1 / 2 ^ 52 - 1 : ℚ) = 1 / 2 ^ 52 := by norm_num
  have h31 : (3 * 1 : ℚ) = 3 := by norm_num
  have hh : (1 / 2 * (2 : ℚ)) = 1 := by norm_num
  simp only [Midpnt.afterFl]
  rw [h2, h1]
  simp only [Midpnt_nextFl_a, Midpnt_nextFl_b, Midpnt.new, List.nil_append, hd, h31,
    roundDouble_inv_pow, roundDouble_three, roundDouble_ulp_third, roundDouble_two_thirds_ulp,
    roundDouble_sixth_ulp, roundDouble_one_plus_sixth_ulp, roundDouble_one_plus_two_thirds_ulp,
    roundDouble_two_plus_half_ulp, hh, roundDouble_one]
  rfl

/-- The endpoint `1 + 2^-51` is a `double`. -/
theorem roundDouble_one_plus_two_ulp : roundDouble (1 + 1 / 2 ^ 51) = 1 + 1 / 2 ^ 51 := by
  have h := roundDouble_exact 0 (2 ^ 52 + 2) (by norm_num) (by norm_num)
  have e : (((2 ^ 52 + 2 : ℤ) : ℚ)) / 2 ^ (0 + 52) = 1 + 1 / 2 ^ 51 := by norm_num
  rwa [e] at h

/-- In `double` arithmetic the first two calls of `next()` on `Trapzd(f, 1, 1 + 2^-51)`
evaluate `f` at the endpoints and at `1 + 2^-52`. -/
theorem Trapzd_rounded_two_calls (f : ℚ → ℚ) :
    (Trapzd.afterFl roundDouble 2 (Trapzd.new f 1 (1 + 1 / 2 ^ 51))).evals =
      [1, 1 + 1 / 2 ^ 51, 1 + 1 / 2 ^ 52] := by
  have h1 := Trapzd_nextFl_first roundDouble (Trapzd.new f 1 (1 + 1 / 2 ^ 51)) rfl
  have h2 := Trapzd_nextFl_second roundDouble
    ((Trapzd.new f 1 (1 + 1 / 2 ^ 51)).nextFl roundDouble).2 h1.2.2
  have hd : (1 + 1 / 2 ^ 51 - 1 : ℚ) = 1 / 2 ^ 51 := by norm_num
  have hd1 : (1 / 2 ^ 51 / 1 : ℚ) = 1 / 2 ^ 51 := by norm_num
  have hm1 : (1 / 2 * (1 / 2 ^ 51) : ℚ) = 1 / 2 ^ 52 := by norm_num
  simp only [Trapzd.afterFl]
  rw [h2.1, h1.1]
  simp only [Trapzd_nextFl_a, Trapzd_nextFl_b, Trapzd.new, List.nil_append, hd,
    roundDouble_inv_pow, hd1, hm1, roundDouble_one_plus_ulp]
  rfl

/-- In `double` arithmetic the first call of `next()` on `Midpnt(f, 1, 1 + 2^-52)` evaluates
`f` at the endpoint `1`. -/
theorem Midpnt_rounded_first_call (f : ℚ → ℚ) :
    (Midpnt.afterFl roundDouble 1 (Midpnt.new f 1 (1 + 1 / 2 ^ 52))).evals = [1] := by
  have hh : (1 / 2 * (2 : ℚ)) = 1 := by norm_num
  simp only [Midpnt.afterFl]
  rw [Midpnt_nextFl_first roundDouble _ rfl]
  simp only [Midpnt.new, List.nil_append, roundDouble_two_plus_half_ulp, hh, roundDouble_one]

/-! ### C13: the statement -/

/-- C13 (amended): in exact arithmetic, for all `a < b` and every `k` with `1 ≤ k ≤ 21`, the
points at which `Midpnt(f, a, b)` evaluates `f` over its first `k` calls of `next()` are
pairwise distinct and are exactly the `3^(k-1)` panel midpoints `a + (i + 1/2)*(b-a)/3^(k-1)`; for `k ≥ 2` the
`k`-th call evaluates `f` only at `2*3^(k-2)` midpoints of the level-`k` grid that were not
sampled by an earlier call; with any rounding of the `double` operations the first `k` calls
still evaluate `f` exactly `3^(k-1)` times. -/
theorem C13_midpnt_never_recomputes {K : Type} [LinearOrderedField K] (f : K → K) (a b : K)
    (hab : a < b) (k : Nat) (h1 : 1 ≤ k) (h21 : k ≤ 21) :
    List.Perm (Midpnt.after k (Midpnt.new f a b)).evals (panelMidpoints a b (3 ^ (k - 1))) ∧
    (Midpnt.after k (Midpnt.new f a b)).evals.Nodup ∧
    (Midpnt.after k (Midpnt.new f a b)).evals.length = 3 ^ (k - 1) ∧
    (2 ≤ k → ∃ new : List K,
      (Midpnt.after k (Midpnt.new f a b)).evals =
        (Midpnt.after (k - 1) (Midpnt.new f a b)).evals ++ new ∧
      new.length = 2 * 3 ^ (k - 2) ∧
      (∀ x ∈ new, x ∉ (Midpnt.after (k - 1) (Midpnt.new f a b)).evals) ∧
      (∀ x ∈ new, x ∈ panelMidpoints a b (3 ^ (k - 1)))) ∧
    (∀ fl : K → K, (Midpnt.afterFl fl k (Midpnt.new f a b)).evals.length = 3 ^ (k - 1)) := by
  have hp := Midpnt_evals_perm f a b k h1 h21
  have hnd : (Midpnt.after k (Midpnt.new f a b)).evals.Nodup :=
    hp.nodup_iff.mpr (panelMidpoints_nodup a b hab _)
  refine ⟨hp, hnd, by rw [hp.length_eq, panelMidpoints_length], fun h2 => ?_,
    fun fl => Midpnt_afterFl_evals_total fl f a b k h1 h21⟩
  obtain ⟨j, rfl⟩ : ∃ j, k = j + 1 := ⟨k - 1, by omega⟩
  have he := Midpnt_after_evals_succ f a b j (by omega) (by omega)
  rw [he] at hnd
  refine ⟨(Midpnt.after j (Midpnt.new f a b)).newPoints j, ?_, ?_, ?_, ?_⟩
  · rw [Nat.add_sub_cancel, he]
  · rw [Midpnt_newPoints_length, show j + 1 - 2 = j - 1 by omega]
  · intro x hx hold
    rw [Nat.add_sub_cancel] at hold
    exact (List.nodup_append.mp hnd).2.2 hold hx
  · intro x hx
    exact hp.subset (by rw [he]; exact List.mem_append_right _ hx)

/-- Witness of C13 (amended): the first two calls on `[0, 1]` evaluate the function at the
three midpoints `1/6`, `1/2`, `5/6` of the level-2 grid, each once. -/
theorem C13_midpnt_never_recomputes_witness :
    ((0 : ℚ) < 1 ∧ 1 ≤ 2 ∧ 2 ≤ 21) ∧
    (Midpnt.after 2 (Midpnt.new (fun x : ℚ => x * x) 0 1)).evals = [1 / 2, 1 / 6, 5 / 6] ∧
    List.Perm (Midpnt.after 2 (Midpnt.new (fun x : ℚ => x * x) 0 1)).evals
      (panelMidpoints 0 1 (3 ^ (2 - 1))) ∧
    (Midpnt.after 2 (Midpnt.new (fun x : ℚ => x * x) 0 1)).evals.Nodup :=
  ⟨⟨by norm_num, by decide, by decide⟩, Midpnt_evals_two_calls,
    (C13_midpnt_never_recomputes (fun x : ℚ => x * x) 0 1 (by norm_num) 2 (by decide)
      (by decide)).1,
    (C13_midpnt_never_recomputes (fun x : ℚ => x * x) 0 1 (by norm_num) 2 (by decide)
      (by decide)).2.1⟩

/-- C13 as stated fails at `k = 22`: the 22nd call of `next()` evaluates the function
nowhere, so the first 22 calls sample `3^20` points and not the `3^21` midpoints of the
level-22 grid.  It also fails in `double` arithmetic at `k = 2` on the interval
`[1, 1 + 2^-52]`, whose endpoints are doubles: the first call evaluates `f` at `1`, and the
second call evaluates `f` at `1` once more and at `1 + 2^-52`, so the points are not
pairwise distinct. -/
theorem C13_counterexample :
    ((Midpnt.after 22 (Midpnt.new (fun x : ℚ => x * x) 0 1)).evals =
        (Midpnt.after 21 (Midpnt.new (fun x : ℚ => x * x) 0 1)).evals ∧
      (Midpnt.after 22 (Midpnt.new (fun x : ℚ => x * x) 0 1)).evals.length = 3 ^ 20 ∧
      ¬ List.Perm (Midpnt.after 22 (Midpnt.new (fun x : ℚ => x * x) 0 1)).evals
        (panelMidpoints 0 1 (3 ^ (22 - 1)))) ∧
    ((1 : ℚ) < 1 + 1 / 2 ^ 52 ∧ roundDouble 1 = 1 ∧
      roundDouble (1 + 1 / 2 ^ 52) = 1 + 1 / 2 ^ 52) ∧
    (Midpnt.afterFl roundDouble 1 (Midpnt.new (fun x : ℚ => x * x) 1 (1 + 1 / 2 ^ 52))).evals =
      [1] ∧
    (Midpnt.afterFl roundDouble 2 (Midpnt.new (fun x : ℚ => x * x) 1 (1 + 1 / 2 ^ 52))).evals =
      [1, 1, 1 + 1 / 2 ^ 52] ∧
    ¬ (Midpnt.afterFl roundDouble 2
        (Midpnt.new (fun x : ℚ => x * x) 1 (1 + 1 / 2 ^ 52))).evals.Nodup := by
  refine ⟨Midpnt_call_22_samples_nothing, ⟨by norm_num, roundDouble_one,
    roundDouble_one_plus_ulp⟩, Midpnt_rounded_first_call _, Midpnt_rounded_resamples _, ?_⟩
  rw [Midpnt_rounded_resamples]
  simp

/-! ### C14: the statement -/

/-- C14 (amended): in exact arithmetic, for all `a < b` and every `k` with `2 ≤ k ≤ 32`, the
`k`-th call of `next()` on `Trapzd(f, a, b)` evaluates `f` exactly `2^(k-2)` times, at
precisely the midpoints `a + (i + 1/2)*(b-a)/2^(k-2)`, `i = 0 .. 2^(k-2)-1`, of the
previous level's panels, each once, and at no point evaluated by an earlier call; with any
rounding of the `double` operations the `k`-th call still evaluates `f` exactly `2^(k-2)`
times. -/
theorem C14_trapzd_new_midpoints {K : Type} [LinearOrderedField K] (f : K → K) (a b : K)
    (hab : a < b) (k : Nat) (h2 : 2 ≤ k) (h32 : k ≤ 32) :
    (Trapzd.after k (Trapzd.new f a b)).evals =
      (Trapzd.after (k - 1) (Trapzd.new f a b)).evals ++ panelMidpoints a b (2 ^ (k - 2)) ∧
    (panelMidpoints a b (2 ^ (k - 2))).length = 2 ^ (k - 2) ∧
    (panelMidpoints a b (2 ^ (k - 2))).Nodup ∧
    (∀ x ∈ panelMidpoints a b (2 ^ (k - 2)),
      x ∉ (Trapzd.after (k - 1) (Trapzd.new f a b)).evals) ∧
    (∀ fl : K → K, (Trapzd.afterFl fl k (Trapzd.new f a b)).evals.length =
      (Trapzd.afterFl fl (k - 1) (Trapzd.new f a b)).evals.length + 2 ^ (k - 2)) := by
  refine ⟨?_, panelMidpoints_length _ _ _, panelMidpoints_nodup a b hab _, ?_,
    fun fl => Trapzd_afterFl_evals_length fl f a b k h2 h32⟩
  · obtain ⟨j, rfl⟩ : ∃ j, k = j + 1 := ⟨k - 1, by omega⟩
    simp only [Nat.add_sub_cancel, show j + 1 - 2 = j - 1 by omega]
    exact Trapzd_after_evals_succ f a b j (by omega) (by omega)
  obtain ⟨j, rfl⟩ : ∃ j, k = j + 1 := ⟨k - 1, by omega⟩
  simp only [Nat.add_sub_cancel, show j + 1 - 2 = j - 1 by omega]
  intro x hx hold
  obtain ⟨i, hi⟩ := Trapzd_evals_on_grid f a b j (by omega) (by omega) x hold
  simp only [panelMidpoints, List.mem_map, List.mem_range] at hx
  obtain ⟨l, -, hl⟩ := hx
  exact panelMidpoint_not_on_grid a b hab j l i (hl.trans hi)

/-- Witness of C14 (amended): the third call on `[0, 1]` evaluates the function at `1/4` and
`3/4`. -/
theorem C14_trapzd_new_midpoints_witness :
    ((0 : ℚ) < 1 ∧ 2 ≤ 3 ∧ 3 ≤ 32) ∧
    (Trapzd.after 3 (Trapzd.new (fun x : ℚ => x * x) 0 1)).evals =
      (Trapzd.after (3 - 1) (Trapzd.new (fun x : ℚ => x * x) 0 1)).evals ++
        panelMidpoints 0 1 (2 ^ (3 - 2)) ∧
    panelMidpoints (0 : ℚ) 1 (2 ^ (3 - 2)) = [1 / 4, 3 / 4] := by
  refine ⟨⟨by norm_num, by decide, by decide⟩,
    (C14_trapzd_new_midpoints (fun x : ℚ => x * x) 0 1 (by norm_num) 3 (by decide)
      (by decide)).1, ?_⟩
  simp [panelMidpoints, List.range_succ]
  norm_num

/-- C14 as stated fails at `k = 33`: the 33rd call of `next()` evaluates the function
nowhere, instead of at the `2^31` midpoints of the previous level's panels.  It also fails
in `double` arithmetic at `k = 3` on the interval `[1, 1 + 2^-51]`, whose endpoints are
doubles: the third call evaluates `f` at `1`, where the first call has evaluated it, and at
`1 + 2^-52`, where the second call has evaluated it. -/
theorem C14_counterexample :
    ((Trapzd.after 33 (Trapzd.new (fun x : ℚ => x * x) 0 1)).evals =
        (Trapzd.after 32 (Trapzd.new (fun x : ℚ => x * x) 0 1)).evals ∧
      (panelMidpoints (0 : ℚ) 1 (2 ^ (33 - 2))).length = 2147483648 ∧
      (Trapzd.after 33 (Trapzd.new (fun x : ℚ => x * x) 0 1)).evals ≠
        (Trapzd.after 32 (Trapzd.new (fun x : ℚ => x * x) 0 1)).evals ++
          panelMidpoints 0 1 (2 ^ (33 - 2))) ∧
    ((1 : ℚ) < 1 + 1 / 2 ^ 51 ∧ roundDouble 1 = 1 ∧
      roundDouble (1 + 1 / 2 ^ 51) = 1 + 1 / 2 ^ 51) ∧
    (Trapzd.afterFl roundDouble 2 (Trapzd.new (fun x : ℚ => x * x) 1 (1 + 1 / 2 ^ 51))).evals =
      [1, 1 + 1 / 2 ^ 51, 1 + 1 / 2 ^ 52] ∧
    (Trapzd.afterFl roundDouble 3 (Trapzd.new (fun x : ℚ => x * x) 1 (1 + 1 / 2 ^ 51))).evals =
      [1, 1 + 1 / 2 ^ 51, 1 + 1 / 2 ^ 52, 1, 1 + 1 / 2 ^ 52] :=
  ⟨Trapzd_call_33_samples_nothing, ⟨by norm_num, roundDouble_one,
    roundDouble_one_plus_two_ulp⟩, Trapzd_rounded_two_calls _, Trapzd_rounded_resamples _⟩

/-! ### Values in `double` arithmetic -/

section RoundedValues

variable {K : Type} [LinearOrderedField K]

theorem Trapzd_nextFl_func (fl : K → K) (t : Trapzd K) : (t.nextFl fl).2.func = t.func := by
  simp only [Trapzd.nextFl]
  split_ifs <;> rfl

theorem Midpnt_nextFl_funk (fl : K → K) (t : Midpnt K) : (t.nextFl fl).2.funk = t.funk := by
  simp only [Midpnt.nextFl]
  split_ifs <;> rfl

/-- Value of the first call of `Trapzd::next` with rounding. -/
theorem Trapzd_nextFl_first_value (fl : K → K) (t : Trapzd K) (h : t.n = 0) :
    (t.nextFl fl).1 = fl (fl ((1 / 2) * fl (t.b - t.a)) * fl (t.func t.a + t.func t.b)) ∧
    (t.nextFl fl).2.s = fl (fl ((1 / 2) * fl (t.b - t.a)) * fl (t.func t.a + t.func t.b)) := by
  have e : wrap32 (t.n + 1) = 1 := by rw [h]; decide
  simp [Trapzd.nextFl, e]

/-- Value of the second call of `Trapzd::next` with rounding, `x` being the point of its
single evaluation. -/
theorem Trapzd_nextFl_second_value (fl : K → K) (t : Trapzd K) (h : t.n = 1) :
    (t.nextFl fl).1 =
      fl ((1 / 2) * fl (t.s + fl (fl (fl (t.b - t.a) *
        fl (0 + t.func (fl (t.a + fl ((1 / 2) * fl (fl (t.b - t.a) / 1)))))) / 1))) := by
  have e : wrap32 (t.n + 1) = 2 := by rw [h]; decide
  have hc : loopCount 2 = 0 := by decide
  have h2 : ¬ ((2 : Int) = 1) := by decide
  simp only [Trapzd.nextFl, e, if_neg h2, hc, shiftLoop, Int.cast_one, Int.toNat_one,
    Trapzd.sumLoopFl]

/-- Value of the first call of `Midpnt::next` with rounding. -/
theorem Midpnt_nextFl_first_value (fl : K → K) (t : Midpnt K) (h : t.n = 0) :
    (t.nextFl fl).1 = fl (fl (t.b - t.a) * t.funk (fl ((1 / 2) * fl (t.a + t.b)))) ∧
    (t.nextFl fl).2.s = fl (fl (t.b - t.a) * t.funk (fl ((1 / 2) * fl (t.a + t.b)))) := by
  have e : wrap32 (t.n + 1) = 1 := by rw [h]; decide
  simp [Midpnt.nextFl, e, Midpnt.func]

/-- Value of the second call of `Midpnt::next` with rounding, `x` and `y` being the points
of its two evaluations. -/
theorem Midpnt_nextFl_second_value (fl : K → K) (t : Midpnt K) (h : t.n = 1) :
    ∃ x y : K, (t.nextFl fl).1 =
      fl (fl (t.s + fl (fl (fl (t.b - t.a) * fl (fl (0 + t.funk x) + t.funk y)) / 1)) / 3) := by
  have e : wrap32 (t.n + 1) = 2 := by rw [h]; decide
  have hc : loopCount 2 = 0 := by decide
  have h2 : ¬ ((2 : Int) = 1) := by decide
  simp only [Midpnt.nextFl, e, if_neg h2, hc, tripleLoop, Int.cast_one, Int.toNat_one,
    Midpnt.sumLoopFl, Midpnt.func]
  exact ⟨_, _, rfl⟩

end RoundedValues

theorem roundDouble_two : roundDouble 2 = 2 := by
  have h := roundDouble_eq 2 1 (by norm_num) (by norm_num)
  have hr : (2 : ℚ) / 2 ^ ((1 : ℤ) - 52) = ((4503599627370496 : ℤ) : ℚ) := by
    rw [show ((1 : ℤ) - 52) = -51 by norm_num, zpow_neg]
    norm_num
  rw [h, hr, roundHalfEven_intCast, show ((1 : ℤ) - 52) = -51 by norm_num, zpow_neg]
  norm_num

theorem roundDouble_half : roundDouble (1 / 2) = 1 / 2 := by
  have h := roundDouble_inv_pow 1
  rwa [pow_one] at h

/-- In `double` arithmetic the first two calls of `next()` on `Trapzd(1, 0, 1)` both
return `1`. -/
theorem Trapzd_rounded_const :
    ((Trapzd.new (fun _ : ℚ => 1) 0 1).nextFl roundDouble).1 = 1 ∧
    (((Trapzd.new (fun _ : ℚ => 1) 0 1).nextFl roundDouble).2.nextFl roundDouble).1 = 1 := by
  have h1 := Trapzd_nextFl_first_value roundDouble (Trapzd.new (fun _ : ℚ => 1) 0 1) rfl
  have hn := (Trapzd_nextFl_first roundDouble (Trapzd.new (fun _ : ℚ => 1) 0 1) rfl).2.2
  have h2 := Trapzd_nextFl_second_value roundDouble _ hn
  have e1 : ((Trapzd.new (fun _ : ℚ => 1) 0 1).nextFl roundDouble).1 = 1 := by
    rw [h1.1]
    simp only [Trapzd.new, sub_zero, roundDouble_one, mul_one, roundDouble_half]
    norm_num [roundDouble_two, roundDouble_one]
  have es : ((Trapzd.new (fun _ : ℚ => 1) 0 1).nextFl roundDouble).2.s = 1 := by
    rw [h1.2, ← h1.1, e1]
  refine ⟨e1, ?_⟩
  rw [h2, es]
  simp only [Trapzd_nextFl_a, Trapzd_nextFl_b, Trapzd_nextFl_func, Trapzd.new, sub_zero,
    zero_add, roundDouble_one, mul_one, div_one]
  norm_num [roundDouble_two, roundDouble_one]

/-- In `double` arithmetic the first two calls of `next()` on `Midpnt(1, 0, 1)` both
return `1`. -/
theorem Midpnt_rounded_const :
    ((Midpnt.new (fun _ : ℚ => 1) 0 1).nextFl roundDouble).1 = 1 ∧
    (((Midpnt.new (fun _ : ℚ => 1) 0 1).nextFl roundDouble).2.nextFl roundDouble).1 = 1 := by
  have h1 := Midpnt_nextFl_first_value roundDouble (Midpnt.new (fun _ : ℚ => 1) 0 1) rfl
  have hn : ((Midpnt.new (fun _ : ℚ => 1) 0 1).nextFl roundDouble).2.n = 1 := by
    rw [Midpnt_nextFl_n]
    rfl
  obtain ⟨x, y, h2⟩ := Midpnt_nextFl_second_value roundDouble _ hn
  have e1 : ((Midpnt.new (fun _ : ℚ => 1) 0 1).nextFl roundDouble).1 = 1 := by
    rw [h1.1]
    simp only [Midpnt.new, sub_zero, roundDouble_one, mul_one]
  have es : ((Midpnt.new (fun _ : ℚ => 1) 0 1).nextFl roundDouble).2.s = 1 := by
    rw [h1.2, ← h1.1, e1]
  refine ⟨e1, ?_⟩
  rw [h2, es]
  simp only [Midpnt_nextFl_a, Midpnt_nextFl_b, Midpnt_nextFl_funk, Midpnt.new, sub_zero,
    zero_add, roundDouble_one, one_mul, div_one]
  norm_num [roundDouble_two, roundDouble_three, roundDouble_one]

theorem roundDouble_zero : roundDouble 0 = 0 := by
  simp [roundDouble]

/-! ### C11: the counterexample -/

/-- C11 as stated fails for a constant integrand: for `f = 1` on `[0, 1]` the first two calls
of `next()` return the same value `1`, for both rules, in exact arithmetic and in `double`
arithmetic. -/
theorem C11_counterexample :
    ((0 : ℚ) < 1 ∧
      trapEstimate (fun _ : ℚ => 1) 0 1 1 = 1 ∧ trapEstimate (fun _ : ℚ => 1) 0 1 2 = 1 ∧
      midEstimate (fun _ : ℚ => 1) 0 1 1 = 1 ∧ midEstimate (fun _ : ℚ => 1) 0 1 2 = 1) ∧
    (roundDouble 0 = 0 ∧ roundDouble 1 = 1) ∧
    (((Trapzd.new (fun _ : ℚ => 1) 0 1).nextFl roundDouble).1 = 1 ∧
      (((Trapzd.new (fun _ : ℚ => 1) 0 1).nextFl roundDouble).2.nextFl roundDouble).1 = 1) ∧
    (((Midpnt.new (fun _ : ℚ => 1) 0 1).nextFl roundDouble).1 = 1 ∧
      (((Midpnt.new (fun _ : ℚ => 1) 0 1).nextFl roundDouble).2.nextFl roundDouble).1 = 1) :=
  ⟨const_two_calls_equal, ⟨roundDouble_zero, roundDouble_one⟩, Trapzd_rounded_const,
    Midpnt_rounded_const⟩

end Foam
